import Mathlib

/-!
# protoc-gen-jsonschema: the descriptor-to-schema converter

A shallow embedding of `internal/converter/types.go`.

* Go strings are Lean strings; the `strings`, `strconv`, `unicode` and `regexp`
  functions the converter calls are written out on lists of characters by
  structural recursion.
* A Go `map[string]V` is an association list with unique keys (`mapSet`,
  `mapGet`); the order of the list is not observable, and the order in which
  `range` visits a map is a parameter (`RangeOrder`).
* A Go pointer that may be nil is an `Option`.  A nil dereference and running
  out of recursion fuel are the two ways a run can stop without a result
  (`Crash`).
* `convertField` and `convertMessageType` are mutually recursive through the
  type registry, so they take a fuel argument that bounds the message nesting.
-/

namespace converter

/-! ## Go library functions -/

/-- Predicate `unicode.IsSpace`: the Unicode white space characters. -/
def isSpace (c : Char) : Bool :=
  let n := c.toNat
  (9 ≤ n && n ≤ 13) || n == 32 || n == 0x85 || n == 0xA0 || n == 0x1680 ||
  (0x2000 ≤ n && n ≤ 0x200A) || n == 0x2028 || n == 0x2029 || n == 0x202F ||
  n == 0x205F || n == 0x3000

/-- Drop leading white space. -/
def trimLeft : List Char → List Char
  | [] => []
  | c :: cs => if isSpace c then trimLeft cs else c :: cs

/-- Function `strings.TrimSpace`. -/
def TrimSpace (s : String) : String :=
  String.mk (trimLeft (trimLeft s.data).reverse).reverse

/-- Split a character list at every occurrence of a one-character separator. -/
def splitChars (sep : Char) : List Char → List (List Char)
  | [] => [[]]
  | c :: cs =>
    match splitChars sep cs with
    | [] => [[]]
    | h :: t => if c = sep then [] :: h :: t else (c :: h) :: t

/-- Function `strings.Split` for a separator of one character: an input
without the separator (the empty string included) gives one piece. -/
def Split (s : String) (sep : Char) : List String :=
  (splitChars sep s.data).map String.mk

/-- Whether `sub` occurs in the character list. -/
def containsChars (sub : List Char) : List Char → Bool
  | [] => sub.isEmpty
  | c :: cs => sub.isPrefixOf (c :: cs) || containsChars sub cs

/-- Function `strings.Contains`. -/
def Contains (s sub : String) : Bool := containsChars sub.data s.data

/-- Function `strings.HasSuffix`. -/
def HasSuffix (s suffix : String) : Bool := suffix.data.isSuffixOf s.data

/-- Function `unicode.ToLower` on the ASCII letters and on the two other
runes whose lower case is an ASCII letter (KELVIN SIGN and LATIN CAPITAL
LETTER I WITH DOT ABOVE); every other rune is left as it is. -/
def toLowerRune (c : Char) : Char :=
  if c.toNat = 0x212A then 'k'
  else if c.toNat = 0x130 then 'i'
  else c.toLower

/-- Function `strings.ToLower` at the table `toLowerRune`, which is exact on
the ASCII names of the directives; `ToLowerWith` below takes the table of
`unicode.ToLower` as a parameter. -/
def ToLower (s : String) : String := String.mk (s.data.map toLowerRune)

/-- Value of a decimal digit, none for any other character. -/
def digitValue (c : Char) : Option Nat :=
  if 48 ≤ c.toNat ∧ c.toNat ≤ 57 then some (c.toNat - 48) else none

/-- Read a list of decimal digits, most significant first, onto `acc`. -/
def parseDigits : List Char → Nat → Option Nat
  | [], acc => some acc
  | c :: cs, acc =>
    match digitValue c with
    | some d => parseDigits cs (acc * 10 + d)
    | none => none

/-- Function `strconv.Atoi` on a 64-bit platform: an optional sign, then at
least one decimal digit and nothing else, with a value that fits `int`; `none`
stands for a non-nil error. -/
def Atoi (s : String) : Option Int :=
  let (neg, digits) :=
    match s.data with
    | '-' :: r => (true, r)
    | '+' :: r => (false, r)
    | r => (false, r)
  if digits.isEmpty then none
  else
    match parseDigits digits 0 with
    | none => none
    | some n =>
      let v : Int := if neg then -(n : Int) else (n : Int)
      if -(2 : Int) ^ 63 ≤ v ∧ v ≤ (2 : Int) ^ 63 - 1 then some v else none

/-- Function `strconv.Itoa`. -/
def Itoa (n : Int) : String :=
  match n with
  | Int.ofNat m => String.mk (Nat.toDigits 10 m)
  | Int.negSucc m => String.mk ('-' :: Nat.toDigits 10 (m + 1))

/-- Class `[A-Z]` of the regular expressions. -/
def isUpperAZ (c : Char) : Bool := 65 ≤ c.toNat && c.toNat ≤ 90

/-- Class `[a-z]` of the regular expressions. -/
def isLowerAZ (c : Char) : Bool := 97 ≤ c.toNat && c.toNat ≤ 122

/-- Class `[a-z0-9]` of the regular expressions. -/
def isLowerOrDigit (c : Char) : Bool :=
  isLowerAZ c || (48 ≤ c.toNat && c.toNat ≤ 57)

/-- Replacement `matchFirstCap.ReplaceAllString(str, "${1}" + sep + "${2}")`
for `matchFirstCap = (.)([A-Z][a-z]+)`: scanning from the left, at an
any-character-but-newline followed by an upper-case letter and a lower-case
letter, the separator is put after the first character and the greedy run of
lower-case letters is copied (`inRun`); the search resumes where the match
ended. -/
def replaceFirstCap (sep : List Char) : Bool → List Char → List Char
  | _, [] => []
  | inRun, c :: u :: l :: rest2 =>
    if inRun && isLowerAZ c then c :: replaceFirstCap sep true (u :: l :: rest2)
    else if c ≠ '\n' ∧ isUpperAZ u ∧ isLowerAZ l then
      c :: (sep ++ u :: l :: replaceFirstCap sep true rest2)
    else c :: replaceFirstCap sep false (u :: l :: rest2)
  | inRun, c :: rest =>
    if inRun && isLowerAZ c then c :: replaceFirstCap sep true rest
    else c :: replaceFirstCap sep false rest

/-- Replacement `matchAllCap.ReplaceAllString(str, "${1}" + sep + "${2}")`
for `matchAllCap = ([a-z0-9])([A-Z])`. -/
def replaceAllCap (sep : List Char) : List Char → List Char
  | [] => []
  | c :: u :: rest2 =>
    if isLowerOrDigit c ∧ isUpperAZ u then c :: (sep ++ u :: replaceAllCap sep rest2)
    else c :: replaceAllCap sep (u :: rest2)
  | [c] => [c]

/-- Function `ToSnakeCase`. -/
def ToSnakeCase (str : String) : String :=
  let snake := replaceFirstCap ['_'] false str.data
  let snake := replaceAllCap ['_'] snake
  ToLower (String.mk snake)

/-- Function `ToSplitCase`. -/
def ToSplitCase (str : String) : String :=
  let snake := replaceFirstCap [' '] false str.data
  let snake := replaceAllCap [' '] snake
  String.mk snake

/-! ## Go maps -/

/-- Assignment `m[k] = v` on a map held as an association list. -/
def mapSet {V : Type} : List (String × V) → String → V → List (String × V)
  | [], k, v => [(k, v)]
  | (k1, v1) :: r, k, v => if k1 = k then (k1, v) :: r else (k1, v1) :: mapSet r k v

/-- Lookup `m[k]` with the presence flag. -/
def mapGet {V : Type} : List (String × V) → String → Option V
  | [], _ => none
  | (k1, v1) :: r, k => if k1 = k then some v1 else mapGet r k

/-- Keys of a map. -/
def mapKeys {V : Type} (m : List (String × V)) : List String := m.map Prod.fst

/-! ## Descriptors (package `descriptor`) -/

/-- Record `descriptor.SourceCodeInfo_Location`: the comments attached to a
declaration. -/
structure SourceCodeInfo_Location where
  LeadingComments : Option String
  TrailingComments : Option String
  LeadingDetachedComments : List String

/-- Getter `GetLeadingComments`. -/
def SourceCodeInfo_Location.GetLeadingComments (sl : SourceCodeInfo_Location) : String :=
  sl.LeadingComments.getD ""

/-- Getter `GetTrailingComments`. -/
def SourceCodeInfo_Location.GetTrailingComments (sl : SourceCodeInfo_Location) : String :=
  sl.TrailingComments.getD ""

/-- Getter `GetLeadingDetachedComments`. -/
def SourceCodeInfo_Location.GetLeadingDetachedComments (sl : SourceCodeInfo_Location) :
    List String :=
  sl.LeadingDetachedComments

/-- Record `descriptor.EnumValueDescriptorProto`; `Number` is a `*int32`. -/
structure EnumValueDescriptorProto where
  Name : Option String
  Number : Option Int

/-- Record `descriptor.EnumDescriptorProto`.  The converter reads the name as
`*enumDescriptor.Name`; the compiler front end always sets it. -/
structure EnumDescriptorProto where
  Name : String
  Value : List EnumValueDescriptorProto

/-- Values of `descriptor.FieldDescriptorProto_Type` (an `int32`). -/
abbrev FieldDescriptorProto_Type := Int

def FieldDescriptorProto_TYPE_DOUBLE : FieldDescriptorProto_Type := 1
def FieldDescriptorProto_TYPE_FLOAT : FieldDescriptorProto_Type := 2
def FieldDescriptorProto_TYPE_INT64 : FieldDescriptorProto_Type := 3
def FieldDescriptorProto_TYPE_UINT64 : FieldDescriptorProto_Type := 4
def FieldDescriptorProto_TYPE_INT32 : FieldDescriptorProto_Type := 5
def FieldDescriptorProto_TYPE_FIXED64 : FieldDescriptorProto_Type := 6
def FieldDescriptorProto_TYPE_FIXED32 : FieldDescriptorProto_Type := 7
def FieldDescriptorProto_TYPE_BOOL : FieldDescriptorProto_Type := 8
def FieldDescriptorProto_TYPE_STRING : FieldDescriptorProto_Type := 9
def FieldDescriptorProto_TYPE_GROUP : FieldDescriptorProto_Type := 10
def FieldDescriptorProto_TYPE_MESSAGE : FieldDescriptorProto_Type := 11
def FieldDescriptorProto_TYPE_BYTES : FieldDescriptorProto_Type := 12
def FieldDescriptorProto_TYPE_UINT32 : FieldDescriptorProto_Type := 13
def FieldDescriptorProto_TYPE_ENUM : FieldDescriptorProto_Type := 14
def FieldDescriptorProto_TYPE_SFIXED32 : FieldDescriptorProto_Type := 15
def FieldDescriptorProto_TYPE_SFIXED64 : FieldDescriptorProto_Type := 16
def FieldDescriptorProto_TYPE_SINT32 : FieldDescriptorProto_Type := 17
def FieldDescriptorProto_TYPE_SINT64 : FieldDescriptorProto_Type := 18

/-- Table `FieldDescriptorProto_Type_name`. -/
def FieldDescriptorProto_Type_name : List (Int × String) :=
  [(1, "TYPE_DOUBLE"), (2, "TYPE_FLOAT"), (3, "TYPE_INT64"), (4, "TYPE_UINT64"),
   (5, "TYPE_INT32"), (6, "TYPE_FIXED64"), (7, "TYPE_FIXED32"), (8, "TYPE_BOOL"),
   (9, "TYPE_STRING"), (10, "TYPE_GROUP"), (11, "TYPE_MESSAGE"), (12, "TYPE_BYTES"),
   (13, "TYPE_UINT32"), (14, "TYPE_ENUM"), (15, "TYPE_SFIXED32"), (16, "TYPE_SFIXED64"),
   (17, "TYPE_SINT32"), (18, "TYPE_SINT64")]

/-- Method `FieldDescriptorProto_Type.String`: the name in the table, else the
number in decimal. -/
def FieldDescriptorProto_Type.String (t : FieldDescriptorProto_Type) : String :=
  match FieldDescriptorProto_Type_name.lookup t with
  | some n => n
  | none => Itoa t

/-- Values of `descriptor.FieldDescriptorProto_Label` (an `int32`). -/
abbrev FieldDescriptorProto_Label := Int

def FieldDescriptorProto_LABEL_OPTIONAL : FieldDescriptorProto_Label := 1
def FieldDescriptorProto_LABEL_REQUIRED : FieldDescriptorProto_Label := 2
def FieldDescriptorProto_LABEL_REPEATED : FieldDescriptorProto_Label := 3

/-- Record `descriptor.FieldDescriptorProto`.  The converter reads the name
and the number also as `*fieldDesc.Name` and `*fieldDesc.Number`; the compiler
front end always sets them.  The other fields are read through their getters
only and may be nil. -/
structure FieldDescriptorProto where
  Name : String
  Number : Int
  Label : Option FieldDescriptorProto_Label
  Type_ : Option FieldDescriptorProto_Type
  TypeName : Option String
  JsonName : Option String

/-- Getter `GetName`. -/
def FieldDescriptorProto.GetName (d : FieldDescriptorProto) : String := d.Name

/-- Getter `GetType`: `TYPE_DOUBLE` when unset. -/
def FieldDescriptorProto.GetType (d : FieldDescriptorProto) : FieldDescriptorProto_Type :=
  d.Type_.getD FieldDescriptorProto_TYPE_DOUBLE

/-- Getter `GetLabel`: `LABEL_OPTIONAL` when unset. -/
def FieldDescriptorProto.GetLabel (d : FieldDescriptorProto) : FieldDescriptorProto_Label :=
  d.Label.getD FieldDescriptorProto_LABEL_OPTIONAL

/-- Getter `GetTypeName`. -/
def FieldDescriptorProto.GetTypeName (d : FieldDescriptorProto) : String := d.TypeName.getD ""

/-- Getter `GetJsonName`. -/
def FieldDescriptorProto.GetJsonName (d : FieldDescriptorProto) : String := d.JsonName.getD ""

/-- Record `descriptor.MessageOptions`, the part the converter reads. -/
structure MessageOptions where
  MapEntry : Option Bool

/-- Getter `GetMapEntry`, defined on a nil receiver too. -/
def GetMapEntry (o : Option MessageOptions) : Bool :=
  match o with
  | some opts => opts.MapEntry.getD false
  | none => false

/-- Record `descriptor.DescriptorProto`.  The converter reads the name also
as `*msg.Name`; the compiler front end always sets it. -/
structure DescriptorProto where
  Name : String
  Field : List FieldDescriptorProto
  NestedType : List DescriptorProto
  EnumType : List EnumDescriptorProto
  Options : Option MessageOptions

/-- Getter `GetName`. -/
def DescriptorProto.GetName (d : DescriptorProto) : String := d.Name

/-- Getter `GetField`. -/
def DescriptorProto.GetField (d : DescriptorProto) : List FieldDescriptorProto := d.Field

/-- Getter `GetNestedType`. -/
def DescriptorProto.GetNestedType (d : DescriptorProto) : List DescriptorProto := d.NestedType

/-- Getter `GetEnumType`. -/
def DescriptorProto.GetEnumType (d : DescriptorProto) : List EnumDescriptorProto := d.EnumType

/-! ## Schema nodes (packages `jsonschema` and `gojsonschema`) -/

def TYPE_ARRAY : String := "array"
def TYPE_BOOLEAN : String := "boolean"
def TYPE_INTEGER : String := "integer"
def TYPE_NUMBER : String := "number"
def TYPE_NULL : String := "null"
def TYPE_OBJECT : String := "object"
def TYPE_STRING : String := "string"

/-- Constant `jsonschema.Version`. -/
def Version : String := "http://json-schema.org/draft-04/schema#"

/-- An entry of `OptionLabels` (a `[]interface{}`): a comment text or the
`*int32` of an enum value. -/
inductive OptionLabel where
  | text (s : String)
  | number (n : Option Int)
  deriving DecidableEq, Repr

/-- Record `jsonschema.Type`, the fields the converter touches.  `Enum` (a
`[]interface{}`) holds the `*int32` numbers of enum values; `Properties` is a
map from property name to node. -/
structure JSONSchemaType where
  Version : String
  Type_ : String
  Properties : List (String × JSONSchemaType)
  AdditionalProperties : Option String
  Items : Option JSONSchemaType
  Enum : List (Option Int)
  OptionLabels : List OptionLabel
  OneOf : List JSONSchemaType
  Title : String
  Description : String
  Format : String
  Pattern : String
  Required : Bool
  PK : Bool
  AutoIncrement : Bool
  Index : Bool
  Query : Bool
  Minimum : Int
  Maximum : Int
  MinLength : Int
  MaxLength : Int
  Order : Int

/-- The zero value `jsonschema.Type{}`. -/
def JSONSchemaType.zero : JSONSchemaType :=
  { Version := "", Type_ := "", Properties := [], AdditionalProperties := none,
    Items := none, Enum := [], OptionLabels := [], OneOf := [], Title := "",
    Description := "", Format := "", Pattern := "", Required := false, PK := false,
    AutoIncrement := false, Index := false, Query := false, Minimum := 0, Maximum := 0,
    MinLength := 0, MaxLength := 0, Order := 0 }

/-! ## The converter -/

/-- Pointer `*ProtoPackage`: the index of a namespace node in the registry. -/
abbrev ProtoPackagePtr := Nat

/-- Lookup table `c.sourceInfo` (declared outside `types.go`): the source
location recorded for a descriptor, nil when there is none. -/
structure SourceInfo where
  GetField : FieldDescriptorProto → Option SourceCodeInfo_Location
  GetEnumValue : EnumValueDescriptorProto → Option SourceCodeInfo_Location
  GetMessage : DescriptorProto → Option SourceCodeInfo_Location

/-- The order in which a `range` loop visits the entries of a map: Go leaves
it unspecified, so it is any rearrangement of the entries. -/
structure RangeOrder where
  visit : List (String × String) → List (String × String)
  perm : ∀ m, (visit m).Perm m

/-- The order that visits the entries as they are listed. -/
def RangeOrder.listed : RangeOrder := ⟨fun m => m, fun m => List.Perm.refl m⟩

/-- The order that visits the entries last to first. -/
def RangeOrder.reversed : RangeOrder := ⟨fun m => m.reverse, fun m => List.reverse_perm m⟩

/-- Record `Converter`: the three configuration switches, the source
locations, the method `lookupType` (declared outside `types.go`; the second
result `false` is `none`) and the visiting order of this run. -/
structure Converter where
  AllowNullValues : Bool
  DisallowAdditionalProperties : Bool
  UseProtoAndJSONFieldnames : Bool
  sourceInfo : SourceInfo
  lookupType : ProtoPackagePtr → String → Option DescriptorProto
  rangeOrder : RangeOrder

/-- How a run stops without returning: a nil pointer dereference, or the
recursion bound of the model reached. -/
inductive Crash where
  | nilDereference
  | fuelExhausted
  deriving DecidableEq, Repr

/-- Outcome of a call: the returned values, or a crash. -/
abbrev Run (α : Type) := Except Crash α

/-- Function `getEnumComment`. -/
def getEnumComment (sl : SourceCodeInfo_Location) : String :=
  TrimSpace sl.GetLeadingComments

/-- The trimmed strings that are not empty (the three `lines = append(...)`
loops of `getComments` and `formatDescription`). -/
def nonBlankTrimmed (strs : List String) : List String :=
  (strs.map TrimSpace).filter (fun s => s != "")

/-- Body of the inner loop of `getComments`: one fragment between `@` signs. -/
def getCommentsTag (ret : List (String × String)) (v : String) : List (String × String) :=
  if Contains v "//" then ret
  else
    let v := TrimSpace v
    let arr := Split v '='
    match arr with
    | [a0] => mapSet ret (ToLower a0) "true"
    | [a0, a1] => mapSet ret (ToLower a0) a1
    | _ => ret

/-- Function `getComments`. -/
def getComments (sl : SourceCodeInfo_Location) : List (String × String) :=
  let lines := nonBlankTrimmed sl.GetLeadingDetachedComments
  let arr := Split sl.GetLeadingComments '\n'
  let lines := lines ++ nonBlankTrimmed arr
  let lines := lines ++ nonBlankTrimmed [sl.GetTrailingComments]
  lines.foldl (fun ret v => (Split v '@').foldl getCommentsTag ret) []

/-- Body of the `range` loop of `fillJSONSchemaType`: the `switch` on one
directive. -/
def applyDirective (t : JSONSchemaType) (kv : String × String) : JSONSchemaType :=
  let v := kv.2
  let k := ToLower kv.1
  if k = "title" then { t with Title := v }
  else if k = "name" then { t with Title := v }
  else if k = "description" then { t with Description := v }
  else if k = "desc" then { t with Description := v }
  else if k = "format" then { t with Format := v }
  else if k = "fmt" then { t with Format := v }
  else if k = "pattern" then { t with Pattern := v }
  else if k = "required" then { t with Required := true }
  else if k = "id" then { t with PK := true }
  else if k = "autoincrement" then { t with AutoIncrement := true, PK := true }
  else if k = "index" then { t with Index := true, Required := true }
  else if k = "query" then { t with Query := true }
  else if k = "min" then
    match Atoi v with
    | some l => if t.Type_ = TYPE_INTEGER then { t with Minimum := l } else { t with MinLength := l }
    | none => t
  else if k = "max" then
    match Atoi v with
    | some l => if t.Type_ = TYPE_INTEGER then { t with Maximum := l } else { t with MaxLength := l }
    | none => t
  else t

/-- Function `fillJSONSchemaType` when the `range` loop visits the directives
in the order `visited`. -/
def fillJSONSchemaTypeVisiting (visited : List (String × String)) (name : String)
    (recursedJSONSchemaType : JSONSchemaType) : JSONSchemaType :=
  let t := visited.foldl applyDirective recursedJSONSchemaType
  if t.Title.length = 0 then { t with Title := ToSplitCase name } else t

/-- Function `fillJSONSchemaType`. -/
def fillJSONSchemaType (c : Converter) (sl : SourceCodeInfo_Location) (name : String)
    (recursedJSONSchemaType : JSONSchemaType) : JSONSchemaType :=
  let comments := getComments sl
  fillJSONSchemaTypeVisiting (c.rangeOrder.visit comments) name recursedJSONSchemaType

/-- Function `fillCommentAttribute`. -/
def fillCommentAttribute (c : Converter) (fieldDesc : FieldDescriptorProto)
    (recursedJSONSchemaType : JSONSchemaType) : JSONSchemaType :=
  match c.sourceInfo.GetField fieldDesc with
  | some src => fillJSONSchemaType c src fieldDesc.Name recursedJSONSchemaType
  | none => recursedJSONSchemaType

/-- Function `fillMessageCommentAttribute`. -/
def fillMessageCommentAttribute (c : Converter) (msgDesc : DescriptorProto)
    (recursedJSONSchemaType : JSONSchemaType) : JSONSchemaType :=
  match c.sourceInfo.GetMessage msgDesc with
  | some src => fillJSONSchemaType c src msgDesc.Name recursedJSONSchemaType
  | none => recursedJSONSchemaType

/-- Body of the loop over the values of one enum in `convertField`. -/
def convertFieldEnumValue (c : Converter) (desc : FieldDescriptorProto)
    (enumDescriptor : EnumDescriptorProto) (jsonSchemaType : JSONSchemaType)
    (enumValue : EnumValueDescriptorProto) : JSONSchemaType :=
  if HasSuffix desc.GetTypeName enumDescriptor.Name then
    let jsonSchemaType := { jsonSchemaType with Enum := jsonSchemaType.Enum ++ [enumValue.Number] }
    let commented : Option String :=
      match c.sourceInfo.GetEnumValue enumValue with
      | some src => let s := getEnumComment src; if s.length > 0 then some s else none
      | none => none
    match commented with
    | some s =>
      { jsonSchemaType with OptionLabels := jsonSchemaType.OptionLabels ++ [OptionLabel.text s] }
    | none =>
      { jsonSchemaType with
        OptionLabels := jsonSchemaType.OptionLabels ++ [OptionLabel.number enumValue.Number] }
  else jsonSchemaType

/-- The two nested loops of the `TYPE_ENUM` case of `convertField`. -/
def convertFieldEnums (c : Converter) (desc : FieldDescriptorProto)
    (enums : List EnumDescriptorProto) (jsonSchemaType : JSONSchemaType) : JSONSchemaType :=
  enums.foldl
    (fun t enumDescriptor => enumDescriptor.Value.foldl (convertFieldEnumValue c desc enumDescriptor) t)
    jsonSchemaType

/-- The `switch` of `convertField` on the field type; `none` is the `default`
case. -/
def convertFieldSwitch (c : Converter) (desc : FieldDescriptorProto) (msg : DescriptorProto)
    (outerEnums : List EnumDescriptorProto) (jsonSchemaType : JSONSchemaType) :
    Option JSONSchemaType :=
  let ty := desc.GetType
  if ty = FieldDescriptorProto_TYPE_DOUBLE ∨ ty = FieldDescriptorProto_TYPE_FLOAT then
    some { jsonSchemaType with Type_ := TYPE_NUMBER }
  else if ty = FieldDescriptorProto_TYPE_INT32 ∨ ty = FieldDescriptorProto_TYPE_UINT32 ∨
      ty = FieldDescriptorProto_TYPE_FIXED32 ∨ ty = FieldDescriptorProto_TYPE_SFIXED32 ∨
      ty = FieldDescriptorProto_TYPE_SINT32 then
    some { jsonSchemaType with Type_ := TYPE_INTEGER }
  else if ty = FieldDescriptorProto_TYPE_INT64 ∨ ty = FieldDescriptorProto_TYPE_UINT64 ∨
      ty = FieldDescriptorProto_TYPE_FIXED64 ∨ ty = FieldDescriptorProto_TYPE_SFIXED64 ∨
      ty = FieldDescriptorProto_TYPE_SINT64 then
    some { jsonSchemaType with Type_ := TYPE_INTEGER }
  else if ty = FieldDescriptorProto_TYPE_STRING ∨ ty = FieldDescriptorProto_TYPE_BYTES then
    some { jsonSchemaType with Type_ := TYPE_STRING }
  else if ty = FieldDescriptorProto_TYPE_ENUM then
    let jsonSchemaType := { jsonSchemaType with Type_ := TYPE_INTEGER }
    let enums := msg.GetEnumType ++ outerEnums
    some (convertFieldEnums c desc enums jsonSchemaType)
  else if ty = FieldDescriptorProto_TYPE_BOOL then
    some { jsonSchemaType with Type_ := TYPE_BOOLEAN }
  else if ty = FieldDescriptorProto_TYPE_GROUP ∨ ty = FieldDescriptorProto_TYPE_MESSAGE then
    let jsonSchemaType := { jsonSchemaType with Type_ := TYPE_OBJECT }
    let jsonSchemaType :=
      if desc.GetLabel = FieldDescriptorProto_LABEL_OPTIONAL then
        { jsonSchemaType with AdditionalProperties := some "true" }
      else jsonSchemaType
    let jsonSchemaType :=
      if desc.GetLabel = FieldDescriptorProto_LABEL_REQUIRED then
        { jsonSchemaType with AdditionalProperties := some "false" }
      else jsonSchemaType
    some jsonSchemaType
  else none

/-- The block `Recurse array of primitive types` of `convertField`, entered
for a repeated field whose node is not an object. -/
def convertFieldRepeated (c : Converter) (jsonSchemaType : JSONSchemaType) : JSONSchemaType :=
  let items := JSONSchemaType.zero
  let (jsonSchemaType, items) :=
    if jsonSchemaType.Enum.length > 0 then
      ({ jsonSchemaType with Enum := [] }, { items with Enum := jsonSchemaType.Enum, OneOf := [] })
    else
      (jsonSchemaType, { items with Type_ := jsonSchemaType.Type_, OneOf := jsonSchemaType.OneOf })
  let jsonSchemaType := { jsonSchemaType with Items := some items }
  if c.AllowNullValues then
    { jsonSchemaType with
      OneOf := [{ JSONSchemaType.zero with Type_ := TYPE_NULL },
                { JSONSchemaType.zero with Type_ := TYPE_ARRAY }] }
  else
    { jsonSchemaType with Type_ := TYPE_ARRAY, OneOf := [] }

/-- Function `convertField`, with the recursive call to `convertMessageType`
as a parameter.  The result is the Go pair: the node pointer (nil is `none`)
and the error (nil is `none`). -/
def convertFieldBody (c : Converter)
    (convertMessageType : ProtoPackagePtr → DescriptorProto → List EnumDescriptorProto →
      Run (JSONSchemaType × Option String))
    (curPkg : ProtoPackagePtr) (desc : FieldDescriptorProto) (msg : DescriptorProto)
    (outerEnums : List EnumDescriptorProto) : Run (Option JSONSchemaType × Option String) :=
  let jsonSchemaType := { JSONSchemaType.zero with Properties := [] }
  match convertFieldSwitch c desc msg outerEnums jsonSchemaType with
  | none => .ok (none, some ("unrecognized field type: " ++ desc.GetType.String))
  | some jsonSchemaType =>
    if desc.GetLabel = FieldDescriptorProto_LABEL_REPEATED ∧ jsonSchemaType.Type_ ≠ TYPE_OBJECT then
      .ok (some (convertFieldRepeated c jsonSchemaType), none)
    else if jsonSchemaType.Type_ = TYPE_OBJECT then
      match c.lookupType curPkg desc.GetTypeName with
      | none => .ok (none, some ("no such message type named " ++ desc.GetTypeName))
      | some recordType =>
        match convertMessageType curPkg recordType outerEnums with
        | .error crash => .error crash
        | .ok (recursedJSONSchemaType, err) =>
          if err.isSome then .ok (none, err)
          else if GetMapEntry recordType.Options ∨
              desc.GetLabel = FieldDescriptorProto_LABEL_REPEATED then
            .ok (some { jsonSchemaType with
                        Items := some recursedJSONSchemaType, Type_ := TYPE_ARRAY }, none)
          else
            .ok (some { jsonSchemaType with Properties := recursedJSONSchemaType.Properties }, none)
    else .ok (some jsonSchemaType, none)

/-- The node of a converted field as `convertMessageType` stores it: the
directives of the field comment applied, the order set to the tag of the
field. -/
def convertMessageTypeFieldNode (c : Converter) (fieldDesc : FieldDescriptorProto)
    (recursedJSONSchemaType : JSONSchemaType) : JSONSchemaType :=
  let recursedJSONSchemaType := fillCommentAttribute c fieldDesc recursedJSONSchemaType
  { recursedJSONSchemaType with Order := fieldDesc.Number }

/-- The end of the loop body of `convertMessageType`, reached when the field
converted: the field node is stored under the declared name and, when asked
for and different, under the JSON name. -/
def convertMessageTypeStore (c : Converter) (fieldDesc : FieldDescriptorProto)
    (recursedJSONSchemaType : JSONSchemaType) (jsonSchemaType : JSONSchemaType) :
    JSONSchemaType :=
  let recursedJSONSchemaType := convertMessageTypeFieldNode c fieldDesc recursedJSONSchemaType
  let jsonSchemaType :=
    { jsonSchemaType with
      Properties := mapSet jsonSchemaType.Properties fieldDesc.GetName recursedJSONSchemaType }
  if c.UseProtoAndJSONFieldnames ∧ fieldDesc.GetName ≠ fieldDesc.GetJsonName then
    { jsonSchemaType with
      Properties := mapSet jsonSchemaType.Properties fieldDesc.GetJsonName recursedJSONSchemaType }
  else jsonSchemaType

/-- The loop of `convertMessageType` over the fields that are left, with
`convertField` as a parameter. -/
def convertMessageTypeLoop (c : Converter)
    (convertField : ProtoPackagePtr → FieldDescriptorProto → DescriptorProto →
      List EnumDescriptorProto → Run (Option JSONSchemaType × Option String))
    (curPkg : ProtoPackagePtr) (msg : DescriptorProto) (outerEnums : List EnumDescriptorProto) :
    List FieldDescriptorProto → JSONSchemaType → Run (JSONSchemaType × Option String)
  | [], jsonSchemaType => .ok (jsonSchemaType, none)
  | fieldDesc :: rest, jsonSchemaType =>
    match convertField curPkg fieldDesc msg outerEnums with
    | .error crash => .error crash
    | .ok (pointer, err) =>
      -- the Debug log line reads recursedJSONSchemaType.Type before err is tested
      match pointer with
      | none => .error Crash.nilDereference
      | some recursedJSONSchemaType =>
        if err.isSome then .ok (jsonSchemaType, err)
        else
          convertMessageTypeLoop c convertField curPkg msg outerEnums rest
            (convertMessageTypeStore c fieldDesc recursedJSONSchemaType jsonSchemaType)

/-- Function `convertMessageType`, with `convertField` as a parameter. -/
def convertMessageTypeBody (c : Converter)
    (convertField : ProtoPackagePtr → FieldDescriptorProto → DescriptorProto →
      List EnumDescriptorProto → Run (Option JSONSchemaType × Option String))
    (curPkg : ProtoPackagePtr) (msg : DescriptorProto) (outerEnums : List EnumDescriptorProto) :
    Run (JSONSchemaType × Option String) :=
  let jsonSchemaType := { JSONSchemaType.zero with Properties := [], Version := Version }
  let jsonSchemaType := { jsonSchemaType with Type_ := TYPE_OBJECT }
  let jsonSchemaType :=
    if c.DisallowAdditionalProperties then
      { jsonSchemaType with AdditionalProperties := some "false" }
    else { jsonSchemaType with AdditionalProperties := some "true" }
  convertMessageTypeLoop c convertField curPkg msg outerEnums msg.GetField jsonSchemaType

/-- Function `convertMessageType`: `fuel` bounds how many messages deep the
recursion through message and group fields may go. -/
def convertMessageType (c : Converter) : Nat → ProtoPackagePtr → DescriptorProto →
    List EnumDescriptorProto → Run (JSONSchemaType × Option String)
  | 0 => fun _ _ _ => .error Crash.fuelExhausted
  | fuel + 1 => convertMessageTypeBody c (convertFieldBody c (convertMessageType c fuel))

/-- Function `convertField`: its calls to `convertMessageType` run with
`fuel`. -/
def convertField (c : Converter) (fuel : Nat) : ProtoPackagePtr → FieldDescriptorProto →
    DescriptorProto → List EnumDescriptorProto → Run (Option JSONSchemaType × Option String) :=
  convertFieldBody c (convertMessageType c fuel)

/-! ## Example inputs and the vocabulary of the statements -/

/-- A source table with no location for any descriptor. -/
def noSourceInfo : SourceInfo := ⟨fun _ => none, fun _ => none, fun _ => none⟩

/-- A converter with every switch off, no source locations and an empty registry. -/
def plainConverter : Converter :=
  { AllowNullValues := false, DisallowAdditionalProperties := false,
    UseProtoAndJSONFieldnames := false, sourceInfo := noSourceInfo,
    lookupType := fun _ _ => none, rangeOrder := RangeOrder.listed }

/-- A converter that allows null values and is plain otherwise. -/
def nullableConverter : Converter := { plainConverter with AllowNullValues := true }

/-- A field `name` with tag `number`, label `label` and type `ty`. -/
def mkField (name : String) (number : Int) (label : FieldDescriptorProto_Label)
    (ty : FieldDescriptorProto_Type) (typeName : Option String) : FieldDescriptorProto :=
  { Name := name, Number := number, Label := some label, Type_ := some ty,
    TypeName := typeName, JsonName := some name }

/-- Message `Holder`: a double field, then a field of the message type
`.Missng`, a name the registry does not know. -/
def holderMessage : DescriptorProto :=
  { Name := "Holder",
    Field := [mkField "ok" 1 FieldDescriptorProto_LABEL_OPTIONAL FieldDescriptorProto_TYPE_DOUBLE none,
              mkField "ref" 2 FieldDescriptorProto_LABEL_OPTIONAL
                FieldDescriptorProto_TYPE_MESSAGE (some ".Missng")],
    NestedType := [], EnumType := [], Options := none }

/-- The option label the specification gives an enum value: its trimmed
leading comment when a location is recorded and the comment is not empty,
else its number. -/
def specOptionLabel (c : Converter) (v : EnumValueDescriptorProto) : OptionLabel :=
  match c.sourceInfo.GetEnumValue v with
  | some src =>
    if (TrimSpace src.GetLeadingComments).length > 0
    then OptionLabel.text (TrimSpace src.GetLeadingComments)
    else OptionLabel.number v.Number
  | none => OptionLabel.number v.Number

/-- Enum `Color` with the values RED = 0 and GREEN = 1. -/
def colorEnum : EnumDescriptorProto :=
  { Name := "Color",
    Value := [{ Name := some "RED", Number := some 0 }, { Name := some "GREEN", Number := some 1 }] }

/-- Enum `Shade`, whose name is no suffix of `.Color`. -/
def shadeEnum : EnumDescriptorProto :=
  { Name := "Shade", Value := [{ Name := some "DARK", Number := some 7 }] }

/-- The field `main`, an optional `Color`. -/
def mainColorField : FieldDescriptorProto :=
  mkField "main" 1 FieldDescriptorProto_LABEL_OPTIONAL FieldDescriptorProto_TYPE_ENUM (some ".Color")

/-- The field `all`, a repeated `Color`. -/
def allColorsField : FieldDescriptorProto :=
  mkField "all" 2 FieldDescriptorProto_LABEL_REPEATED FieldDescriptorProto_TYPE_ENUM (some ".Color")

/-- Message `Palette` declaring the enums `Shade` and `Color` and the fields
`main` and `all`. -/
def paletteMessage : DescriptorProto :=
  { Name := "Palette", Field := [mainColorField, allColorsField], NestedType := [],
    EnumType := [shadeEnum, colorEnum], Options := none }

/-- A source table that records the leading comment ` Red tone` for the enum
value RED and nothing else. -/
def redCommentSourceInfo : SourceInfo :=
  { GetField := fun _ => none,
    GetEnumValue := fun v =>
      if v.Name = some "RED" then
        some { LeadingComments := some " Red tone\n", TrailingComments := none,
               LeadingDetachedComments := [] }
      else none,
    GetMessage := fun _ => none }

/-- A plain converter that knows the comment of the enum value RED. -/
def redCommentConverter : Converter := { plainConverter with sourceInfo := redCommentSourceInfo }

/-- The field `x` of `Point`: a double with tag 1. -/
def pointX : FieldDescriptorProto :=
  mkField "x" 1 FieldDescriptorProto_LABEL_OPTIONAL FieldDescriptorProto_TYPE_DOUBLE none

/-- The field `y` of `Point`: a double with tag 2. -/
def pointY : FieldDescriptorProto :=
  mkField "y" 2 FieldDescriptorProto_LABEL_OPTIONAL FieldDescriptorProto_TYPE_DOUBLE none

/-- Message `Point` with the double fields `x` (tag 1) and `y` (tag 2). -/
def pointMessage : DescriptorProto :=
  { Name := "Point", Field := [pointX, pointY], NestedType := [], EnumType := [],
    Options := none }

/-- A source location whose comments are all empty. -/
def emptyLocation : SourceCodeInfo_Location :=
  { LeadingComments := some "", TrailingComments := some "", LeadingDetachedComments := [] }

/-- A plain converter in which every field has a source location with empty
comments. -/
def emptyCommentConverter : Converter :=
  { plainConverter with
    sourceInfo := { GetField := fun _ => some emptyLocation, GetEnumValue := fun _ => none,
                    GetMessage := fun _ => none } }

/-- A source location whose leading comment sets the title through both
names of the directive. -/
def aliasLocation : SourceCodeInfo_Location :=
  { LeadingComments := some " @title=A @name=B\n", TrailingComments := none,
    LeadingDetachedComments := [] }

/-- A plain converter whose `range` loops visit map entries last to first. -/
def reversedConverter : Converter := { plainConverter with rangeOrder := RangeOrder.reversed }

/-- The characters of a decimal integer literal: a sign or a decimal digit. -/
def isLiteralChar (ch : Char) : Prop :=
  ch = '-' ∨ ch = '+' ∨ (48 ≤ ch.toNat ∧ ch.toNat ≤ 57)

/-- The source location whose only comment is the leading line
`@required @min=a @max=b`, for the literals `sa` and `sb`. -/
def requiredMinMaxLocation (sa sb : String) : SourceCodeInfo_Location :=
  { LeadingComments := some ("@required @min=" ++ sa ++ " @max=" ++ sb),
    TrailingComments := none, LeadingDetachedComments := [] }

/-- Two fields share no key: their declared names and JSON names all differ. -/
def distinctKeys (f g : FieldDescriptorProto) : Prop :=
  f.GetName ≠ g.GetName ∧ f.GetName ≠ g.GetJsonName ∧
  f.GetJsonName ≠ g.GetName ∧ f.GetJsonName ≠ g.GetJsonName

/-- The field `user_id` with the JSON name `userId`: an int64 with tag 1. -/
def userIdField : FieldDescriptorProto :=
  { Name := "user_id", Number := 1, Label := some FieldDescriptorProto_LABEL_OPTIONAL,
    Type_ := some FieldDescriptorProto_TYPE_INT64, TypeName := none, JsonName := some "userId" }

/-- The field `name` with the JSON name `name`: a string with tag 2. -/
def nameField : FieldDescriptorProto :=
  mkField "name" 2 FieldDescriptorProto_LABEL_OPTIONAL FieldDescriptorProto_TYPE_STRING none

/-- Message `Account` with the fields `user_id` and `name`. -/
def accountMessage : DescriptorProto :=
  { Name := "Account", Field := [userIdField, nameField], NestedType := [], EnumType := [],
    Options := none }

/-- A plain converter that stores every field under both of its names. -/
def dualNameConverter : Converter := { plainConverter with UseProtoAndJSONFieldnames := true }

/-- The nodes of a schema tree: `InTree b root b2 n` says that `n` is the
node `root`, one of its property nodes or array item nodes, or a node further
down; `b` tells whether `root` is itself the item node of an array, and `b2`
whether `n` is. -/
inductive InTree : Bool → JSONSchemaType → Bool → JSONSchemaType → Prop where
  | self (b : Bool) (root : JSONSchemaType) : InTree b root b root
  | property (b : Bool) (root : JSONSchemaType) (k : String) (q : JSONSchemaType) (b2 : Bool)
      (n : JSONSchemaType) : (k, q) ∈ root.Properties → InTree false q b2 n → InTree b root b2 n
  | item (b : Bool) (root q : JSONSchemaType) (b2 : Bool) (n : JSONSchemaType) :
      root.Items = some q → InTree true q b2 n → InTree b root b2 n

/-- The kind that goes with an enum list: a node with a non-empty enum list
has kind integer, or it is the item node of an array and has no kind. -/
def enumKindOK (isItem : Bool) (n : JSONSchemaType) : Prop :=
  n.Enum ≠ [] → n.Type_ = TYPE_INTEGER ∨ (isItem = true ∧ n.Type_ = "")

/-- Every node of the tree has the kind that goes with its enum list. -/
def allEnumKindsOK (b : Bool) (root : JSONSchemaType) : Prop :=
  ∀ b2 n, InTree b root b2 n → enumKindOK b2 n

/-! ## Nested type lookup -/

/-- The inner loop of `relativelyLookupNestedType`: the first of the nested
types whose name is `component`, none when the loop runs to its end. -/
def relativelyLookupNestedTypeInner (component : String) :
    List DescriptorProto → Option DescriptorProto
  | [] => none
  | nested :: rest =>
    if nested.GetName = component then some nested
    else relativelyLookupNestedTypeInner component rest

/-- The loop `componentLoop` of `relativelyLookupNestedType` over the
components that are left; `none` is the result `nil, false`. -/
def relativelyLookupNestedTypeLoop : DescriptorProto → List String → Option DescriptorProto
  | desc, [] => some desc
  | desc, component :: rest =>
    match relativelyLookupNestedTypeInner component desc.GetNestedType with
    | some nested => relativelyLookupNestedTypeLoop nested rest
    | none => none

/-- Function `relativelyLookupNestedType`; `none` is the result `nil, false`. -/
def relativelyLookupNestedType (desc : DescriptorProto) (name : String) :
    Option DescriptorProto :=
  let components := Split name '.'
  relativelyLookupNestedTypeLoop desc components

/-! ## Functions of every string: the case tables of package `unicode` as parameters

Package `unicode` is no part of the repository.  In the functions of this
section, which are stated of every string, its functions `unicode.ToLower` and
`unicode.ToUpper` are the parameters `lower` and `toUpper`. -/

/-- Function `strings.ToLower`: function `unicode.ToLower`, the parameter
`lower`, applied to every rune. -/
def ToLowerWith (lower : Char → Char) (s : String) : String := String.mk (s.data.map lower)

/-- Body of the inner loop of `getComments`: one fragment between `@` signs;
`lower` is `unicode.ToLower`. -/
def getCommentsTagWith (lower : Char → Char) (ret : List (String × String)) (v : String) :
    List (String × String) :=
  if Contains v "//" then ret
  else
    let v := TrimSpace v
    let arr := Split v '='
    match arr with
    | [a0] => mapSet ret (ToLowerWith lower a0) "true"
    | [a0, a1] => mapSet ret (ToLowerWith lower a0) a1
    | _ => ret

/-- Function `getComments`; `lower` is `unicode.ToLower`.  The functions
`getCommentsTag` and `getComments` above are this function and its loop body
at the table `toLowerRune`. -/
def getCommentsWith (lower : Char → Char) (sl : SourceCodeInfo_Location) :
    List (String × String) :=
  let lines := nonBlankTrimmed sl.GetLeadingDetachedComments
  let arr := Split sl.GetLeadingComments '\n'
  let lines := lines ++ nonBlankTrimmed arr
  let lines := lines ++ nonBlankTrimmed [sl.GetTrailingComments]
  lines.foldl (fun ret v => (Split v '@').foldl (getCommentsTagWith lower) ret) []

/-- Body of the loop of `ToCamelCase`: the word with its first rune in upper
case; `toUpper` is `unicode.ToUpper`, and `none` is the run-time panic
`index out of range` of `w[0]` on an empty word. -/
def ToCamelCaseWord (toUpper : Char → Char) (word : String) : Option String :=
  match word.data with
  | [] => none
  | w0 :: w => some (String.mk (toUpper w0 :: w))

/-- The loop of `ToCamelCase` over the words that are left. -/
def ToCamelCaseLoop (toUpper : Char → Char) : List String → String → Option String
  | [], result => some result
  | word :: rest, result =>
    match ToCamelCaseWord toUpper word with
    | none => none
    | some w => ToCamelCaseLoop toUpper rest (result ++ w)

/-- Function `ToCamelCase`; `toUpper` is `unicode.ToUpper`, and `none` is the
run-time panic `index out of range`. -/
def ToCamelCase (toUpper : Char → Char) (s : String) : Option String :=
  ToCamelCaseLoop toUpper (Split s '_') ""

/-- The descriptor `d1` is the first entry named `s` among the declared nested
types of `d`. -/
def firstNestedNamed (d : DescriptorProto) (s : String) (d1 : DescriptorProto) : Prop :=
  ∃ pre post, d.NestedType = pre ++ d1 :: post ∧ d1.Name = s ∧ ∀ x ∈ pre, x.Name ≠ s

/-- A chain of nested types: `NestedChain d [s1, ..., sn] dn` holds when there
are `d = d0, d1, ..., dn` with each `di` the first entry named `si` among the
nested types of the one before. -/
inductive NestedChain : DescriptorProto → List String → DescriptorProto → Prop where
  | nil (d : DescriptorProto) : NestedChain d [] d
  | cons (d : DescriptorProto) (s : String) (d1 : DescriptorProto) (rest : List String)
      (dn : DescriptorProto) :
      firstNestedNamed d s d1 → NestedChain d1 rest dn → NestedChain d (s :: rest) dn

/-- A message with the given name and nested types and nothing else. -/
def mkNested (name : String) (nested : List DescriptorProto) : DescriptorProto :=
  { Name := name, Field := [], NestedType := nested, EnumType := [], Options := none }

/-- Message `Outer` with the nested types `Mid` (holding `Leaf`) and a second
`Mid` that holds nothing. -/
def outerMessage : DescriptorProto :=
  mkNested "Outer" [mkNested "Mid" [mkNested "Leaf" []], mkNested "Mid" []]

/-- The segment as the specification capitalises it: the first character in
upper case, by the table `toUpper` of `unicode.ToUpper`, the rest unchanged. -/
def capitalized (toUpper : Char → Char) (w : String) : String :=
  match w.data with
  | [] => ""
  | w0 :: rest => String.mk (toUpper w0 :: rest)

/-- The directive that the specification reads from one trimmed fragment: a
fragment without `=` maps its lower-cased text to `true`, a fragment
`key=value` with exactly one `=` maps the lower-cased key to the value, and a
fragment with two or more `=` contributes nothing.  Lower-casing is by the
table `lower` of `unicode.ToLower`. -/
def specDirective (lower : Char → Char) (fragment : String) : Option (String × String) :=
  match Split fragment '=' with
  | [text] => some (ToLowerWith lower text, "true")
  | [key, value] => some (ToLowerWith lower key, value)
  | _ => none

/-- The contributions of a source location as the specification lists them,
in order: the non-blank trimmed leading-detached blocks, the non-blank trimmed
lines of the leading comment and the non-blank trimmed trailing comment are
split on `@`, the fragments holding `//` are dropped, and each remaining
fragment is trimmed and read as a directive. -/
def specContributions (lower : Char → Char) (sl : SourceCodeInfo_Location) :
    List (String × String) :=
  let blocks := (sl.GetLeadingDetachedComments.map TrimSpace).filter (fun s => s != "")
  let leading := ((Split sl.GetLeadingComments '\n').map TrimSpace).filter (fun s => s != "")
  let trailing := ([sl.GetTrailingComments].map TrimSpace).filter (fun s => s != "")
  let fragments := (blocks ++ leading ++ trailing).flatMap (fun line => Split line '@')
  let kept := fragments.filter (fun fragment => !(Contains fragment "//"))
  (kept.map TrimSpace).filterMap (specDirective lower)

/-- An example table: function `unicode.ToLower` on the runes up to U+00FF
(the ASCII capitals and the capitals U+00C0 to U+00DE of the Latin-1
supplement, but for the multiplication sign U+00D7, have their lower case 32
above; the other runes up to U+00FF are their own lower case), and the
identity on the runes above U+00FF. -/
def latin1ToLower (c : Char) : Char :=
  if (0x41 ≤ c.toNat ∧ c.toNat ≤ 0x5A) ∨
      (0xC0 ≤ c.toNat ∧ c.toNat ≤ 0xDE ∧ c.toNat ≠ 0xD7) then
    Char.ofNat (c.toNat + 32)
  else c

/-- An example table: function `unicode.ToUpper` on the ASCII runes and on the
small letters U+00E0 to U+00FE of the Latin-1 supplement (they have their
upper case 32 below, but for the division sign U+00F7, which is no letter),
and the identity on every other rune. -/
def latin1ToUpper (c : Char) : Char :=
  if (0x61 ≤ c.toNat ∧ c.toNat ≤ 0x7A) ∨
      (0xE0 ≤ c.toNat ∧ c.toNat ≤ 0xFE ∧ c.toNat ≠ 0xF7) then
    Char.ofNat (c.toNat - 32)
  else c

/-- A source location whose leading comment holds the same key in upper case
and in lower case, outside ASCII. -/
def accentLocation : SourceCodeInfo_Location :=
  { LeadingComments := some " @É=1 @é=2", TrailingComments := none,
    LeadingDetachedComments := [] }

/-- The value of the last contribution with the key `k`, none when there is
no contribution with that key. -/
def lastContribution (contributions : List (String × String)) (k : String) : Option String :=
  (contributions.reverse.find? (fun kv => kv.1 == k)).map (fun kv => kv.2)

/-- A source location whose leading comment asks for a minimum and a maximum
that are no integers, next to a pattern. -/
def malformedLocation : SourceCodeInfo_Location :=
  { LeadingComments := some " @min=three @pattern=x @max=1.5", TrailingComments := none,
    LeadingDetachedComments := [] }

/-- A plain converter whose registry resolves `.Point` to the message `Point`
and `.Entry` to a synthesized map-entry message, from every package. -/
def pointRegistryConverter : Converter :=
  { plainConverter with
    lookupType := fun _ name =>
      if name = ".Point" then some pointMessage
      else if name = ".Entry" then
        some { Name := "Entry", Field := [], NestedType := [], EnumType := [],
               Options := some { MapEntry := some true } }
      else none }

/-- The field `origin`, an optional `Point`. -/
def originField : FieldDescriptorProto :=
  mkField "origin" 1 FieldDescriptorProto_LABEL_OPTIONAL FieldDescriptorProto_TYPE_MESSAGE
    (some ".Point")

/-- The field `path`, a repeated `Point`. -/
def pathField : FieldDescriptorProto :=
  mkField "path" 2 FieldDescriptorProto_LABEL_REPEATED FieldDescriptorProto_TYPE_MESSAGE
    (some ".Point")

/-- Message `Shape` with the fields `origin` and `path`. -/
def shapeMessage : DescriptorProto :=
  { Name := "Shape", Field := [originField, pathField], NestedType := [], EnumType := [],
    Options := none }

/-- The messages that a message refers to: for each of its message and group
fields, in order, the message that `lookupType` resolves the type name of the
field to (nothing for a field whose type name does not resolve). -/
def messageReferences (c : Converter) (curPkg : ProtoPackagePtr) (msg : DescriptorProto) :
    List DescriptorProto :=
  msg.GetField.filterMap (fun f =>
    if f.GetType = FieldDescriptorProto_TYPE_GROUP ∨ f.GetType = FieldDescriptorProto_TYPE_MESSAGE
    then c.lookupType curPkg f.GetTypeName else none)

/-- The message-reference relation from `msg` is acyclic with nesting depth at
most `d`: a message that refers to no message has depth 0, and every message
referred to by a message of depth at most `d + 1` has depth at most `d`. -/
def nestingDepthLE (c : Converter) (curPkg : ProtoPackagePtr) : Nat → DescriptorProto → Bool
  | 0, msg => (messageReferences c curPkg msg).isEmpty
  | d + 1, msg => (messageReferences c curPkg msg).all (nestingDepthLE c curPkg d)

/-! ## The package registry -/

/-- Record `ProtoPackage`, with the four fields that the composite literals of
`types.go` set.  The pointer `parent` is nil for `none`; the maps `children`
and `types` are association lists. -/
structure ProtoPackage where
  name : String
  parent : Option ProtoPackagePtr
  children : List (String × ProtoPackagePtr)
  types : List (String × DescriptorProto)

/-- The heap of package nodes: the pointer `i` points to the `i`-th node that
was allocated. -/
abbrev Registry := List ProtoPackage

/-- Variable `globalPkg`: the pointer to the root node, the first node of the
heap. -/
def globalPkg : ProtoPackagePtr := 0

/-- The heap after the initialisation of `globalPkg`: the root node alone,
with the empty name, no parent and two empty maps. -/
def initialRegistry : Registry :=
  [{ name := "", parent := none, children := [], types := [] }]

/-- Body of the loop of `registerType` for one segment `node`, at the node
`pkg`: the heap after it and the next value of `pkg`.  Reading a field through
a pointer that points to nothing stops the run. -/
def registerTypeNode (heap : Registry) (pkg : ProtoPackagePtr) (node : String) :
    Run (Registry × ProtoPackagePtr) :=
  if pkg = globalPkg ∧ node = "" then
    -- Skips leading "."
    .ok (heap, pkg)
  else
    match heap[pkg]? with
    | none => .error Crash.nilDereference
    | some p =>
      match mapGet p.children node with
      | some child => .ok (heap, child)
      | none =>
        let child := heap.length
        let heap := heap ++ [{ name := p.name ++ "." ++ node, parent := some pkg,
                               children := [], types := [] }]
        let heap := heap.set pkg { p with children := mapSet p.children node child }
        .ok (heap, child)

/-- The loop of `registerType` over the segments that are left. -/
def registerTypeLoop : List String → Registry → ProtoPackagePtr → Run (Registry × ProtoPackagePtr)
  | [], heap, pkg => .ok (heap, pkg)
  | node :: rest, heap, pkg =>
    match registerTypeNode heap pkg node with
    | .error crash => .error crash
    | .ok (heap, pkg) => registerTypeLoop rest heap pkg

/-- The segments that the loop of `registerType` runs over: none for a nil
package name. -/
def registerTypeSegments (pkgName : Option String) : List String :=
  match pkgName with
  | none => []
  | some name => Split name '.'

/-- Function `registerType`: the heap after the call.  The package name is nil
for `none`. -/
def registerType (heap : Registry) (pkgName : Option String) (msg : DescriptorProto) :
    Run Registry :=
  match registerTypeLoop (registerTypeSegments pkgName) heap globalPkg with
  | .error crash => .error crash
  | .ok (heap, pkg) =>
    match heap[pkg]? with
    | none => .error Crash.nilDereference
    | some p => .ok (heap.set pkg { p with types := mapSet p.types msg.GetName msg })

/-- Walking the child mappings from the node `pkg` along the segments: the
node reached, none when a segment is no key of the child mapping it is looked
up in. -/
def walk (heap : Registry) : ProtoPackagePtr → List String → Option ProtoPackagePtr
  | pkg, [] => some pkg
  | pkg, s :: rest =>
    match heap[pkg]? with
    | none => none
    | some p =>
      match mapGet p.children s with
      | none => none
      | some child => walk heap child rest

/-- The path of a package name: the walk along the segments in which an empty
segment met at the root is passed over, as `registerType` does. -/
def walkPath (heap : Registry) : ProtoPackagePtr → List String → Option ProtoPackagePtr
  | pkg, [] => some pkg
  | pkg, s :: rest =>
    if pkg = globalPkg ∧ s = "" then walkPath heap pkg rest
    else
      match heap[pkg]? with
      | none => none
      | some p =>
        match mapGet p.children s with
        | none => none
        | some child => walkPath heap child rest

/-- Every pointer stored in a child mapping points to a node of the heap, and
the root node is there. -/
def wellFormed (heap : Registry) : Prop :=
  0 < heap.length ∧
  ∀ (i : ProtoPackagePtr) (node : ProtoPackage), heap[i]? = some node →
    ∀ (k : String) (c : ProtoPackagePtr), mapGet node.children k = some c → c < heap.length

/-- The registry states that are reachable from the initial one by calls of
`registerType`. -/
inductive Reachable : Registry → Prop where
  | initial : Reachable initialRegistry
  | register (heap : Registry) (pkgName : Option String) (msg : DescriptorProto)
      (heap2 : Registry) :
      Reachable heap → registerType heap pkgName msg = .ok heap2 → Reachable heap2

/-- The tree is a strict hierarchy: the root has the empty name and no parent,
and every node stored under the segment `k` in the child mapping of a node has
that node as its parent and the name of that node followed by `.` and `k`. -/
def strictHierarchy (heap : Registry) : Prop :=
  (∃ root : ProtoPackage,
    heap[globalPkg]? = some root ∧ root.name = "" ∧ root.parent = none) ∧
  ∀ (p : ProtoPackagePtr) (node : ProtoPackage), heap[p]? = some node →
    ∀ (k : String) (c : ProtoPackagePtr), mapGet node.children k = some c →
      ∃ child : ProtoPackage, heap[c]? = some child ∧ child.parent = some p ∧
        child.name = node.name ++ "." ++ k

/-- A message with the given name and nothing else. -/
def namedMessage (name : String) : DescriptorProto :=
  { Name := name, Field := [], NestedType := [], EnumType := [], Options := none }

/-- The heap `heap2` keeps the tree of `heap`: it is no shorter, every node of
`heap` is a node of `heap2` at the same address, with the same name and the
same parent, every child that a node has in `heap` it has in `heap2` under the
same segment, and a child that it has in `heap2` only was allocated since. -/
def keepsTree (heap heap2 : Registry) : Prop :=
  heap.length ≤ heap2.length ∧
  ∀ (i : ProtoPackagePtr) (node : ProtoPackage), heap[i]? = some node →
    ∃ node2 : ProtoPackage, heap2[i]? = some node2 ∧ node2.name = node.name ∧
      node2.parent = node.parent ∧
      (∀ (k : String) (c : ProtoPackagePtr),
        mapGet node.children k = some c → mapGet node2.children k = some c) ∧
      (∀ (k : String) (c : ProtoPackagePtr), mapGet node2.children k = some c →
        mapGet node.children k = some c ∨ heap.length ≤ c)

/-- The heap `heap2` keeps the type mappings of `heap`: every node of `heap`
has the same type mapping in `heap2`, and every node allocated since has an
empty one. -/
def keepsTypes (heap heap2 : Registry) : Prop :=
  (∀ (i : ProtoPackagePtr) (node node2 : ProtoPackage),
    heap[i]? = some node → heap2[i]? = some node2 → node2.types = node.types) ∧
  (∀ (i : ProtoPackagePtr) (node2 : ProtoPackage),
    heap.length ≤ i → heap2[i]? = some node2 → node2.types = [])

/-- The registry after the message `M` was registered in the package `a.b`,
starting from the initial registry. -/
def exampleRegistry : Registry :=
  [{ name := "", parent := none, children := [("a", 1)], types := [] },
   { name := ".a", parent := some 0, children := [("b", 2)], types := [] },
   { name := ".a.b", parent := some 1, children := [], types := [("M", namedMessage "M")] }]

/-- The registry after the message `K` was registered in the package `a.c`,
starting from the example registry. -/
def secondRegistry : Registry :=
  [{ name := "", parent := none, children := [("a", 1)], types := [] },
   { name := ".a", parent := some 0, children := [("b", 2), ("c", 3)], types := [] },
   { name := ".a.b", parent := some 1, children := [], types := [("M", namedMessage "M")] },
   { name := ".a.c", parent := some 1, children := [], types := [("K", namedMessage "K")] }]

/-! ## Theorems -/


/-- A fresh node with an empty property map is the zero node. -/
theorem zero_with_properties :
    ({ JSONSchemaType.zero with Properties := [] } : JSONSchemaType) = JSONSchemaType.zero := rfl

/-- An error returned by `convertField` always comes with a nil node. -/
theorem convertFieldBody_error_nil (c : Converter)
    (rec : ProtoPackagePtr → DescriptorProto → List EnumDescriptorProto →
      Run (JSONSchemaType × Option String))
    (curPkg : ProtoPackagePtr) (desc : FieldDescriptorProto) (msg : DescriptorProto)
    (outerEnums : List EnumDescriptorProto) (p : Option JSONSchemaType) (e : String)
    (h : convertFieldBody c rec curPkg desc msg outerEnums = .ok (p, some e)) : p = none := by
  unfold convertFieldBody at h
  dsimp only at h
  rw [zero_with_properties] at h
  generalize convertFieldSwitch c desc msg outerEnums JSONSchemaType.zero = sw at h
  cases sw with
  | none => simp at h; exact h.1.symm
  | some t =>
    simp only at h
    by_cases h1 : desc.GetLabel = FieldDescriptorProto_LABEL_REPEATED ∧ t.Type_ ≠ TYPE_OBJECT
    · simp [h1] at h
    · rw [if_neg h1] at h
      by_cases h2 : t.Type_ = TYPE_OBJECT
      · rw [if_pos h2] at h
        generalize c.lookupType curPkg desc.GetTypeName = lk at h
        cases lk with
        | none => simp at h; exact h.1.symm
        | some recordType =>
          simp only at h
          generalize rec curPkg recordType outerEnums = r at h
          cases r with
          | error crash => simp at h
          | ok v =>
            obtain ⟨node, err⟩ := v
            simp only at h
            by_cases h3 : err.isSome = true
            · rw [if_pos h3] at h; simp at h; exact h.1.symm
            · rw [if_neg h3] at h
              split at h <;> simp at h
      · rw [if_neg h2] at h; simp at h

/-- The loop of `convertMessageType` crashes at the first field whose
conversion returns an error, when the fields before it convert. -/
theorem convertMessageTypeLoop_crash (c : Converter)
    (cf : ProtoPackagePtr → FieldDescriptorProto → DescriptorProto →
      List EnumDescriptorProto → Run (Option JSONSchemaType × Option String))
    (curPkg : ProtoPackagePtr) (msg : DescriptorProto) (outerEnums : List EnumDescriptorProto)
    (f : FieldDescriptorProto) (post : List FieldDescriptorProto) (e : String)
    (hf : cf curPkg f msg outerEnums = .ok (none, some e)) :
    ∀ (pre : List FieldDescriptorProto) (acc : JSONSchemaType),
      (∀ g ∈ pre, ∃ n, cf curPkg g msg outerEnums = .ok (some n, none)) →
      convertMessageTypeLoop c cf curPkg msg outerEnums (pre ++ f :: post) acc
        = .error Crash.nilDereference := by
  intro pre
  induction pre with
  | nil => intro acc _; simp [convertMessageTypeLoop, hf]
  | cons g pre ih =>
    intro acc hpre
    obtain ⟨n, hn⟩ := hpre g (List.mem_cons_self _ _)
    simp only [List.cons_append, convertMessageTypeLoop, hn]
    simp only [Option.isSome_none, Bool.false_eq_true, if_false]
    exact ih _ (fun g2 hg2 => hpre g2 (List.mem_cons_of_mem _ hg2))

/-- One turn of the loop of `convertMessageType` on a field that converts. -/
theorem convertMessageTypeLoop_cons_ok (c : Converter)
    (cf : ProtoPackagePtr → FieldDescriptorProto → DescriptorProto →
      List EnumDescriptorProto → Run (Option JSONSchemaType × Option String))
    (curPkg : ProtoPackagePtr) (msg : DescriptorProto) (outerEnums : List EnumDescriptorProto)
    (f : FieldDescriptorProto) (rest : List FieldDescriptorProto) (acc n : JSONSchemaType)
    (hf : cf curPkg f msg outerEnums = .ok (some n, none)) :
    convertMessageTypeLoop c cf curPkg msg outerEnums (f :: rest) acc =
      convertMessageTypeLoop c cf curPkg msg outerEnums rest
        (convertMessageTypeStore c f n acc) := by
  simp only [convertMessageTypeLoop, hf, Option.isSome_none, Bool.false_eq_true, if_false]

/-- Claim C1, what the code does: when the conversion of a field returns an
error (after the fields before it converted), `convertMessageType` does not
return that error: it stops with a nil pointer dereference, because the node
pointer, nil on error, is read before the error is tested. -/
theorem convertMessageType_failing_field_crashes (c : Converter) (fuel : Nat)
    (curPkg : ProtoPackagePtr) (msg : DescriptorProto) (outerEnums : List EnumDescriptorProto)
    (pre post : List FieldDescriptorProto) (f : FieldDescriptorProto)
    (p : Option JSONSchemaType) (e : String)
    (hfields : msg.Field = pre ++ f :: post)
    (hpre : ∀ g ∈ pre, ∃ n, convertField c fuel curPkg g msg outerEnums = .ok (some n, none))
    (hf : convertField c fuel curPkg f msg outerEnums = .ok (p, some e)) :
    convertMessageType c (fuel + 1) curPkg msg outerEnums = .error Crash.nilDereference := by
  have hp : p = none := convertFieldBody_error_nil c _ curPkg f msg outerEnums p e hf
  subst hp
  simp only [convertMessageType, convertMessageTypeBody, DescriptorProto.GetField, hfields]
  exact convertMessageTypeLoop_crash c _ curPkg msg outerEnums f post e hf pre _ hpre

/-- Witness for C1: the message `Holder`, whose first field converts and
whose second field names a message type that the registry cannot resolve. -/
theorem convertMessageType_failing_field_crashes_witness :
    convertField plainConverter 0 0
        (mkField "ref" 2 FieldDescriptorProto_LABEL_OPTIONAL FieldDescriptorProto_TYPE_MESSAGE
          (some ".Missng"))
        holderMessage [] = .ok (none, some "no such message type named .Missng") ∧
    convertMessageType plainConverter 1 0 holderMessage [] = .error Crash.nilDereference :=
  ⟨rfl,
   convertMessageType_failing_field_crashes plainConverter 0 0 holderMessage []
     [mkField "ok" 1 FieldDescriptorProto_LABEL_OPTIONAL FieldDescriptorProto_TYPE_DOUBLE none] []
     (mkField "ref" 2 FieldDescriptorProto_LABEL_OPTIONAL FieldDescriptorProto_TYPE_MESSAGE
       (some ".Missng"))
     none "no such message type named .Missng" rfl
     (by intro g hg; simp only [List.mem_singleton] at hg; subst hg; exact ⟨_, rfl⟩)
     rfl⟩


/-- When the `switch` of `convertField` yields a node that is not an object,
the field converts to that node, wrapped into an array when the field is
repeated; no message is looked up. -/
theorem convertFieldBody_of_switch (c : Converter)
    (rec : ProtoPackagePtr → DescriptorProto → List EnumDescriptorProto →
      Run (JSONSchemaType × Option String))
    (curPkg : ProtoPackagePtr) (desc : FieldDescriptorProto) (msg : DescriptorProto)
    (outerEnums : List EnumDescriptorProto) (t : JSONSchemaType)
    (hsw : convertFieldSwitch c desc msg outerEnums JSONSchemaType.zero = some t)
    (hobj : t.Type_ ≠ TYPE_OBJECT) :
    convertFieldBody c rec curPkg desc msg outerEnums =
      .ok (some (if desc.GetLabel = FieldDescriptorProto_LABEL_REPEATED
                 then convertFieldRepeated c t else t), none) := by
  unfold convertFieldBody
  dsimp only
  rw [zero_with_properties, hsw]
  by_cases hl : desc.GetLabel = FieldDescriptorProto_LABEL_REPEATED
  · simp [hl, hobj]
  · simp [hl, hobj]

/-- The `switch` of `convertField` on the scalar kinds. -/
theorem convertFieldSwitch_scalar (c : Converter) (desc : FieldDescriptorProto)
    (msg : DescriptorProto) (outerEnums : List EnumDescriptorProto) (t : JSONSchemaType) :
    ((desc.GetType = FieldDescriptorProto_TYPE_DOUBLE ∨
        desc.GetType = FieldDescriptorProto_TYPE_FLOAT) →
      convertFieldSwitch c desc msg outerEnums t = some { t with Type_ := TYPE_NUMBER }) ∧
    ((desc.GetType = FieldDescriptorProto_TYPE_INT32 ∨
        desc.GetType = FieldDescriptorProto_TYPE_UINT32 ∨
        desc.GetType = FieldDescriptorProto_TYPE_FIXED32 ∨
        desc.GetType = FieldDescriptorProto_TYPE_SFIXED32 ∨
        desc.GetType = FieldDescriptorProto_TYPE_SINT32 ∨
        desc.GetType = FieldDescriptorProto_TYPE_INT64 ∨
        desc.GetType = FieldDescriptorProto_TYPE_UINT64 ∨
        desc.GetType = FieldDescriptorProto_TYPE_FIXED64 ∨
        desc.GetType = FieldDescriptorProto_TYPE_SFIXED64 ∨
        desc.GetType = FieldDescriptorProto_TYPE_SINT64) →
      convertFieldSwitch c desc msg outerEnums t = some { t with Type_ := TYPE_INTEGER }) ∧
    ((desc.GetType = FieldDescriptorProto_TYPE_STRING ∨
        desc.GetType = FieldDescriptorProto_TYPE_BYTES) →
      convertFieldSwitch c desc msg outerEnums t = some { t with Type_ := TYPE_STRING }) ∧
    (desc.GetType = FieldDescriptorProto_TYPE_BOOL →
      convertFieldSwitch c desc msg outerEnums t = some { t with Type_ := TYPE_BOOLEAN }) ∧
    ((desc.GetType < 1 ∨ 18 < desc.GetType) →
      convertFieldSwitch c desc msg outerEnums t = none) := by
  refine ⟨?_, ?_, ?_, ?_, ?_⟩
  · intro h
    rcases h with h | h <;>
      simp [convertFieldSwitch, h, FieldDescriptorProto_TYPE_DOUBLE, FieldDescriptorProto_TYPE_FLOAT]
  · intro h
    rcases h with h | h | h | h | h | h | h | h | h | h <;>
      simp [convertFieldSwitch, h, FieldDescriptorProto_TYPE_DOUBLE, FieldDescriptorProto_TYPE_FLOAT,
        FieldDescriptorProto_TYPE_INT32, FieldDescriptorProto_TYPE_UINT32,
        FieldDescriptorProto_TYPE_FIXED32, FieldDescriptorProto_TYPE_SFIXED32,
        FieldDescriptorProto_TYPE_SINT32, FieldDescriptorProto_TYPE_INT64,
        FieldDescriptorProto_TYPE_UINT64, FieldDescriptorProto_TYPE_FIXED64,
        FieldDescriptorProto_TYPE_SFIXED64, FieldDescriptorProto_TYPE_SINT64]
  · intro h
    rcases h with h | h <;>
      simp [convertFieldSwitch, h, FieldDescriptorProto_TYPE_DOUBLE, FieldDescriptorProto_TYPE_FLOAT,
        FieldDescriptorProto_TYPE_INT32, FieldDescriptorProto_TYPE_UINT32,
        FieldDescriptorProto_TYPE_FIXED32, FieldDescriptorProto_TYPE_SFIXED32,
        FieldDescriptorProto_TYPE_SINT32, FieldDescriptorProto_TYPE_INT64,
        FieldDescriptorProto_TYPE_UINT64, FieldDescriptorProto_TYPE_FIXED64,
        FieldDescriptorProto_TYPE_SFIXED64, FieldDescriptorProto_TYPE_SINT64,
        FieldDescriptorProto_TYPE_STRING, FieldDescriptorProto_TYPE_BYTES]
  · intro h
    simp [convertFieldSwitch, h, FieldDescriptorProto_TYPE_DOUBLE, FieldDescriptorProto_TYPE_FLOAT,
        FieldDescriptorProto_TYPE_INT32, FieldDescriptorProto_TYPE_UINT32,
        FieldDescriptorProto_TYPE_FIXED32, FieldDescriptorProto_TYPE_SFIXED32,
        FieldDescriptorProto_TYPE_SINT32, FieldDescriptorProto_TYPE_INT64,
        FieldDescriptorProto_TYPE_UINT64, FieldDescriptorProto_TYPE_FIXED64,
        FieldDescriptorProto_TYPE_SFIXED64, FieldDescriptorProto_TYPE_SINT64,
        FieldDescriptorProto_TYPE_STRING, FieldDescriptorProto_TYPE_BYTES,
        FieldDescriptorProto_TYPE_ENUM, FieldDescriptorProto_TYPE_BOOL]
  · intro h
    simp only [convertFieldSwitch, FieldDescriptorProto_TYPE_DOUBLE, FieldDescriptorProto_TYPE_FLOAT,
        FieldDescriptorProto_TYPE_INT32, FieldDescriptorProto_TYPE_UINT32,
        FieldDescriptorProto_TYPE_FIXED32, FieldDescriptorProto_TYPE_SFIXED32,
        FieldDescriptorProto_TYPE_SINT32, FieldDescriptorProto_TYPE_INT64,
        FieldDescriptorProto_TYPE_UINT64, FieldDescriptorProto_TYPE_FIXED64,
        FieldDescriptorProto_TYPE_SFIXED64, FieldDescriptorProto_TYPE_SINT64,
        FieldDescriptorProto_TYPE_STRING, FieldDescriptorProto_TYPE_BYTES,
        FieldDescriptorProto_TYPE_ENUM, FieldDescriptorProto_TYPE_BOOL,
        FieldDescriptorProto_TYPE_GROUP, FieldDescriptorProto_TYPE_MESSAGE]
    obtain ⟨ty, hty⟩ : ∃ ty : Int, ty = desc.GetType := ⟨_, rfl⟩
    rw [← hty] at h ⊢
    have h0 : @LT.lt Int _ ty 1 ∨ @LT.lt Int _ 18 ty := h
    have e : ∀ k : Int, (@Eq FieldDescriptorProto_Type ty k) = (@Eq Int ty k) := fun _ => rfl
    simp only [e]
    have n1 : ¬ (ty = 1 ∨ ty = 2) := by omega
    have n2 : ¬ (ty = 5 ∨ ty = 13 ∨ ty = 7 ∨ ty = 15 ∨ ty = 17) := by omega
    have n3 : ¬ (ty = 3 ∨ ty = 4 ∨ ty = 6 ∨ ty = 16 ∨ ty = 18) := by omega
    have n4 : ¬ (ty = 9 ∨ ty = 12) := by omega
    have n5 : ¬ (ty = 14) := by omega
    have n6 : ¬ (ty = 8) := by omega
    have n7 : ¬ (ty = 10 ∨ ty = 11) := by omega
    rw [if_neg n1, if_neg n2, if_neg n3, if_neg n4, if_neg n5, if_neg n6, if_neg n7]

/-- Claim C2: for a field that is not repeated, `convertField` returns a node
of kind number for double and float, integer for the ten integer kinds, string
for string and bytes, boolean for bool; and for a field kind outside the table
(below 1 or above 18) it returns no node and the error `unrecognized field
type`, whatever the label. -/
theorem convertField_scalar_table (c : Converter) (fuel : Nat) (curPkg : ProtoPackagePtr)
    (desc : FieldDescriptorProto) (msg : DescriptorProto)
    (outerEnums : List EnumDescriptorProto) :
    (desc.GetLabel ≠ FieldDescriptorProto_LABEL_REPEATED →
      ((desc.GetType = FieldDescriptorProto_TYPE_DOUBLE ∨
          desc.GetType = FieldDescriptorProto_TYPE_FLOAT) →
        convertField c fuel curPkg desc msg outerEnums
          = .ok (some { JSONSchemaType.zero with Type_ := TYPE_NUMBER }, none)) ∧
      ((desc.GetType = FieldDescriptorProto_TYPE_INT32 ∨
          desc.GetType = FieldDescriptorProto_TYPE_UINT32 ∨
          desc.GetType = FieldDescriptorProto_TYPE_FIXED32 ∨
          desc.GetType = FieldDescriptorProto_TYPE_SFIXED32 ∨
          desc.GetType = FieldDescriptorProto_TYPE_SINT32 ∨
          desc.GetType = FieldDescriptorProto_TYPE_INT64 ∨
          desc.GetType = FieldDescriptorProto_TYPE_UINT64 ∨
          desc.GetType = FieldDescriptorProto_TYPE_FIXED64 ∨
          desc.GetType = FieldDescriptorProto_TYPE_SFIXED64 ∨
          desc.GetType = FieldDescriptorProto_TYPE_SINT64) →
        convertField c fuel curPkg desc msg outerEnums
          = .ok (some { JSONSchemaType.zero with Type_ := TYPE_INTEGER }, none)) ∧
      ((desc.GetType = FieldDescriptorProto_TYPE_STRING ∨
          desc.GetType = FieldDescriptorProto_TYPE_BYTES) →
        convertField c fuel curPkg desc msg outerEnums
          = .ok (some { JSONSchemaType.zero with Type_ := TYPE_STRING }, none)) ∧
      (desc.GetType = FieldDescriptorProto_TYPE_BOOL →
        convertField c fuel curPkg desc msg outerEnums
          = .ok (some { JSONSchemaType.zero with Type_ := TYPE_BOOLEAN }, none))) ∧
    ((desc.GetType < 1 ∨ 18 < desc.GetType) →
      convertField c fuel curPkg desc msg outerEnums
        = .ok (none, some ("unrecognized field type: " ++ desc.GetType.String))) := by
  obtain ⟨h1, h2, h3, h4, h5⟩ := convertFieldSwitch_scalar c desc msg outerEnums JSONSchemaType.zero
  refine ⟨fun hl => ⟨fun h => ?_, fun h => ?_, fun h => ?_, fun h => ?_⟩, fun h => ?_⟩
  · rw [convertField, convertFieldBody_of_switch c _ curPkg desc msg outerEnums _ (h1 h) (by decide),
      if_neg hl]
  · rw [convertField, convertFieldBody_of_switch c _ curPkg desc msg outerEnums _ (h2 h) (by decide),
      if_neg hl]
  · rw [convertField, convertFieldBody_of_switch c _ curPkg desc msg outerEnums _ (h3 h) (by decide),
      if_neg hl]
  · rw [convertField, convertFieldBody_of_switch c _ curPkg desc msg outerEnums _ (h4 h) (by decide),
      if_neg hl]
  · unfold convertField convertFieldBody
    dsimp only
    rw [zero_with_properties, h5 h]

/-- Witness for C2: an optional double field, an optional sint64 field, an
optional bytes field, an optional bool field, and a repeated field of the
unmapped kind 19. -/
theorem convertField_scalar_table_witness :
    convertField plainConverter 0 0
        (mkField "d" 1 FieldDescriptorProto_LABEL_OPTIONAL FieldDescriptorProto_TYPE_DOUBLE none)
        holderMessage []
      = .ok (some { JSONSchemaType.zero with Type_ := "number" }, none) ∧
    convertField plainConverter 0 0
        (mkField "i" 2 FieldDescriptorProto_LABEL_REQUIRED FieldDescriptorProto_TYPE_SINT64 none)
        holderMessage []
      = .ok (some { JSONSchemaType.zero with Type_ := "integer" }, none) ∧
    convertField plainConverter 0 0
        (mkField "s" 3 FieldDescriptorProto_LABEL_OPTIONAL FieldDescriptorProto_TYPE_BYTES none)
        holderMessage []
      = .ok (some { JSONSchemaType.zero with Type_ := "string" }, none) ∧
    convertField plainConverter 0 0
        (mkField "b" 4 FieldDescriptorProto_LABEL_OPTIONAL FieldDescriptorProto_TYPE_BOOL none)
        holderMessage []
      = .ok (some { JSONSchemaType.zero with Type_ := "boolean" }, none) ∧
    convertField plainConverter 0 0
        (mkField "u" 5 FieldDescriptorProto_LABEL_REPEATED 19 none) holderMessage []
      = .ok (none, some "unrecognized field type: 19") :=
  ⟨((convertField_scalar_table plainConverter 0 0
        (mkField "d" 1 FieldDescriptorProto_LABEL_OPTIONAL FieldDescriptorProto_TYPE_DOUBLE none)
        holderMessage []).1 (by decide)).1 (Or.inl rfl),
   ((convertField_scalar_table plainConverter 0 0
        (mkField "i" 2 FieldDescriptorProto_LABEL_REQUIRED FieldDescriptorProto_TYPE_SINT64 none)
        holderMessage []).1 (by decide)).2.1 (by decide),
   ((convertField_scalar_table plainConverter 0 0
        (mkField "s" 3 FieldDescriptorProto_LABEL_OPTIONAL FieldDescriptorProto_TYPE_BYTES none)
        holderMessage []).1 (by decide)).2.2.1 (Or.inr rfl),
   ((convertField_scalar_table plainConverter 0 0
        (mkField "b" 4 FieldDescriptorProto_LABEL_OPTIONAL FieldDescriptorProto_TYPE_BOOL none)
        holderMessage []).1 (by decide)).2.2.2 rfl,
   (convertField_scalar_table plainConverter 0 0
        (mkField "u" 5 FieldDescriptorProto_LABEL_REPEATED 19 none) holderMessage []).2
      (by decide)⟩

/-- Claim C3, what the code does: with `AllowNullValues` set, a repeated
scalar field converts to a node that has the alternatives null and array and an
item node of the scalar kind, but whose own kind is still the scalar kind of
the field (integer for int32): the kind set by the `switch` is never cleared. -/
theorem convertField_repeated_nullable_keeps_scalar_kind (c : Converter) (fuel : Nat)
    (curPkg : ProtoPackagePtr) (desc : FieldDescriptorProto) (msg : DescriptorProto)
    (outerEnums : List EnumDescriptorProto)
    (hnull : c.AllowNullValues = true)
    (hl : desc.GetLabel = FieldDescriptorProto_LABEL_REPEATED) :
    ((desc.GetType = FieldDescriptorProto_TYPE_DOUBLE ∨
        desc.GetType = FieldDescriptorProto_TYPE_FLOAT) →
      convertField c fuel curPkg desc msg outerEnums
        = .ok (some { JSONSchemaType.zero with
                  Type_ := TYPE_NUMBER,
                  Items := some { JSONSchemaType.zero with Type_ := TYPE_NUMBER },
                  OneOf := [{ JSONSchemaType.zero with Type_ := TYPE_NULL },
                            { JSONSchemaType.zero with Type_ := TYPE_ARRAY }] }, none)) ∧
    ((desc.GetType = FieldDescriptorProto_TYPE_INT32 ∨
        desc.GetType = FieldDescriptorProto_TYPE_UINT32 ∨
        desc.GetType = FieldDescriptorProto_TYPE_FIXED32 ∨
        desc.GetType = FieldDescriptorProto_TYPE_SFIXED32 ∨
        desc.GetType = FieldDescriptorProto_TYPE_SINT32 ∨
        desc.GetType = FieldDescriptorProto_TYPE_INT64 ∨
        desc.GetType = FieldDescriptorProto_TYPE_UINT64 ∨
        desc.GetType = FieldDescriptorProto_TYPE_FIXED64 ∨
        desc.GetType = FieldDescriptorProto_TYPE_SFIXED64 ∨
        desc.GetType = FieldDescriptorProto_TYPE_SINT64) →
      convertField c fuel curPkg desc msg outerEnums
        = .ok (some { JSONSchemaType.zero with
                  Type_ := TYPE_INTEGER,
                  Items := some { JSONSchemaType.zero with Type_ := TYPE_INTEGER },
                  OneOf := [{ JSONSchemaType.zero with Type_ := TYPE_NULL },
                            { JSONSchemaType.zero with Type_ := TYPE_ARRAY }] }, none)) ∧
    ((desc.GetType = FieldDescriptorProto_TYPE_STRING ∨
        desc.GetType = FieldDescriptorProto_TYPE_BYTES) →
      convertField c fuel curPkg desc msg outerEnums
        = .ok (some { JSONSchemaType.zero with
                  Type_ := TYPE_STRING,
                  Items := some { JSONSchemaType.zero with Type_ := TYPE_STRING },
                  OneOf := [{ JSONSchemaType.zero with Type_ := TYPE_NULL },
                            { JSONSchemaType.zero with Type_ := TYPE_ARRAY }] }, none)) ∧
    (desc.GetType = FieldDescriptorProto_TYPE_BOOL →
      convertField c fuel curPkg desc msg outerEnums
        = .ok (some { JSONSchemaType.zero with
                  Type_ := TYPE_BOOLEAN,
                  Items := some { JSONSchemaType.zero with Type_ := TYPE_BOOLEAN },
                  OneOf := [{ JSONSchemaType.zero with Type_ := TYPE_NULL },
                            { JSONSchemaType.zero with Type_ := TYPE_ARRAY }] }, none)) := by
  obtain ⟨h1, h2, h3, h4, _⟩ := convertFieldSwitch_scalar c desc msg outerEnums JSONSchemaType.zero
  refine ⟨fun h => ?_, fun h => ?_, fun h => ?_, fun h => ?_⟩
  · rw [convertField, convertFieldBody_of_switch c _ curPkg desc msg outerEnums _ (h1 h) (by decide),
      if_pos hl]
    simp [convertFieldRepeated, hnull, JSONSchemaType.zero]
  · rw [convertField, convertFieldBody_of_switch c _ curPkg desc msg outerEnums _ (h2 h) (by decide),
      if_pos hl]
    simp [convertFieldRepeated, hnull, JSONSchemaType.zero]
  · rw [convertField, convertFieldBody_of_switch c _ curPkg desc msg outerEnums _ (h3 h) (by decide),
      if_pos hl]
    simp [convertFieldRepeated, hnull, JSONSchemaType.zero]
  · rw [convertField, convertFieldBody_of_switch c _ curPkg desc msg outerEnums _ (h4 h) (by decide),
      if_pos hl]
    simp [convertFieldRepeated, hnull, JSONSchemaType.zero]

/-- Witness for C3: a repeated int32 field under `AllowNullValues`; the node
returned has kind integer next to the alternatives null and array. -/
theorem convertField_repeated_nullable_keeps_scalar_kind_witness :
    convertField nullableConverter 0 0
        (mkField "xs" 1 FieldDescriptorProto_LABEL_REPEATED FieldDescriptorProto_TYPE_INT32 none)
        holderMessage []
      = .ok (some { JSONSchemaType.zero with
                    Type_ := "integer",
                    Items := some { JSONSchemaType.zero with Type_ := "integer" },
                    OneOf := [{ JSONSchemaType.zero with Type_ := "null" },
                              { JSONSchemaType.zero with Type_ := "array" }] }, none) :=
  (convertField_repeated_nullable_keeps_scalar_kind nullableConverter 0 0
      (mkField "xs" 1 FieldDescriptorProto_LABEL_REPEATED FieldDescriptorProto_TYPE_INT32 none)
      holderMessage [] rfl rfl).2.1 (Or.inl rfl)

/-- One step of the value loop, for an enum whose name is a suffix of the
field type name: the number and the label of the value are appended. -/
theorem convertFieldEnumValue_match (c : Converter) (desc : FieldDescriptorProto)
    (e : EnumDescriptorProto) (t : JSONSchemaType) (v : EnumValueDescriptorProto)
    (hmatch : HasSuffix desc.GetTypeName e.Name = true) :
    convertFieldEnumValue c desc e t v =
      { t with Enum := t.Enum ++ [v.Number],
               OptionLabels := t.OptionLabels ++ [specOptionLabel c v] } := by
  unfold convertFieldEnumValue specOptionLabel getEnumComment
  rw [if_pos hmatch]
  cases c.sourceInfo.GetEnumValue v with
  | none => rfl
  | some src =>
    dsimp only
    by_cases h : (TrimSpace src.GetLeadingComments).length > 0
    · simp only [h, if_true]
    · simp only [h, if_false]

/-- The value loop over a matching enum appends the numbers and the labels of
all its values, in order. -/
theorem convertFieldEnumValues_match (c : Converter) (desc : FieldDescriptorProto)
    (e : EnumDescriptorProto) (hmatch : HasSuffix desc.GetTypeName e.Name = true) :
    ∀ (vs : List EnumValueDescriptorProto) (t : JSONSchemaType),
      vs.foldl (convertFieldEnumValue c desc e) t =
        { t with Enum := t.Enum ++ vs.map (fun v => v.Number),
                 OptionLabels := t.OptionLabels ++ vs.map (specOptionLabel c) } := by
  intro vs
  induction vs with
  | nil => intro t; cases t; simp
  | cons v vs ih =>
    intro t
    rw [List.foldl_cons, convertFieldEnumValue_match c desc e t v hmatch, ih]
    simp

/-- The value loop over an enum whose name is no suffix of the field type name
changes nothing. -/
theorem convertFieldEnumValues_other (c : Converter) (desc : FieldDescriptorProto)
    (e : EnumDescriptorProto) (hother : HasSuffix desc.GetTypeName e.Name = false) :
    ∀ (vs : List EnumValueDescriptorProto) (t : JSONSchemaType),
      vs.foldl (convertFieldEnumValue c desc e) t = t := by
  intro vs
  induction vs with
  | nil => intro t; rfl
  | cons v vs ih =>
    intro t
    rw [List.foldl_cons]
    have : convertFieldEnumValue c desc e t v = t := by
      unfold convertFieldEnumValue
      simp [hother]
    rw [this, ih]

/-- The enum loop over enums none of which matches changes nothing. -/
theorem convertFieldEnums_others (c : Converter) (desc : FieldDescriptorProto) :
    ∀ (enums : List EnumDescriptorProto) (t : JSONSchemaType),
      (∀ x ∈ enums, HasSuffix desc.GetTypeName x.Name = false) →
      convertFieldEnums c desc enums t = t := by
  intro enums
  induction enums with
  | nil => intro t _; rfl
  | cons x xs ih =>
    intro t h
    unfold convertFieldEnums
    rw [List.foldl_cons, convertFieldEnumValues_other c desc x (h x (List.mem_cons_self _ _))]
    exact ih t (fun y hy => h y (List.mem_cons_of_mem _ hy))

/-- The enum loop when exactly one enum of the list matches: the numbers and
labels of that enum are appended. -/
theorem convertFieldEnums_single (c : Converter) (desc : FieldDescriptorProto)
    (pre post : List EnumDescriptorProto) (e : EnumDescriptorProto) (t : JSONSchemaType)
    (hmatch : HasSuffix desc.GetTypeName e.Name = true)
    (hothers : ∀ x ∈ pre ++ post, HasSuffix desc.GetTypeName x.Name = false) :
    convertFieldEnums c desc (pre ++ e :: post) t =
      { t with Enum := t.Enum ++ e.Value.map (fun v => v.Number),
               OptionLabels := t.OptionLabels ++ e.Value.map (specOptionLabel c) } := by
  have hpre : convertFieldEnums c desc pre t = t :=
    convertFieldEnums_others c desc pre t
      (fun x hx => hothers x (List.mem_append_left _ hx))
  have hsplit : convertFieldEnums c desc (pre ++ e :: post) t =
      convertFieldEnums c desc post
        (e.Value.foldl (convertFieldEnumValue c desc e) (convertFieldEnums c desc pre t)) := by
    unfold convertFieldEnums
    rw [List.foldl_append, List.foldl_cons]
  rw [hsplit, hpre, convertFieldEnumValues_match c desc e hmatch]
  exact convertFieldEnums_others c desc post _
    (fun x hx => hothers x (List.mem_append_right _ hx))

/-- The `switch` of `convertField` on an enum field. -/
theorem convertFieldSwitch_enum (c : Converter) (desc : FieldDescriptorProto)
    (msg : DescriptorProto) (outerEnums : List EnumDescriptorProto) (t : JSONSchemaType)
    (hty : desc.GetType = FieldDescriptorProto_TYPE_ENUM) :
    convertFieldSwitch c desc msg outerEnums t =
      some (convertFieldEnums c desc (msg.GetEnumType ++ outerEnums)
        { t with Type_ := TYPE_INTEGER }) := by
  simp [convertFieldSwitch, hty, FieldDescriptorProto_TYPE_DOUBLE, FieldDescriptorProto_TYPE_FLOAT,
    FieldDescriptorProto_TYPE_INT32, FieldDescriptorProto_TYPE_UINT32,
    FieldDescriptorProto_TYPE_FIXED32, FieldDescriptorProto_TYPE_SFIXED32,
    FieldDescriptorProto_TYPE_SINT32, FieldDescriptorProto_TYPE_INT64,
    FieldDescriptorProto_TYPE_UINT64, FieldDescriptorProto_TYPE_FIXED64,
    FieldDescriptorProto_TYPE_SFIXED64, FieldDescriptorProto_TYPE_SINT64,
    FieldDescriptorProto_TYPE_STRING, FieldDescriptorProto_TYPE_BYTES,
    FieldDescriptorProto_TYPE_ENUM]

/-- The array block keeps the option labels on the node and leaves it with an
empty enum list. -/
theorem convertFieldRepeated_labels (c : Converter) (t : JSONSchemaType) :
    (convertFieldRepeated c t).OptionLabels = t.OptionLabels ∧
    (convertFieldRepeated c t).Enum = [] := by
  unfold convertFieldRepeated
  by_cases h : t.Enum.length > 0
  · cases c.AllowNullValues <;> simp [h]
  · have h0 : t.Enum = [] := by
      cases hE : t.Enum with
      | nil => rfl
      | cons a l => rw [hE] at h; simp at h
    cases c.AllowNullValues <;> simp [h, h0]

/-- The array block moves a non-empty enum list to the item node, which gets
no kind. -/
theorem convertFieldRepeated_items_enum (c : Converter) (t : JSONSchemaType)
    (h : t.Enum ≠ []) :
    (convertFieldRepeated c t).Items =
      some { JSONSchemaType.zero with Enum := t.Enum, OneOf := [] } := by
  have hlen : t.Enum.length > 0 := List.length_pos.mpr h
  unfold convertFieldRepeated
  cases c.AllowNullValues <;> simp [hlen]

/-- The array block gives the item node the kind of the node when the enum
list is empty. -/
theorem convertFieldRepeated_items_kind (c : Converter) (t : JSONSchemaType)
    (h : t.Enum = []) :
    (convertFieldRepeated c t).Items =
      some { JSONSchemaType.zero with Type_ := t.Type_, OneOf := t.OneOf } := by
  unfold convertFieldRepeated
  cases c.AllowNullValues <;> simp [h]

/-- Claim C4, counterexample: for the repeated field `all` of the message
`Palette`, whose type name `.Color` ends with the name of exactly one enum,
the node returned by `convertField` has an empty enum list although the enum
has two values. -/
theorem convertField_enum_repeated_counterexample :
    ∃ node, convertField plainConverter 0 0 allColorsField paletteMessage []
        = .ok (some node, none) ∧
      node.Enum.length = 0 ∧ colorEnum.Value.length = 2 :=
  ⟨_, rfl, rfl, rfl⟩

/-- Claim C4, amended: for an enum field whose type name ends with the name of
exactly one enum `e` of the message enums followed by the outer enums, the
node returned by `convertField` has the option labels of the values of `e`, in
order and one per value (the trimmed leading comment when present and not
empty, else the number); when the field is not repeated its enum list holds
the numbers of the values of `e`, in order and one per value; when the field
is repeated the enum list of the node is empty and, if `e` has a value, the
item node holds those numbers and has no kind. -/
theorem convertField_enum_single_match (c : Converter) (fuel : Nat) (curPkg : ProtoPackagePtr)
    (desc : FieldDescriptorProto) (msg : DescriptorProto)
    (outerEnums pre post : List EnumDescriptorProto) (e : EnumDescriptorProto)
    (hty : desc.GetType = FieldDescriptorProto_TYPE_ENUM)
    (henums : msg.GetEnumType ++ outerEnums = pre ++ e :: post)
    (hmatch : HasSuffix desc.GetTypeName e.Name = true)
    (hothers : ∀ x ∈ pre ++ post, HasSuffix desc.GetTypeName x.Name = false) :
    ∃ node, convertField c fuel curPkg desc msg outerEnums = .ok (some node, none) ∧
      node.OptionLabels = e.Value.map (specOptionLabel c) ∧
      node.OptionLabels.length = e.Value.length ∧
      (desc.GetLabel ≠ FieldDescriptorProto_LABEL_REPEATED →
        node.Type_ = TYPE_INTEGER ∧
        node.Enum = e.Value.map (fun v => v.Number) ∧ node.Enum.length = e.Value.length) ∧
      (desc.GetLabel = FieldDescriptorProto_LABEL_REPEATED →
        node.Enum = [] ∧
        (e.Value ≠ [] → ∃ item, node.Items = some item ∧ item.Type_ = "" ∧
          item.Enum = e.Value.map (fun v => v.Number) ∧ item.Enum.length = e.Value.length)) := by
  have hsw := convertFieldSwitch_enum c desc msg outerEnums JSONSchemaType.zero hty
  rw [henums, convertFieldEnums_single c desc pre post e _ hmatch hothers] at hsw
  have hbody := convertFieldBody_of_switch c (convertMessageType c fuel) curPkg desc msg outerEnums
    _ hsw (by show TYPE_INTEGER ≠ TYPE_OBJECT; decide)
  refine ⟨_, hbody, ?_⟩
  by_cases hl : desc.GetLabel = FieldDescriptorProto_LABEL_REPEATED
  · rw [if_pos hl]
    obtain ⟨hlab, hen⟩ := convertFieldRepeated_labels c
      { ({ JSONSchemaType.zero with Type_ := TYPE_INTEGER } : JSONSchemaType) with
        Enum := [] ++ e.Value.map (fun v => v.Number),
        OptionLabels := [] ++ e.Value.map (specOptionLabel c) }
    refine ⟨hlab, ?_, fun h => absurd hl h, fun _ => ⟨hen, fun hv => ?_⟩⟩
    · exact (congrArg List.length hlab).trans (List.length_map _ _)
    · have hne : ([] : List (Option Int)) ++ e.Value.map (fun v => v.Number) ≠ [] := by
        simpa using hv
      exact ⟨_, convertFieldRepeated_items_enum c _ hne, rfl, rfl, List.length_map _ _⟩
  · rw [if_neg hl]
    exact ⟨rfl, List.length_map _ _, fun _ => ⟨rfl, rfl, List.length_map _ _⟩,
      fun h => absurd h hl⟩

/-- Witness for C4: the optional field `main` and the repeated field `all` of
the message `Palette`, with a comment recorded for the value RED. -/
theorem convertField_enum_single_match_witness :
    (∃ node, convertField redCommentConverter 0 0 mainColorField paletteMessage []
        = .ok (some node, none) ∧
      node.OptionLabels = [OptionLabel.text "Red tone", OptionLabel.number (some 1)] ∧
      node.OptionLabels.length = 2 ∧
      (mainColorField.GetLabel ≠ FieldDescriptorProto_LABEL_REPEATED →
        node.Type_ = "integer" ∧ node.Enum = [some 0, some 1] ∧ node.Enum.length = 2) ∧
      (mainColorField.GetLabel = FieldDescriptorProto_LABEL_REPEATED →
        node.Enum = [] ∧
        (colorEnum.Value ≠ [] → ∃ item, node.Items = some item ∧ item.Type_ = "" ∧
          item.Enum = [some 0, some 1] ∧ item.Enum.length = 2))) ∧
    (∃ node, convertField redCommentConverter 0 0 allColorsField paletteMessage []
        = .ok (some node, none) ∧
      node.OptionLabels = [OptionLabel.text "Red tone", OptionLabel.number (some 1)] ∧
      node.OptionLabels.length = 2 ∧
      (allColorsField.GetLabel ≠ FieldDescriptorProto_LABEL_REPEATED →
        node.Type_ = "integer" ∧ node.Enum = [some 0, some 1] ∧ node.Enum.length = 2) ∧
      (allColorsField.GetLabel = FieldDescriptorProto_LABEL_REPEATED →
        node.Enum = [] ∧
        (colorEnum.Value ≠ [] → ∃ item, node.Items = some item ∧ item.Type_ = "" ∧
          item.Enum = [some 0, some 1] ∧ item.Enum.length = 2))) :=
  ⟨convertField_enum_single_match redCommentConverter 0 0 mainColorField paletteMessage []
      [shadeEnum] [] colorEnum rfl rfl (by decide) (by decide),
   convertField_enum_single_match redCommentConverter 0 0 allColorsField paletteMessage []
      [shadeEnum] [] colorEnum rfl rfl (by decide) (by decide)⟩

/-- A location whose three comment parts are empty carries no directive. -/
theorem getComments_empty (sl : SourceCodeInfo_Location)
    (h1 : sl.GetLeadingComments = "") (h2 : sl.GetTrailingComments = "")
    (h3 : sl.GetLeadingDetachedComments = []) : getComments sl = [] := by
  unfold getComments
  rw [h1, h2, h3]
  rfl

/-- With no directive, `fillJSONSchemaType` only sets the default title of a
node that has none. -/
theorem fillJSONSchemaType_no_directive (c : Converter) (sl : SourceCodeInfo_Location)
    (name : String) (t : JSONSchemaType) (h : getComments sl = []) (ht : t.Title = "") :
    fillJSONSchemaType c sl name t = { t with Title := ToSplitCase name } := by
  unfold fillJSONSchemaType fillJSONSchemaTypeVisiting
  have hv : c.rangeOrder.visit [] = [] := List.Perm.eq_nil (c.rangeOrder.perm [])
  simp [h, hv, ht]

/-- Claim C5, counterexample: converting `Point`, whose fields have source
locations with empty comments, gives the property `x` the title `x`, the field
name as it is, and not `X`. -/
theorem convertMessageType_point_title_counterexample :
    ∃ node nx, convertMessageType emptyCommentConverter 1 0 pointMessage [] = .ok (node, none) ∧
      mapGet node.Properties "x" = some nx ∧ nx.Title = "x" ∧ nx.Title ≠ "X" :=
  ⟨_, _, rfl, rfl, rfl, by decide⟩

/-- Claim C5, amended: converting `Point` (double `x` with tag 1, double `y`
with tag 2), whose fields have source locations with empty comments, yields an
object node with exactly the two properties `x` and `y`, both of kind number,
with order 1 and 2, and with the titles `x` and `y`: the field names, in which
`ToSplitCase` finds no place for a space and changes no letter. -/
theorem convertMessageType_point (c : Converter) (fuel : Nat) (curPkg : ProtoPackagePtr)
    (outerEnums : List EnumDescriptorProto) (slx sly : SourceCodeInfo_Location)
    (hx : c.sourceInfo.GetField pointX = some slx)
    (hy : c.sourceInfo.GetField pointY = some sly)
    (hslx : slx.GetLeadingComments = "" ∧ slx.GetTrailingComments = "" ∧
      slx.GetLeadingDetachedComments = [])
    (hsly : sly.GetLeadingComments = "" ∧ sly.GetTrailingComments = "" ∧
      sly.GetLeadingDetachedComments = []) :
    ∃ node, convertMessageType c (fuel + 1) curPkg pointMessage outerEnums = .ok (node, none) ∧
      node.Type_ = TYPE_OBJECT ∧
      node.Properties =
        [("x", { JSONSchemaType.zero with Type_ := TYPE_NUMBER, Title := "x", Order := 1 }),
         ("y", { JSONSchemaType.zero with Type_ := TYPE_NUMBER, Title := "y", Order := 2 })] := by
  have cx : convertFieldBody c (convertMessageType c fuel) curPkg pointX pointMessage outerEnums
      = .ok (some { JSONSchemaType.zero with Type_ := TYPE_NUMBER }, none) :=
    (convertFieldBody_of_switch c _ curPkg pointX pointMessage outerEnums _
      ((convertFieldSwitch_scalar c pointX pointMessage outerEnums JSONSchemaType.zero).1
        (Or.inl rfl)) (by decide)).trans (by rw [if_neg (by decide)])
  have cy : convertFieldBody c (convertMessageType c fuel) curPkg pointY pointMessage outerEnums
      = .ok (some { JSONSchemaType.zero with Type_ := TYPE_NUMBER }, none) :=
    (convertFieldBody_of_switch c _ curPkg pointY pointMessage outerEnums _
      ((convertFieldSwitch_scalar c pointY pointMessage outerEnums JSONSchemaType.zero).1
        (Or.inl rfl)) (by decide)).trans (by rw [if_neg (by decide)])
  have fx : fillCommentAttribute c pointX { JSONSchemaType.zero with Type_ := TYPE_NUMBER }
      = { JSONSchemaType.zero with Type_ := TYPE_NUMBER, Title := "x" } := by
    unfold fillCommentAttribute
    rw [hx]
    exact fillJSONSchemaType_no_directive c slx _ _
      (getComments_empty slx hslx.1 hslx.2.1 hslx.2.2) rfl
  have fy : fillCommentAttribute c pointY { JSONSchemaType.zero with Type_ := TYPE_NUMBER }
      = { JSONSchemaType.zero with Type_ := TYPE_NUMBER, Title := "y" } := by
    unfold fillCommentAttribute
    rw [hy]
    exact fillJSONSchemaType_no_directive c sly _ _
      (getComments_empty sly hsly.1 hsly.2.1 hsly.2.2) rfl
  have sx : ∀ acc : JSONSchemaType,
      convertMessageTypeStore c pointX { JSONSchemaType.zero with Type_ := TYPE_NUMBER } acc =
        { acc with Properties := (mapSet acc.Properties "x"
            { JSONSchemaType.zero with Type_ := TYPE_NUMBER, Title := "x", Order := 1 }) } := by
    intro acc
    unfold convertMessageTypeStore convertMessageTypeFieldNode
    rw [fx]
    cases c.UseProtoAndJSONFieldnames <;> rfl
  have sy : ∀ acc : JSONSchemaType,
      convertMessageTypeStore c pointY { JSONSchemaType.zero with Type_ := TYPE_NUMBER } acc =
        { acc with Properties := (mapSet acc.Properties "y"
            { JSONSchemaType.zero with Type_ := TYPE_NUMBER, Title := "y", Order := 2 }) } := by
    intro acc
    unfold convertMessageTypeStore convertMessageTypeFieldNode
    rw [fy]
    cases c.UseProtoAndJSONFieldnames <;> rfl
  have hloop : ∀ acc : JSONSchemaType,
      convertMessageTypeLoop c (convertFieldBody c (convertMessageType c fuel)) curPkg pointMessage
        outerEnums [pointX, pointY] acc =
      .ok ({ acc with Properties := (mapSet (mapSet acc.Properties "x"
              { JSONSchemaType.zero with Type_ := TYPE_NUMBER, Title := "x", Order := 1 }) "y"
              { JSONSchemaType.zero with Type_ := TYPE_NUMBER, Title := "y", Order := 2 }) },
           none) := by
    intro acc
    rw [convertMessageTypeLoop_cons_ok c _ curPkg pointMessage outerEnums pointX [pointY] acc _ cx,
      convertMessageTypeLoop_cons_ok c _ curPkg pointMessage outerEnums pointY [] _ _ cy, sx, sy]
    rfl
  have hfields : pointMessage.GetField = [pointX, pointY] := rfl
  unfold convertMessageType convertMessageTypeBody
  rw [hfields, hloop]
  cases c.DisallowAdditionalProperties <;> exact ⟨_, rfl, rfl, rfl⟩

/-- Witness for C5: the converter in which every field has a source location
with empty comments. -/
theorem convertMessageType_point_witness :
    ∃ node, convertMessageType emptyCommentConverter 1 0 pointMessage [] = .ok (node, none) ∧
      node.Type_ = "object" ∧
      node.Properties =
        [("x", { JSONSchemaType.zero with Type_ := "number", Title := "x", Order := 1 }),
         ("y", { JSONSchemaType.zero with Type_ := "number", Title := "y", Order := 2 })] :=
  convertMessageType_point emptyCommentConverter 0 0 [] emptyLocation emptyLocation rfl rfl
    ⟨rfl, rfl, rfl⟩ ⟨rfl, rfl, rfl⟩

/-- A list that `parseDigits` reads holds decimal digits only. -/
theorem parseDigits_digits : ∀ (l : List Char) (acc n : Nat), parseDigits l acc = some n →
    ∀ ch ∈ l, 48 ≤ ch.toNat ∧ ch.toNat ≤ 57 := by
  intro l
  induction l with
  | nil => intro _ _ _ ch hch; simp at hch
  | cons c cs ih =>
    intro acc n h ch hch
    unfold parseDigits at h
    cases hd : digitValue c with
    | none => rw [hd] at h; simp at h
    | some d =>
      rw [hd] at h
      rcases List.mem_cons.mp hch with rfl | hmem
      · unfold digitValue at hd
        by_cases hr : 48 ≤ ch.toNat ∧ ch.toNat ≤ 57
        · exact hr
        · rw [if_neg hr] at hd; simp at hd
      · exact ih _ _ h ch hmem

/-- A string that `Atoi` accepts is not empty and holds signs and digits only. -/
theorem Atoi_chars (s : String) (v : Int) (h : Atoi s = some v) :
    s.data ≠ [] ∧ ∀ ch ∈ s.data, isLiteralChar ch := by
  unfold Atoi at h
  have key : ∀ (digits : List Char) (neg : Bool),
      (if digits.isEmpty then none
        else match parseDigits digits 0 with
          | none => none
          | some n =>
            let v : Int := if neg then -(n : Int) else (n : Int)
            if -(2 : Int) ^ 63 ≤ v ∧ v ≤ (2 : Int) ^ 63 - 1 then some v else none) = some v →
      digits ≠ [] ∧ ∀ ch ∈ digits, 48 ≤ ch.toNat ∧ ch.toNat ≤ 57 := by
    intro digits neg hd
    cases digits with
    | nil => simp at hd
    | cons d ds =>
      simp only [List.isEmpty_cons, Bool.false_eq_true, if_false] at hd
      refine ⟨by simp, ?_⟩
      cases hp : parseDigits (d :: ds) 0 with
      | none => rw [hp] at hd; simp at hd
      | some n => exact parseDigits_digits _ _ _ hp
  split at h
  next neg digits heq =>
    split at heq
    next r hs =>
      simp only [Prod.mk.injEq] at heq
      obtain ⟨h1, h2⟩ := heq
      subst h1; subst h2
      obtain ⟨hne, hall⟩ := key _ _ h
      rw [hs]
      refine ⟨by simp, fun ch hch => ?_⟩
      rcases List.mem_cons.mp hch with rfl | hmem
      · exact Or.inl rfl
      · exact Or.inr (Or.inr (hall ch hmem))
    next r hs =>
      simp only [Prod.mk.injEq] at heq
      obtain ⟨h1, h2⟩ := heq
      subst h1; subst h2
      obtain ⟨hne, hall⟩ := key _ _ h
      rw [hs]
      refine ⟨by simp, fun ch hch => ?_⟩
      rcases List.mem_cons.mp hch with rfl | hmem
      · exact Or.inr (Or.inl rfl)
      · exact Or.inr (Or.inr (hall ch hmem))
    next r _ _ =>
      simp only [Prod.mk.injEq] at heq
      obtain ⟨h1, h2⟩ := heq
      subst h1; subst h2
      obtain ⟨hne, hall⟩ := key _ _ h
      exact ⟨hne, fun ch hch => Or.inr (Or.inr (hall ch hch))⟩

/-- A literal character is none of the separators of `getComments`, no slash
and no white space. -/
theorem isLiteralChar_clean (ch : Char) (h : isLiteralChar ch) :
    ch ≠ '@' ∧ ch ≠ '=' ∧ ch ≠ '\n' ∧ ch ≠ '/' ∧ isSpace ch = false := by
  rcases h with rfl | rfl | ⟨h1, h2⟩
  · decide
  · decide
  · refine ⟨?_, ?_, ?_, ?_, ?_⟩
    · rintro rfl; revert h2; decide
    · rintro rfl; revert h2; decide
    · rintro rfl; revert h1; decide
    · rintro rfl; revert h1; decide
    · unfold isSpace
      simp only [Bool.or_eq_false_iff, Bool.and_eq_false_iff, decide_eq_false_iff_not,
        beq_eq_false_iff_ne, ne_eq]
      omega

/-- The split of a character list is never empty. -/
theorem splitChars_ne_nil (sep : Char) : ∀ l : List Char, splitChars sep l ≠ [] := by
  intro l
  induction l with
  | nil => simp [splitChars]
  | cons c cs ih =>
    unfold splitChars
    cases h : splitChars sep cs with
    | nil => exact absurd h ih
    | cons a b => by_cases hc : c = sep <;> simp [hc]

/-- A character list without the separator splits into itself. -/
theorem splitChars_no_sep (sep : Char) : ∀ l : List Char, sep ∉ l → splitChars sep l = [l] := by
  intro l
  induction l with
  | nil => intro _; rfl
  | cons c cs ih =>
    intro h
    have hc : c ≠ sep := fun e => h (e ▸ List.mem_cons_self _ _)
    have hcs : sep ∉ cs := fun e => h (List.mem_cons_of_mem _ e)
    unfold splitChars
    rw [ih hcs]
    simp [hc]

/-- The equation of `splitChars` on a non-empty list. -/
theorem splitChars_cons (sep c : Char) (cs : List Char) :
    splitChars sep (c :: cs) =
      match splitChars sep cs with
      | [] => [[]]
      | h :: t => if c = sep then [] :: h :: t else (c :: h) :: t := rfl

/-- Splitting at the first separator. -/
theorem splitChars_append_sep (sep : Char) (r : List Char) :
    ∀ l : List Char, sep ∉ l → splitChars sep (l ++ sep :: r) = l :: splitChars sep r := by
  intro l
  induction l with
  | nil =>
    intro _
    simp only [List.nil_append]
    rw [splitChars_cons]
    cases h : splitChars sep r with
    | nil => exact absurd h (splitChars_ne_nil sep r)
    | cons a b => simp
  | cons c cs ih =>
    intro h
    have hc : c ≠ sep := fun e => h (e ▸ List.mem_cons_self _ _)
    have hcs : sep ∉ cs := fun e => h (List.mem_cons_of_mem _ e)
    rw [List.cons_append, splitChars_cons, ih hcs]
    simp [hc]

/-- A character list that lacks the first character of `sub` does not contain
`sub`. -/
theorem containsChars_false (a : Char) (sub : List Char) :
    ∀ l : List Char, a ∉ l → containsChars (a :: sub) l = false := by
  intro l
  induction l with
  | nil => intro _; rfl
  | cons c cs ih =>
    intro h
    have hc : a ≠ c := fun e => h (e ▸ List.mem_cons_self _ _)
    have hcs : a ∉ cs := fun e => h (List.mem_cons_of_mem _ e)
    unfold containsChars
    rw [ih hcs]
    simp [List.isPrefixOf, hc]

/-- Trimming on the left stops at a character that is no white space. -/
theorem trimLeft_cons (c : Char) (cs : List Char) (h : isSpace c = false) :
    trimLeft (c :: cs) = c :: cs := by
  unfold trimLeft
  simp [h]

/-- Trimming leaves a character list that neither starts nor ends with white
space, and drops one or no space behind it. -/
theorem trim_clean (c d : Char) (mid : List Char) (hc : isSpace c = false)
    (hd : isSpace d = false) :
    (trimLeft (trimLeft (c :: (mid ++ [d]))).reverse).reverse = c :: (mid ++ [d]) ∧
    (trimLeft (trimLeft (c :: (mid ++ [d] ++ [' ']))).reverse).reverse = c :: (mid ++ [d]) := by
  constructor
  · rw [trimLeft_cons c _ hc]
    have : (c :: (mid ++ [d])).reverse = d :: (mid.reverse ++ [c]) := by simp
    rw [this, trimLeft_cons d _ hd]
    simp
  · rw [trimLeft_cons c _ hc]
    have : (c :: (mid ++ [d] ++ [' '])).reverse = ' ' :: d :: (mid.reverse ++ [c]) := by simp
    rw [this]
    have h2 : trimLeft (' ' :: d :: (mid.reverse ++ [c])) = trimLeft (d :: (mid.reverse ++ [c])) := by
      conv => lhs; unfold trimLeft
      simp [show isSpace ' ' = true by decide]
    rw [h2, trimLeft_cons d _ hd]
    simp

/-- One `key=value` fragment of a comment line: when the key has no slash, no
equals sign and starts with no white space, and the value is a literal, maybe
followed by one space, `getComments` maps the lower-cased key to the value. -/
theorem getCommentsTag_key_value (ret : List (String × String)) (k0 : Char)
    (K V : List Char) (hk0 : isSpace k0 = false) (hKs : '/' ∉ k0 :: K)
    (hKe : '=' ∉ k0 :: K) (hV : V ≠ []) (hVl : ∀ ch ∈ V, isLiteralChar ch) :
    getCommentsTag ret (String.mk (k0 :: K ++ '=' :: V)) =
      mapSet ret (ToLower (String.mk (k0 :: K))) (String.mk V) ∧
    getCommentsTag ret (String.mk (k0 :: K ++ '=' :: V ++ [' '])) =
      mapSet ret (ToLower (String.mk (k0 :: K))) (String.mk V) := by
  obtain ⟨V0, vl, rfl⟩ : ∃ V0 vl, V = V0 ++ [vl] := by
    rcases List.eq_nil_or_concat V with h | ⟨V0, vl, h⟩
    · exact absurd h hV
    · exact ⟨V0, vl, by simpa using h⟩
  have hvl : isSpace vl = false := (isLiteralChar_clean vl (hVl vl (by simp))).2.2.2.2
  have hVs : '/' ∉ V0 ++ [vl] := fun h => (isLiteralChar_clean _ (hVl _ h)).2.2.2.1 rfl
  have hVe : '=' ∉ V0 ++ [vl] := fun h => (isLiteralChar_clean _ (hVl _ h)).2.1 rfl
  have htrim := trim_clean k0 vl (K ++ '=' :: V0) hk0 hvl
  have e1 : k0 :: (K ++ '=' :: V0 ++ [vl]) = k0 :: K ++ '=' :: (V0 ++ [vl]) := by simp
  have e2 : k0 :: (K ++ '=' :: V0 ++ [vl] ++ [' ']) = k0 :: K ++ '=' :: (V0 ++ [vl]) ++ [' '] := by
    simp
  rw [e1, e2] at htrim
  have hsplit : splitChars '=' (k0 :: K ++ '=' :: (V0 ++ [vl])) = [k0 :: K, V0 ++ [vl]] := by
    rw [splitChars_append_sep '=' _ _ hKe, splitChars_no_sep '=' _ hVe]
  have hc1 : containsChars ['/', '/'] (k0 :: K ++ '=' :: (V0 ++ [vl])) = false := by
    apply containsChars_false
    intro h
    rcases List.mem_append.mp h with h | h
    · exact hKs h
    · rcases List.mem_cons.mp h with h | h
      · revert h; decide
      · exact hVs h
  have hc2 : containsChars ['/', '/'] (k0 :: K ++ '=' :: (V0 ++ [vl]) ++ [' ']) = false := by
    apply containsChars_false
    intro h
    rcases List.mem_append.mp h with h | h
    · rcases List.mem_append.mp h with h | h
      · exact hKs h
      · rcases List.mem_cons.mp h with h | h
        · revert h; decide
        · exact hVs h
    · simp at h
  constructor
  · unfold getCommentsTag Contains TrimSpace Split
    simp only [hc1, htrim.1, hsplit]
    simp
  · unfold getCommentsTag Contains TrimSpace Split
    simp only [hc2, htrim.2, hsplit]
    simp

/-- The directive mapping of the comment line `@required @min=a @max=b`. -/
theorem getComments_required_min_max (sa sb : String) (a b : Int)
    (ha : Atoi sa = some a) (hb : Atoi sb = some b) :
    getComments (requiredMinMaxLocation sa sb) =
      [("", "true"), ("required", "true"), ("min", sa), ("max", sb)] := by
  obtain ⟨hA, hAl⟩ := Atoi_chars sa a ha
  obtain ⟨hB, hBl⟩ := Atoi_chars sb b hb
  obtain ⟨B0, bl, hBeq⟩ : ∃ B0 bl, sb.data = B0 ++ [bl] := by
    rcases List.eq_nil_or_concat sb.data with h | ⟨B0, bl, h⟩
    · exact absurd h hB
    · exact ⟨B0, bl, by simpa using h⟩
  have hbl : isSpace bl = false :=
    (isLiteralChar_clean bl (hBl bl (by rw [hBeq]; simp))).2.2.2.2
  have hAat : '@' ∉ sa.data := fun h => (isLiteralChar_clean _ (hAl _ h)).1 rfl
  have hBat : '@' ∉ sb.data := fun h => (isLiteralChar_clean _ (hBl _ h)).1 rfl
  have hAnl : '\n' ∉ sa.data := fun h => (isLiteralChar_clean _ (hAl _ h)).2.2.1 rfl
  have hBnl : '\n' ∉ sb.data := fun h => (isLiteralChar_clean _ (hBl _ h)).2.2.1 rfl
  have l1 : "@required @min=".data = '@' :: ("required ".data ++ '@' :: "min=".data) := by decide
  have l2 : " @max=".data = ' ' :: '@' :: "max=".data := by decide
  have hdata : ("@required @min=" ++ sa ++ " @max=" ++ sb).data =
      [] ++ '@' :: ("required ".data ++ '@' :: (("min=".data ++ sa.data ++ [' ']) ++
        '@' :: ("max=".data ++ sb.data))) := by
    simp only [String.data_append, l1, l2]
    simp
  have hmk : ("@required @min=" ++ sa ++ " @max=" ++ sb) =
      String.mk ([] ++ '@' :: ("required ".data ++ '@' :: (("min=".data ++ sa.data ++ [' ']) ++
        '@' :: ("max=".data ++ sb.data)))) := by
    rw [← hdata]
  -- the line has no line break, and trimming leaves it as it is
  have hnl : '\n' ∉ ("@required @min=" ++ sa ++ " @max=" ++ sb).data := by
    rw [hdata]
    simp only [List.nil_append, List.mem_cons, List.mem_append, not_or]
    refine ⟨by decide, ⟨by decide, by decide, ⟨⟨by decide, hAnl⟩, by simp⟩, by decide, by decide, hBnl⟩⟩
  have hsplitnl : Split ("@required @min=" ++ sa ++ " @max=" ++ sb) '\n' =
      ["@required @min=" ++ sa ++ " @max=" ++ sb] := by
    unfold Split
    rw [splitChars_no_sep _ _ hnl]
    rfl
  have htrim : TrimSpace ("@required @min=" ++ sa ++ " @max=" ++ sb) =
      "@required @min=" ++ sa ++ " @max=" ++ sb := by
    have hshape : ("@required @min=" ++ sa ++ " @max=" ++ sb).data =
        '@' :: (("required ".data ++ '@' :: (("min=".data ++ sa.data ++ [' ']) ++
          '@' :: ("max=".data ++ B0))) ++ [bl]) := by
      rw [hdata, hBeq]; simp
    unfold TrimSpace
    rw [hshape, (trim_clean '@' bl _ (by decide) hbl).1, ← hshape]
  have hne : ("@required @min=" ++ sa ++ " @max=" ++ sb) ≠ "" := by
    intro h
    have := congrArg String.data h
    rw [hdata] at this
    simp at this
  have hlines : nonBlankTrimmed ["@required @min=" ++ sa ++ " @max=" ++ sb] =
      ["@required @min=" ++ sa ++ " @max=" ++ sb] := by
    unfold nonBlankTrimmed
    simp [htrim, hne]
  -- the fragments between the `@` signs
  have hat1 : '@' ∉ "required ".data := by decide
  have hat2 : '@' ∉ "min=".data ++ sa.data ++ [' '] := by
    simp only [List.mem_append, not_or]
    exact ⟨⟨by decide, hAat⟩, by decide⟩
  have hat3 : '@' ∉ "max=".data ++ sb.data := by
    simp only [List.mem_append, not_or]
    exact ⟨by decide, hBat⟩
  have hsplitat : Split ("@required @min=" ++ sa ++ " @max=" ++ sb) '@' =
      ["", "required ", String.mk ("min=".data ++ sa.data ++ [' ']),
       String.mk ("max=".data ++ sb.data)] := by
    unfold Split
    rw [hdata, splitChars_append_sep '@' _ [] (by simp), splitChars_append_sep '@' _ _ hat1,
      splitChars_append_sep '@' _ _ hat2, splitChars_no_sep '@' _ hat3]
    rfl
  have hmin := (getCommentsTag_key_value [("", "true"), ("required", "true")] 'm' "in".data sa.data
    (by decide) (by decide) (by decide) hA hAl).2
  have hmax := (getCommentsTag_key_value [("", "true"), ("required", "true"), ("min", sa)]
    'm' "ax".data sb.data (by decide) (by decide) (by decide) hB hBl).1
  have h01 : getCommentsTag (getCommentsTag [] "") "required " =
      [("", "true"), ("required", "true")] := by decide
  unfold getComments
  have g1 : (requiredMinMaxLocation sa sb).GetLeadingComments =
      "@required @min=" ++ sa ++ " @max=" ++ sb := rfl
  have g2 : (requiredMinMaxLocation sa sb).GetTrailingComments = "" := rfl
  have g3 : (requiredMinMaxLocation sa sb).GetLeadingDetachedComments = [] := rfl
  have hb0 : nonBlankTrimmed ([] : List String) = [] := rfl
  have hb1 : nonBlankTrimmed [""] = [] := by decide
  simp only [g1, g2, g3, hsplitnl, hlines, hb0, hb1, List.nil_append, List.append_nil,
    List.foldl_cons, List.foldl_nil, hsplitat, h01]
  have hmin2 : getCommentsTag [("", "true"), ("required", "true")]
      (String.mk ("min=".data ++ sa.data ++ [' '])) =
      [("", "true"), ("required", "true"), ("min", sa)] := hmin
  have hmax2 : getCommentsTag [("", "true"), ("required", "true"), ("min", sa)]
      (String.mk ("max=".data ++ sb.data)) =
      [("", "true"), ("required", "true"), ("min", sa), ("max", sb)] := hmax
  rw [hmin2, hmax2]

/-- A property that one element of a list establishes in a left fold, and that
every element keeps, holds at the end of the fold; `I` is an invariant of the
fold that the two steps may assume. -/
theorem foldl_reach {α β : Type} (f : β → α → β) (S : List α) (I P : β → Prop) (x : α)
    (hI : ∀ b, ∀ y ∈ S, I b → I (f b y))
    (hset : ∀ b, I b → P (f b x))
    (hkeep : ∀ b, ∀ y ∈ S, I b → P b → P (f b y)) :
    ∀ l : List α, (∀ y ∈ l, y ∈ S) → ∀ b, I b → (P b ∨ x ∈ l) →
      P (l.foldl f b) ∧ I (l.foldl f b) := by
  intro l
  induction l with
  | nil =>
    intro _ b hb h
    rcases h with h | h
    · exact ⟨h, hb⟩
    · simp at h
  | cons y ys ih =>
    intro hS b hb h
    rw [List.foldl_cons]
    have hyS : y ∈ S := hS y (List.mem_cons_self _ _)
    apply ih (fun z hz => hS z (List.mem_cons_of_mem _ hz)) (f b y) (hI b y hyS hb)
    rcases h with h | h
    · exact Or.inl (hkeep b y hyS hb h)
    · rcases List.mem_cons.mp h with h | h
      · subst h
        exact Or.inl (hset b hb)
      · exact Or.inr h

/-- The four directives of the line `@required @min=a @max=b`, applied one at
a time. -/
theorem applyDirective_required_min_max (sa sb : String) (a b : Int)
    (ha : Atoi sa = some a) (hb : Atoi sb = some b) (t : JSONSchemaType) :
    applyDirective t ("", "true") = t ∧
    applyDirective t ("required", "true") = { t with Required := true } ∧
    applyDirective t ("min", sa) =
      (if t.Type_ = TYPE_INTEGER then { t with Minimum := a } else { t with MinLength := a }) ∧
    applyDirective t ("max", sb) =
      (if t.Type_ = TYPE_INTEGER then { t with Maximum := b } else { t with MaxLength := b }) := by
  have k0 : ToLower "" = "" := by decide
  have k1 : ToLower "required" = "required" := by decide
  have k2 : ToLower "min" = "min" := by decide
  have k3 : ToLower "max" = "max" := by decide
  refine ⟨?_, ?_, ?_, ?_⟩
  · simp [applyDirective, k0]
  · simp [applyDirective, k1]
  · simp [applyDirective, k2, ha]
  · simp [applyDirective, k3, hb]

/-- Claim C6: for decimal integer literals `sa` and `sb` (strings that
`strconv.Atoi` reads as the integers `a` and `b` of type `int`) and every
node, in whatever order the directive mapping is visited: extracting the
directives of the only comment line `@required @min=a @max=b` and applying
them sets required; on a node of kind integer it sets minimum to `a` and
maximum to `b` and leaves minLength and maxLength as they were; on a node of
any other kind it sets minLength to `a` and maxLength to `b` and leaves
minimum and maximum as they were. -/
theorem fillJSONSchemaType_required_min_max (c : Converter) (sa sb : String) (a b : Int)
    (name : String) (t : JSONSchemaType) (ha : Atoi sa = some a) (hb : Atoi sb = some b) :
    (fillJSONSchemaType c (requiredMinMaxLocation sa sb) name t).Required = true ∧
    (t.Type_ = TYPE_INTEGER →
      (fillJSONSchemaType c (requiredMinMaxLocation sa sb) name t).Minimum = a ∧
      (fillJSONSchemaType c (requiredMinMaxLocation sa sb) name t).Maximum = b ∧
      (fillJSONSchemaType c (requiredMinMaxLocation sa sb) name t).MinLength = t.MinLength ∧
      (fillJSONSchemaType c (requiredMinMaxLocation sa sb) name t).MaxLength = t.MaxLength) ∧
    (t.Type_ ≠ TYPE_INTEGER →
      (fillJSONSchemaType c (requiredMinMaxLocation sa sb) name t).MinLength = a ∧
      (fillJSONSchemaType c (requiredMinMaxLocation sa sb) name t).MaxLength = b ∧
      (fillJSONSchemaType c (requiredMinMaxLocation sa sb) name t).Minimum = t.Minimum ∧
      (fillJSONSchemaType c (requiredMinMaxLocation sa sb) name t).Maximum = t.Maximum) := by
  have hperm := c.rangeOrder.perm (getComments (requiredMinMaxLocation sa sb))
  rw [getComments_required_min_max sa sb a b ha hb] at hperm
  unfold fillJSONSchemaType fillJSONSchemaTypeVisiting
  rw [getComments_required_min_max sa sb a b ha hb]
  dsimp only
  generalize c.rangeOrder.visit [("", "true"), ("required", "true"), ("min", sa), ("max", sb)]
    = visited at hperm ⊢
  have hsub : ∀ y ∈ visited,
      y ∈ [(("", "true") : String × String), ("required", "true"), ("min", sa), ("max", sb)] :=
    fun y hy => hperm.subset hy
  have hin : ∀ y ∈ [(("", "true") : String × String), ("required", "true"), ("min", sa),
      ("max", sb)], y ∈ visited := fun y hy => hperm.symm.subset hy
  have heq := applyDirective_required_min_max sa sb a b ha hb
  have hcases : ∀ y ∈ [(("", "true") : String × String), ("required", "true"), ("min", sa),
      ("max", sb)], ∀ u : JSONSchemaType,
      applyDirective u y = u ∨ applyDirective u y = { u with Required := true } ∨
      applyDirective u y =
        (if u.Type_ = TYPE_INTEGER then { u with Minimum := a } else { u with MinLength := a }) ∨
      applyDirective u y =
        (if u.Type_ = TYPE_INTEGER then { u with Maximum := b } else { u with MaxLength := b }) := by
    intro y hy u
    simp only [List.mem_cons, List.mem_singleton, List.not_mem_nil, or_false] at hy
    rcases hy with rfl | rfl | rfl | rfl
    · exact Or.inl (heq u).1
    · exact Or.inr (Or.inl (heq u).2.1)
    · exact Or.inr (Or.inr (Or.inl (heq u).2.2.1))
    · exact Or.inr (Or.inr (Or.inr (heq u).2.2.2))
  -- the default title changes no other attribute
  have hfin : ∀ u : JSONSchemaType,
      (if u.Title.length = 0 then { u with Title := ToSplitCase name } else u).Required = u.Required ∧
      (if u.Title.length = 0 then { u with Title := ToSplitCase name } else u).Minimum = u.Minimum ∧
      (if u.Title.length = 0 then { u with Title := ToSplitCase name } else u).Maximum = u.Maximum ∧
      (if u.Title.length = 0 then { u with Title := ToSplitCase name } else u).MinLength = u.MinLength ∧
      (if u.Title.length = 0 then { u with Title := ToSplitCase name } else u).MaxLength = u.MaxLength := by
    intro u
    by_cases h : u.Title.length = 0
    · simp only [if_pos h, and_self]
    · simp only [if_neg h, and_self]
  obtain ⟨f1, f2, f3, f4, f5⟩ := hfin (visited.foldl applyDirective t)
  show (if (visited.foldl applyDirective t).Title.length = 0
        then { visited.foldl applyDirective t with Title := ToSplitCase name }
        else visited.foldl applyDirective t).Required = true ∧
    (t.Type_ = TYPE_INTEGER →
      (if (visited.foldl applyDirective t).Title.length = 0
        then { visited.foldl applyDirective t with Title := ToSplitCase name }
        else visited.foldl applyDirective t).Minimum = a ∧
      (if (visited.foldl applyDirective t).Title.length = 0
        then { visited.foldl applyDirective t with Title := ToSplitCase name }
        else visited.foldl applyDirective t).Maximum = b ∧
      (if (visited.foldl applyDirective t).Title.length = 0
        then { visited.foldl applyDirective t with Title := ToSplitCase name }
        else visited.foldl applyDirective t).MinLength = t.MinLength ∧
      (if (visited.foldl applyDirective t).Title.length = 0
        then { visited.foldl applyDirective t with Title := ToSplitCase name }
        else visited.foldl applyDirective t).MaxLength = t.MaxLength) ∧
    (t.Type_ ≠ TYPE_INTEGER →
      (if (visited.foldl applyDirective t).Title.length = 0
        then { visited.foldl applyDirective t with Title := ToSplitCase name }
        else visited.foldl applyDirective t).MinLength = a ∧
      (if (visited.foldl applyDirective t).Title.length = 0
        then { visited.foldl applyDirective t with Title := ToSplitCase name }
        else visited.foldl applyDirective t).MaxLength = b ∧
      (if (visited.foldl applyDirective t).Title.length = 0
        then { visited.foldl applyDirective t with Title := ToSplitCase name }
        else visited.foldl applyDirective t).Minimum = t.Minimum ∧
      (if (visited.foldl applyDirective t).Title.length = 0
        then { visited.foldl applyDirective t with Title := ToSplitCase name }
        else visited.foldl applyDirective t).Maximum = t.Maximum)
  rw [f1, f2, f3, f4, f5]
  refine ⟨?_, fun hint => ?_, fun hnot => ?_⟩
  · -- required
    refine (foldl_reach applyDirective _ (fun _ => True) (fun u => u.Required = true)
      ("required", "true") (fun _ _ _ _ => trivial) (fun u _ => ?_) (fun u y hy _ hu => ?_)
      visited hsub t trivial (Or.inr (hin _ (by simp)))).1
    · rw [(heq u).2.1]
    · rcases hcases y hy u with h | h | h | h <;> rw [h]
      · exact hu
      · split <;> exact hu
      · split <;> exact hu
  · -- a node of kind integer
    have hmin := (foldl_reach applyDirective _
      (fun u => u.Type_ = TYPE_INTEGER ∧ u.MinLength = t.MinLength ∧ u.MaxLength = t.MaxLength)
      (fun u => u.Minimum = a) ("min", sa)
      (fun u y hy hu => by
        rcases hcases y hy u with h | h | h | h <;> rw [h]
        · exact hu
        · exact hu
        · rw [if_pos hu.1]; exact hu
        · rw [if_pos hu.1]; exact hu)
      (fun u hu => by rw [(heq u).2.2.1, if_pos hu.1])
      (fun u y hy hu hp => by
        rcases hcases y hy u with h | h | h | h <;> rw [h]
        · exact hp
        · exact hp
        · rw [if_pos hu.1]
        · rw [if_pos hu.1]; exact hp)
      visited hsub t ⟨hint, rfl, rfl⟩ (Or.inr (hin _ (by simp))))
    have hmax := (foldl_reach applyDirective _
      (fun u => u.Type_ = TYPE_INTEGER)
      (fun u => u.Maximum = b) ("max", sb)
      (fun u y hy hu => by
        rcases hcases y hy u with h | h | h | h <;> rw [h]
        · exact hu
        · exact hu
        · rw [if_pos hu]; exact hu
        · rw [if_pos hu]; exact hu)
      (fun u hu => by rw [(heq u).2.2.2, if_pos hu])
      (fun u y hy hu hp => by
        rcases hcases y hy u with h | h | h | h <;> rw [h]
        · exact hp
        · exact hp
        · rw [if_pos hu]; exact hp
        · rw [if_pos hu])
      visited hsub t hint (Or.inr (hin _ (by simp))))
    exact ⟨hmin.1, hmax.1, hmin.2.2.1, hmin.2.2.2⟩
  · -- a node of any other kind
    have hmin := (foldl_reach applyDirective _
      (fun u => u.Type_ ≠ TYPE_INTEGER ∧ u.Minimum = t.Minimum ∧ u.Maximum = t.Maximum)
      (fun u => u.MinLength = a) ("min", sa)
      (fun u y hy hu => by
        rcases hcases y hy u with h | h | h | h <;> rw [h]
        · exact hu
        · exact hu
        · rw [if_neg hu.1]; exact hu
        · rw [if_neg hu.1]; exact hu)
      (fun u hu => by rw [(heq u).2.2.1, if_neg hu.1])
      (fun u y hy hu hp => by
        rcases hcases y hy u with h | h | h | h <;> rw [h]
        · exact hp
        · exact hp
        · rw [if_neg hu.1]
        · rw [if_neg hu.1]; exact hp)
      visited hsub t ⟨hnot, rfl, rfl⟩ (Or.inr (hin _ (by simp))))
    have hmax := (foldl_reach applyDirective _
      (fun u => u.Type_ ≠ TYPE_INTEGER)
      (fun u => u.MaxLength = b) ("max", sb)
      (fun u y hy hu => by
        rcases hcases y hy u with h | h | h | h <;> rw [h]
        · exact hu
        · exact hu
        · rw [if_neg hu]; exact hu
        · rw [if_neg hu]; exact hu)
      (fun u hu => by rw [(heq u).2.2.2, if_neg hu])
      (fun u y hy hu hp => by
        rcases hcases y hy u with h | h | h | h <;> rw [h]
        · exact hp
        · exact hp
        · rw [if_neg hu]; exact hp
        · rw [if_neg hu])
      visited hsub t hnot (Or.inr (hin _ (by simp))))
    exact ⟨hmin.1, hmax.1, hmin.2.2.1, hmin.2.2.2⟩

/-- Witness for C6: the line `@required @min=3 @max=10` on a string node and
on an integer node. -/
theorem fillJSONSchemaType_required_min_max_witness :
    Atoi "3" = some 3 ∧ Atoi "10" = some 10 ∧
    (fillJSONSchemaType plainConverter (requiredMinMaxLocation "3" "10") "f"
      { JSONSchemaType.zero with Type_ := "string" }).Required = true ∧
    ((fillJSONSchemaType plainConverter (requiredMinMaxLocation "3" "10") "f"
        { JSONSchemaType.zero with Type_ := "string" }).MinLength = 3 ∧
      (fillJSONSchemaType plainConverter (requiredMinMaxLocation "3" "10") "f"
        { JSONSchemaType.zero with Type_ := "string" }).MaxLength = 10 ∧
      (fillJSONSchemaType plainConverter (requiredMinMaxLocation "3" "10") "f"
        { JSONSchemaType.zero with Type_ := "string" }).Minimum = 0 ∧
      (fillJSONSchemaType plainConverter (requiredMinMaxLocation "3" "10") "f"
        { JSONSchemaType.zero with Type_ := "string" }).Maximum = 0) ∧
    ((fillJSONSchemaType reversedConverter (requiredMinMaxLocation "3" "10") "f"
        { JSONSchemaType.zero with Type_ := "integer" }).Minimum = 3 ∧
      (fillJSONSchemaType reversedConverter (requiredMinMaxLocation "3" "10") "f"
        { JSONSchemaType.zero with Type_ := "integer" }).Maximum = 10 ∧
      (fillJSONSchemaType reversedConverter (requiredMinMaxLocation "3" "10") "f"
        { JSONSchemaType.zero with Type_ := "integer" }).MinLength = 0 ∧
      (fillJSONSchemaType reversedConverter (requiredMinMaxLocation "3" "10") "f"
        { JSONSchemaType.zero with Type_ := "integer" }).MaxLength = 0) :=
  ⟨by decide, by decide,
   (fillJSONSchemaType_required_min_max plainConverter "3" "10" 3 10 "f"
      { JSONSchemaType.zero with Type_ := "string" } (by decide) (by decide)).1,
   (fillJSONSchemaType_required_min_max plainConverter "3" "10" 3 10 "f"
      { JSONSchemaType.zero with Type_ := "string" } (by decide) (by decide)).2.2 (by decide),
   (fillJSONSchemaType_required_min_max reversedConverter "3" "10" 3 10 "f"
      { JSONSchemaType.zero with Type_ := "integer" } (by decide) (by decide)).2.1 rfl⟩

/-- Claim C7, the failing input: for the leading comment `@title=A @name=B`
the directive mapping holds both `title` and `name`, and `fillJSONSchemaType`
gives the node the title `B` when the `range` loop visits the entries in one
order and the title `A` when it visits them in the opposite order, so two runs
on the same input can produce different nodes. -/
theorem fillJSONSchemaType_depends_on_range_order :
    getComments aliasLocation = [("", "true"), ("title", "A"), ("name", "B")] ∧
    (fillJSONSchemaType plainConverter aliasLocation "f" JSONSchemaType.zero).Title = "B" ∧
    (fillJSONSchemaType reversedConverter aliasLocation "f" JSONSchemaType.zero).Title = "A" ∧
    fillJSONSchemaType plainConverter aliasLocation "f" JSONSchemaType.zero ≠
      fillJSONSchemaType reversedConverter aliasLocation "f" JSONSchemaType.zero := by
  refine ⟨by decide, by decide, by decide, fun h => ?_⟩
  have h2 := congrArg JSONSchemaType.Title h
  revert h2
  decide

/-- Claim C8: with `AllowNullValues` off, a repeated field of a scalar kind
converts to a node of kind array whose item node is present, has exactly the
scalar kind of the table (number, integer, string or boolean, so not array)
and has no item node of its own. -/
theorem convertField_repeated_scalar_array (c : Converter) (fuel : Nat)
    (curPkg : ProtoPackagePtr) (desc : FieldDescriptorProto) (msg : DescriptorProto)
    (outerEnums : List EnumDescriptorProto)
    (hnull : c.AllowNullValues = false)
    (hl : desc.GetLabel = FieldDescriptorProto_LABEL_REPEATED) :
    ((desc.GetType = FieldDescriptorProto_TYPE_DOUBLE ∨
        desc.GetType = FieldDescriptorProto_TYPE_FLOAT) →
      convertField c fuel curPkg desc msg outerEnums
        = .ok (some { JSONSchemaType.zero with
                  Type_ := TYPE_ARRAY,
                  Items := some { JSONSchemaType.zero with Type_ := TYPE_NUMBER } }, none)) ∧
    ((desc.GetType = FieldDescriptorProto_TYPE_INT32 ∨
        desc.GetType = FieldDescriptorProto_TYPE_UINT32 ∨
        desc.GetType = FieldDescriptorProto_TYPE_FIXED32 ∨
        desc.GetType = FieldDescriptorProto_TYPE_SFIXED32 ∨
        desc.GetType = FieldDescriptorProto_TYPE_SINT32 ∨
        desc.GetType = FieldDescriptorProto_TYPE_INT64 ∨
        desc.GetType = FieldDescriptorProto_TYPE_UINT64 ∨
        desc.GetType = FieldDescriptorProto_TYPE_FIXED64 ∨
        desc.GetType = FieldDescriptorProto_TYPE_SFIXED64 ∨
        desc.GetType = FieldDescriptorProto_TYPE_SINT64) →
      convertField c fuel curPkg desc msg outerEnums
        = .ok (some { JSONSchemaType.zero with
                  Type_ := TYPE_ARRAY,
                  Items := some { JSONSchemaType.zero with Type_ := TYPE_INTEGER } }, none)) ∧
    ((desc.GetType = FieldDescriptorProto_TYPE_STRING ∨
        desc.GetType = FieldDescriptorProto_TYPE_BYTES) →
      convertField c fuel curPkg desc msg outerEnums
        = .ok (some { JSONSchemaType.zero with
                  Type_ := TYPE_ARRAY,
                  Items := some { JSONSchemaType.zero with Type_ := TYPE_STRING } }, none)) ∧
    (desc.GetType = FieldDescriptorProto_TYPE_BOOL →
      convertField c fuel curPkg desc msg outerEnums
        = .ok (some { JSONSchemaType.zero with
                  Type_ := TYPE_ARRAY,
                  Items := some { JSONSchemaType.zero with Type_ := TYPE_BOOLEAN } }, none)) := by
  obtain ⟨h1, h2, h3, h4, _⟩ := convertFieldSwitch_scalar c desc msg outerEnums JSONSchemaType.zero
  refine ⟨fun h => ?_, fun h => ?_, fun h => ?_, fun h => ?_⟩
  · rw [convertField, convertFieldBody_of_switch c _ curPkg desc msg outerEnums _ (h1 h) (by decide),
      if_pos hl]
    simp [convertFieldRepeated, hnull, JSONSchemaType.zero]
  · rw [convertField, convertFieldBody_of_switch c _ curPkg desc msg outerEnums _ (h2 h) (by decide),
      if_pos hl]
    simp [convertFieldRepeated, hnull, JSONSchemaType.zero]
  · rw [convertField, convertFieldBody_of_switch c _ curPkg desc msg outerEnums _ (h3 h) (by decide),
      if_pos hl]
    simp [convertFieldRepeated, hnull, JSONSchemaType.zero]
  · rw [convertField, convertFieldBody_of_switch c _ curPkg desc msg outerEnums _ (h4 h) (by decide),
      if_pos hl]
    simp [convertFieldRepeated, hnull, JSONSchemaType.zero]

/-- Witness for C8: a repeated string field and a repeated float field. -/
theorem convertField_repeated_scalar_array_witness :
    convertField plainConverter 0 0
        (mkField "names" 1 FieldDescriptorProto_LABEL_REPEATED FieldDescriptorProto_TYPE_STRING none)
        holderMessage []
      = .ok (some { JSONSchemaType.zero with
                    Type_ := "array",
                    Items := some { JSONSchemaType.zero with Type_ := "string" } }, none) ∧
    convertField plainConverter 0 0
        (mkField "ws" 2 FieldDescriptorProto_LABEL_REPEATED FieldDescriptorProto_TYPE_FLOAT none)
        holderMessage []
      = .ok (some { JSONSchemaType.zero with
                    Type_ := "array",
                    Items := some { JSONSchemaType.zero with Type_ := "number" } }, none) :=
  ⟨(convertField_repeated_scalar_array plainConverter 0 0
      (mkField "names" 1 FieldDescriptorProto_LABEL_REPEATED FieldDescriptorProto_TYPE_STRING none)
      holderMessage [] rfl rfl).2.2.1 (Or.inl rfl),
   (convertField_repeated_scalar_array plainConverter 0 0
      (mkField "ws" 2 FieldDescriptorProto_LABEL_REPEATED FieldDescriptorProto_TYPE_FLOAT none)
      holderMessage [] rfl rfl).1 (Or.inr rfl)⟩

/-- Reading a key that was just assigned. -/
theorem mapGet_mapSet_same {V : Type} (k : String) (v : V) :
    ∀ m : List (String × V), mapGet (mapSet m k v) k = some v := by
  intro m
  induction m with
  | nil => simp [mapSet, mapGet]
  | cons p r ih =>
    obtain ⟨k1, v1⟩ := p
    by_cases h : k1 = k
    · simp [mapSet, mapGet, h]
    · simp [mapSet, mapGet, h, ih]

/-- Reading another key than the one that was just assigned. -/
theorem mapGet_mapSet_other {V : Type} (k k2 : String) (v : V) (hne : k2 ≠ k) :
    ∀ m : List (String × V), mapGet (mapSet m k v) k2 = mapGet m k2 := by
  intro m
  induction m with
  | nil =>
    have : ¬ k = k2 := fun e => hne e.symm
    simp [mapSet, mapGet, this]
  | cons p r ih =>
    obtain ⟨k1, v1⟩ := p
    by_cases h : k1 = k
    · subst h
      have : ¬ k1 = k2 := fun e => hne e.symm
      simp [mapSet, mapGet, this]
    · by_cases h2 : k1 = k2
      · subst h2
        simp [mapSet, mapGet, h]
      · simp [mapSet, mapGet, h, h2, ih]

/-- The keys after an assignment. -/
theorem mem_mapKeys_mapSet {V : Type} (k k2 : String) (v : V) :
    ∀ m : List (String × V), k2 ∈ mapKeys (mapSet m k v) ↔ k2 = k ∨ k2 ∈ mapKeys m := by
  intro m
  induction m with
  | nil => simp [mapSet, mapKeys]
  | cons p r ih =>
    obtain ⟨k1, v1⟩ := p
    by_cases h : k1 = k
    · subst h
      simp [mapSet, mapKeys]
    · have ih2 : k2 ∈ List.map Prod.fst (mapSet r k v) ↔ k2 = k ∨ k2 ∈ List.map Prod.fst r := ih
      simp only [mapSet, if_neg h, mapKeys, List.map_cons, List.mem_cons, ih2]
      tauto

/-- What storing a field node does to the object node: the kind is kept, the
keys written are the declared name and, when asked for and different, the JSON
name, both now hold the field node, and every other key is as before. -/
theorem convertMessageTypeStore_spec (c : Converter) (f : FieldDescriptorProto)
    (n acc : JSONSchemaType) :
    (convertMessageTypeStore c f n acc).Type_ = acc.Type_ ∧
    (∀ k, k ∈ mapKeys (convertMessageTypeStore c f n acc).Properties ↔
      (k = f.GetName ∨
        (c.UseProtoAndJSONFieldnames = true ∧ f.GetName ≠ f.GetJsonName ∧ k = f.GetJsonName)) ∨
      k ∈ mapKeys acc.Properties) ∧
    mapGet (convertMessageTypeStore c f n acc).Properties f.GetName =
      some (convertMessageTypeFieldNode c f n) ∧
    (c.UseProtoAndJSONFieldnames = true → f.GetName ≠ f.GetJsonName →
      mapGet (convertMessageTypeStore c f n acc).Properties f.GetJsonName =
        some (convertMessageTypeFieldNode c f n)) ∧
    (∀ k, k ≠ f.GetName → k ≠ f.GetJsonName →
      mapGet (convertMessageTypeStore c f n acc).Properties k = mapGet acc.Properties k) := by
  unfold convertMessageTypeStore
  by_cases h : c.UseProtoAndJSONFieldnames = true ∧ f.GetName ≠ f.GetJsonName
  · simp only [if_pos h]
    refine ⟨trivial, fun k => ?_, ?_, fun _ _ => ?_, fun k h1 h2 => ?_⟩
    · rw [mem_mapKeys_mapSet, mem_mapKeys_mapSet]
      constructor
      · rintro (h1 | h1 | h1)
        · exact Or.inl (Or.inr ⟨h.1, h.2, h1⟩)
        · exact Or.inl (Or.inl h1)
        · exact Or.inr h1
      · rintro ((h1 | ⟨_, _, h1⟩) | h1)
        · exact Or.inr (Or.inl h1)
        · exact Or.inl h1
        · exact Or.inr (Or.inr h1)
    · rw [mapGet_mapSet_other _ _ _ h.2, mapGet_mapSet_same]
    · rw [mapGet_mapSet_same]
    · rw [mapGet_mapSet_other _ _ _ h2, mapGet_mapSet_other _ _ _ h1]
  · simp only [if_neg h]
    refine ⟨trivial, fun k => ?_, ?_, fun h1 h2 => absurd ⟨h1, h2⟩ h, fun k h1 _ => ?_⟩
    · rw [mem_mapKeys_mapSet]
      constructor
      · rintro (h1 | h1)
        · exact Or.inl (Or.inl h1)
        · exact Or.inr h1
      · rintro ((h1 | ⟨h1, h2, _⟩) | h1)
        · exact Or.inl h1
        · exact absurd ⟨h1, h2⟩ h
        · exact Or.inr h1
    · rw [mapGet_mapSet_same]
    · rw [mapGet_mapSet_other _ _ _ h1]

/-- The loop of `convertMessageType` over fields that all convert and share
no key: it returns without error; the kind of the object node is kept; the
keys added are the declared names and, when asked for and different, the JSON
names; each holds the node of its field; every other key is as before. -/
theorem convertMessageTypeLoop_spec (c : Converter)
    (cf : ProtoPackagePtr → FieldDescriptorProto → DescriptorProto →
      List EnumDescriptorProto → Run (Option JSONSchemaType × Option String))
    (curPkg : ProtoPackagePtr) (msg : DescriptorProto) (outerEnums : List EnumDescriptorProto) :
    ∀ (fs : List FieldDescriptorProto) (acc : JSONSchemaType),
      (∀ f ∈ fs, ∃ n, cf curPkg f msg outerEnums = .ok (some n, none)) →
      fs.Pairwise distinctKeys →
      ∃ node, convertMessageTypeLoop c cf curPkg msg outerEnums fs acc = .ok (node, none) ∧
        node.Type_ = acc.Type_ ∧
        (∀ k, k ∈ mapKeys node.Properties ↔
          (∃ f ∈ fs, k = f.GetName ∨
            (c.UseProtoAndJSONFieldnames = true ∧ f.GetName ≠ f.GetJsonName ∧
              k = f.GetJsonName)) ∨
          k ∈ mapKeys acc.Properties) ∧
        (∀ f ∈ fs, ∃ n, cf curPkg f msg outerEnums = .ok (some n, none) ∧
          mapGet node.Properties f.GetName = some (convertMessageTypeFieldNode c f n) ∧
          (c.UseProtoAndJSONFieldnames = true → f.GetName ≠ f.GetJsonName →
            mapGet node.Properties f.GetJsonName = some (convertMessageTypeFieldNode c f n))) ∧
        (∀ k, (∀ f ∈ fs, k ≠ f.GetName ∧ k ≠ f.GetJsonName) →
          mapGet node.Properties k = mapGet acc.Properties k) := by
  intro fs
  induction fs with
  | nil =>
    intro acc _ _
    refine ⟨acc, rfl, rfl, fun k => ?_, fun f hf => ?_, fun k _ => rfl⟩
    · simp
    · simp at hf
  | cons f rest ih =>
    intro acc hok hdist
    obtain ⟨n, hn⟩ := hok f (List.mem_cons_self _ _)
    obtain ⟨hfr, hrest⟩ := List.pairwise_cons.mp hdist
    obtain ⟨s1, s2, s3, s4, s5⟩ := convertMessageTypeStore_spec c f n acc
    obtain ⟨node, hnode, t1, t2, t3, t4⟩ :=
      ih (convertMessageTypeStore c f n acc)
        (fun g hg => hok g (List.mem_cons_of_mem _ hg)) hrest
    refine ⟨node, ?_, t1.trans s1, fun k => ?_, fun g hg => ?_, fun k hk => ?_⟩
    · rw [convertMessageTypeLoop_cons_ok c cf curPkg msg outerEnums f rest acc n hn]
      exact hnode
    · rw [t2 k, s2 k]
      constructor
      · rintro (⟨g, hg, h1⟩ | h1 | h1)
        · exact Or.inl ⟨g, List.mem_cons_of_mem _ hg, h1⟩
        · exact Or.inl ⟨f, List.mem_cons_self _ _, h1⟩
        · exact Or.inr h1
      · rintro (⟨g, hg, h1⟩ | h1)
        · rcases List.mem_cons.mp hg with rfl | hg
          · exact Or.inr (Or.inl h1)
          · exact Or.inl ⟨g, hg, h1⟩
        · exact Or.inr (Or.inr h1)
    · rcases List.mem_cons.mp hg with rfl | hg
      · refine ⟨n, hn, ?_, fun h1 h2 => ?_⟩
        · rw [t4 _ (fun h hh => ⟨(hfr h hh).1, (hfr h hh).2.1⟩)]
          exact s3
        · rw [t4 _ (fun h hh => ⟨(hfr h hh).2.2.1, (hfr h hh).2.2.2⟩)]
          exact s4 h1 h2
      · exact t3 g hg
    · rw [t4 k (fun g hg => hk g (List.mem_cons_of_mem _ hg))]
      exact s5 k (hk f (List.mem_cons_self _ _)).1 (hk f (List.mem_cons_self _ _)).2

/-- Claim C10: for a message whose fields all convert and whose declared names
and JSON names are pairwise distinct across fields, `convertMessageType`
returns, without error, a node of kind object whose property keys are exactly
the declared field names plus, when `UseProtoAndJSONFieldnames` is set, the
JSON name of each field whose JSON name differs from its declared name; the
declared name and that JSON name are mapped to the same node, the node of the
field, whose order is the tag of the field; a message without fields has no
property. -/
theorem convertMessageType_properties (c : Converter) (fuel : Nat) (curPkg : ProtoPackagePtr)
    (msg : DescriptorProto) (outerEnums : List EnumDescriptorProto)
    (hok : ∀ f ∈ msg.Field, ∃ n,
      convertField c fuel curPkg f msg outerEnums = .ok (some n, none))
    (hdist : msg.Field.Pairwise distinctKeys) :
    ∃ node, convertMessageType c (fuel + 1) curPkg msg outerEnums = .ok (node, none) ∧
      node.Type_ = TYPE_OBJECT ∧
      (∀ k, k ∈ mapKeys node.Properties ↔
        ∃ f ∈ msg.Field, k = f.GetName ∨
          (c.UseProtoAndJSONFieldnames = true ∧ f.GetName ≠ f.GetJsonName ∧
            k = f.GetJsonName)) ∧
      (∀ f ∈ msg.Field, ∃ n p,
        convertField c fuel curPkg f msg outerEnums = .ok (some n, none) ∧
        p = convertMessageTypeFieldNode c f n ∧ p.Order = f.Number ∧
        mapGet node.Properties f.GetName = some p ∧
        (c.UseProtoAndJSONFieldnames = true → f.GetName ≠ f.GetJsonName →
          mapGet node.Properties f.GetJsonName = some p)) ∧
      (msg.Field = [] → node.Properties = []) := by
  have hbase : ∀ acc : JSONSchemaType, acc.Type_ = TYPE_OBJECT → acc.Properties = [] →
      ∃ node, convertMessageTypeLoop c (convertFieldBody c (convertMessageType c fuel)) curPkg msg
          outerEnums msg.GetField acc = .ok (node, none) ∧
        node.Type_ = TYPE_OBJECT ∧
        (∀ k, k ∈ mapKeys node.Properties ↔
          ∃ f ∈ msg.Field, k = f.GetName ∨
            (c.UseProtoAndJSONFieldnames = true ∧ f.GetName ≠ f.GetJsonName ∧
              k = f.GetJsonName)) ∧
        (∀ f ∈ msg.Field, ∃ n p,
          convertField c fuel curPkg f msg outerEnums = .ok (some n, none) ∧
          p = convertMessageTypeFieldNode c f n ∧ p.Order = f.Number ∧
          mapGet node.Properties f.GetName = some p ∧
          (c.UseProtoAndJSONFieldnames = true → f.GetName ≠ f.GetJsonName →
            mapGet node.Properties f.GetJsonName = some p)) ∧
        (msg.Field = [] → node.Properties = []) := by
    intro acc hty hprops
    obtain ⟨node, hnode, t1, t2, t3, _⟩ :=
      convertMessageTypeLoop_spec c (convertFieldBody c (convertMessageType c fuel)) curPkg msg
        outerEnums msg.Field acc hok hdist
    refine ⟨node, hnode, t1.trans hty, fun k => ?_, fun f hf => ?_, fun hnil => ?_⟩
    · rw [t2 k, hprops]
      simp [mapKeys]
    · obtain ⟨n, hn, g1, g2⟩ := t3 f hf
      exact ⟨n, _, hn, rfl, rfl, g1, g2⟩
    · have hloop := hnode
      rw [hnil] at hloop
      simp only [convertMessageTypeLoop, Except.ok.injEq, Prod.mk.injEq, and_true] at hloop
      rw [← hloop]
      exact hprops
  unfold convertMessageType convertMessageTypeBody
  cases c.DisallowAdditionalProperties
  · exact hbase _ rfl rfl
  · exact hbase _ rfl rfl

/-- Witness for C10: the message `Account`, with both names stored; the keys
are `user_id`, `userId` and `name`. -/
theorem convertMessageType_properties_witness :
    ∃ node, convertMessageType dualNameConverter 1 0 accountMessage [] = .ok (node, none) ∧
      node.Type_ = "object" ∧
      (∀ k, k ∈ mapKeys node.Properties ↔
        ∃ f ∈ [userIdField, nameField], k = f.GetName ∨
          (dualNameConverter.UseProtoAndJSONFieldnames = true ∧ f.GetName ≠ f.GetJsonName ∧
            k = f.GetJsonName)) ∧
      (∀ f ∈ [userIdField, nameField], ∃ n p,
        convertField dualNameConverter 0 0 f accountMessage [] = .ok (some n, none) ∧
        p = convertMessageTypeFieldNode dualNameConverter f n ∧ p.Order = f.Number ∧
        mapGet node.Properties f.GetName = some p ∧
        (dualNameConverter.UseProtoAndJSONFieldnames = true → f.GetName ≠ f.GetJsonName →
          mapGet node.Properties f.GetJsonName = some p)) ∧
      (accountMessage.Field = [] → node.Properties = []) :=
  convertMessageType_properties dualNameConverter 0 0 accountMessage []
    (by
      intro f hf
      simp only [accountMessage, List.mem_cons, List.mem_singleton, List.not_mem_nil,
        or_false] at hf
      rcases hf with rfl | rfl
      · exact ⟨_, rfl⟩
      · exact ⟨_, rfl⟩)
    (by
      simp only [accountMessage, List.pairwise_cons, List.mem_singleton, List.mem_cons,
        List.not_mem_nil, forall_eq, List.Pairwise.nil, and_true, false_imp_iff,
        implies_true, or_false]
      unfold distinctKeys
      decide)

/-- A tree is in order when its root is and the trees of its property nodes
and of its item node are. -/
theorem allEnumKindsOK_iff (b : Bool) (root : JSONSchemaType) :
    allEnumKindsOK b root ↔
      enumKindOK b root ∧ (∀ k q, (k, q) ∈ root.Properties → allEnumKindsOK false q) ∧
      (∀ q, root.Items = some q → allEnumKindsOK true q) := by
  constructor
  · intro h
    refine ⟨h b root (InTree.self b root), fun k q hq b2 n hn => ?_, fun q hq b2 n hn => ?_⟩
    · exact h b2 n (InTree.property b root k q b2 n hq hn)
    · exact h b2 n (InTree.item b root q b2 n hq hn)
  · rintro ⟨h1, h2, h3⟩ b2 n hn
    cases hn
    next => exact h1
    next k q hq hn => exact h2 k q hq b2 n hn
    next q hq hn => exact h3 q hq b2 n hn

/-- Only the kind, the enum list, the properties and the item node of the root
matter. -/
theorem allEnumKindsOK_congr (b : Bool) (n1 n2 : JSONSchemaType)
    (h1 : n1.Type_ = n2.Type_) (h2 : n1.Enum = n2.Enum) (h3 : n1.Properties = n2.Properties)
    (h4 : n1.Items = n2.Items) (h : allEnumKindsOK b n2) : allEnumKindsOK b n1 := by
  rw [allEnumKindsOK_iff] at h ⊢
  unfold enumKindOK at h ⊢
  rw [h1, h2, h3, h4]
  exact h

/-- A tree that is in order stays so when its root becomes an item node. -/
theorem allEnumKindsOK_item (n : JSONSchemaType) (h : allEnumKindsOK false n) :
    allEnumKindsOK true n := by
  rw [allEnumKindsOK_iff] at h ⊢
  refine ⟨fun hne => ?_, h.2.1, h.2.2⟩
  rcases h.1 hne with h1 | ⟨h1, _⟩
  · exact Or.inl h1
  · exact absurd h1 (by decide)

/-- An entry of a map after an assignment is the entry assigned or an entry
of the map before. -/
theorem mem_mapSet {V : Type} (k : String) (v : V) (p : String × V) :
    ∀ m : List (String × V), p ∈ mapSet m k v → p = (k, v) ∨ p ∈ m := by
  intro m
  induction m with
  | nil => intro h; simpa [mapSet] using h
  | cons e r ih =>
    obtain ⟨k1, v1⟩ := e
    intro h
    by_cases hk : k1 = k
    · simp only [mapSet, if_pos hk, List.mem_cons] at h
      rcases h with h | h
      · exact Or.inl (by rw [h, hk])
      · exact Or.inr (List.mem_cons_of_mem _ h)
    · simp only [mapSet, if_neg hk, List.mem_cons] at h
      rcases h with h | h
      · exact Or.inr (by rw [h]; exact List.mem_cons_self _ _)
      · rcases ih h with h | h
        · exact Or.inl h
        · exact Or.inr (List.mem_cons_of_mem _ h)

/-- A choice between two nodes that both have the kind, the enum list, the
properties and the item node of `t` has them too. -/
theorem ite_frame (p : Prop) [Decidable p] (t u v : JSONSchemaType)
    (hu : u.Type_ = t.Type_ ∧ u.Enum = t.Enum ∧ u.Properties = t.Properties ∧ u.Items = t.Items)
    (hv : v.Type_ = t.Type_ ∧ v.Enum = t.Enum ∧ v.Properties = t.Properties ∧ v.Items = t.Items) :
    (if p then u else v).Type_ = t.Type_ ∧ (if p then u else v).Enum = t.Enum ∧
    (if p then u else v).Properties = t.Properties ∧ (if p then u else v).Items = t.Items := by
  by_cases h : p
  · rw [if_pos h]; exact hu
  · rw [if_neg h]; exact hv

/-- One directive changes neither the kind, the enum list, the properties nor
the item node. -/
theorem applyDirective_frame (t : JSONSchemaType) (kv : String × String) :
    (applyDirective t kv).Type_ = t.Type_ ∧ (applyDirective t kv).Enum = t.Enum ∧
    (applyDirective t kv).Properties = t.Properties ∧ (applyDirective t kv).Items = t.Items := by
  unfold applyDirective
  dsimp only
  cases Atoi kv.2 <;> dsimp only <;>
    repeat (first | exact ⟨rfl, rfl, rfl, rfl⟩ | apply ite_frame)

/-- Applying directives changes neither the kind, the enum list, the
properties nor the item node. -/
theorem fillJSONSchemaTypeVisiting_frame (visited : List (String × String)) (name : String) :
    ∀ t : JSONSchemaType,
      (fillJSONSchemaTypeVisiting visited name t).Type_ = t.Type_ ∧
      (fillJSONSchemaTypeVisiting visited name t).Enum = t.Enum ∧
      (fillJSONSchemaTypeVisiting visited name t).Properties = t.Properties ∧
      (fillJSONSchemaTypeVisiting visited name t).Items = t.Items := by
  have hfold : ∀ (l : List (String × String)) (t : JSONSchemaType),
      (l.foldl applyDirective t).Type_ = t.Type_ ∧ (l.foldl applyDirective t).Enum = t.Enum ∧
      (l.foldl applyDirective t).Properties = t.Properties ∧
      (l.foldl applyDirective t).Items = t.Items := by
    intro l
    induction l with
    | nil => intro t; exact ⟨rfl, rfl, rfl, rfl⟩
    | cons kv r ih =>
      intro t
      rw [List.foldl_cons]
      obtain ⟨a1, a2, a3, a4⟩ := applyDirective_frame t kv
      obtain ⟨b1, b2, b3, b4⟩ := ih (applyDirective t kv)
      exact ⟨b1.trans a1, b2.trans a2, b3.trans a3, b4.trans a4⟩
  intro t
  obtain ⟨a1, a2, a3, a4⟩ := hfold visited t
  unfold fillJSONSchemaTypeVisiting
  dsimp only
  split_ifs
  · exact ⟨a1, a2, a3, a4⟩
  · exact ⟨a1, a2, a3, a4⟩

/-- The stored node of a field has the kind, the enum list, the properties
and the item node of the converted node. -/
theorem convertMessageTypeFieldNode_frame (c : Converter) (f : FieldDescriptorProto)
    (n : JSONSchemaType) :
    (convertMessageTypeFieldNode c f n).Type_ = n.Type_ ∧
    (convertMessageTypeFieldNode c f n).Enum = n.Enum ∧
    (convertMessageTypeFieldNode c f n).Properties = n.Properties ∧
    (convertMessageTypeFieldNode c f n).Items = n.Items := by
  unfold convertMessageTypeFieldNode fillCommentAttribute
  cases c.sourceInfo.GetField f with
  | none => exact ⟨rfl, rfl, rfl, rfl⟩
  | some src => exact fillJSONSchemaTypeVisiting_frame _ _ n

/-- One step of the value loop changes neither the kind, the properties nor
the item node. -/
theorem convertFieldEnumValue_frame (c : Converter) (desc : FieldDescriptorProto)
    (e : EnumDescriptorProto) (t : JSONSchemaType) (v : EnumValueDescriptorProto) :
    (convertFieldEnumValue c desc e t v).Type_ = t.Type_ ∧
    (convertFieldEnumValue c desc e t v).Properties = t.Properties ∧
    (convertFieldEnumValue c desc e t v).Items = t.Items := by
  unfold convertFieldEnumValue
  by_cases hs : HasSuffix desc.GetTypeName e.Name = true
  · rw [if_pos hs]
    dsimp only
    split <;> exact ⟨rfl, rfl, rfl⟩
  · rw [if_neg hs]
    exact ⟨rfl, rfl, rfl⟩

/-- The enum loops change neither the kind, the properties nor the item node. -/
theorem convertFieldEnums_frame (c : Converter) (desc : FieldDescriptorProto) :
    ∀ (enums : List EnumDescriptorProto) (t : JSONSchemaType),
      (convertFieldEnums c desc enums t).Type_ = t.Type_ ∧
      (convertFieldEnums c desc enums t).Properties = t.Properties ∧
      (convertFieldEnums c desc enums t).Items = t.Items := by
  have hvals : ∀ (e : EnumDescriptorProto) (vs : List EnumValueDescriptorProto)
      (t : JSONSchemaType),
      (vs.foldl (convertFieldEnumValue c desc e) t).Type_ = t.Type_ ∧
      (vs.foldl (convertFieldEnumValue c desc e) t).Properties = t.Properties ∧
      (vs.foldl (convertFieldEnumValue c desc e) t).Items = t.Items := by
    intro e vs
    induction vs with
    | nil => intro t; exact ⟨rfl, rfl, rfl⟩
    | cons v r ih =>
      intro t
      rw [List.foldl_cons]
      obtain ⟨a1, a2, a3⟩ := convertFieldEnumValue_frame c desc e t v
      obtain ⟨b1, b2, b3⟩ := ih (convertFieldEnumValue c desc e t v)
      exact ⟨b1.trans a1, b2.trans a2, b3.trans a3⟩
  intro enums
  induction enums with
  | nil => intro t; exact ⟨rfl, rfl, rfl⟩
  | cons e r ih =>
    intro t
    unfold convertFieldEnums
    rw [List.foldl_cons]
    obtain ⟨a1, a2, a3⟩ := hvals e e.Value t
    obtain ⟨b1, b2, b3⟩ := ih (e.Value.foldl (convertFieldEnumValue c desc e) t)
    exact ⟨b1.trans a1, b2.trans a2, b3.trans a3⟩

/-- The node that the `switch` of `convertField` makes of the zero node has no
property and no item node, and has kind integer when its enum list is not
empty. -/
theorem convertFieldSwitch_shape (c : Converter) (desc : FieldDescriptorProto)
    (msg : DescriptorProto) (outerEnums : List EnumDescriptorProto) (t : JSONSchemaType)
    (hsw : convertFieldSwitch c desc msg outerEnums JSONSchemaType.zero = some t) :
    t.Properties = [] ∧ t.Items = none ∧ (t.Enum ≠ [] → t.Type_ = TYPE_INTEGER) := by
  unfold convertFieldSwitch at hsw
  dsimp only at hsw
  split at hsw
  · cases hsw; exact ⟨rfl, rfl, fun h => absurd rfl h⟩
  split at hsw
  · cases hsw; exact ⟨rfl, rfl, fun h => absurd rfl h⟩
  split at hsw
  · cases hsw; exact ⟨rfl, rfl, fun h => absurd rfl h⟩
  split at hsw
  · cases hsw; exact ⟨rfl, rfl, fun h => absurd rfl h⟩
  split at hsw
  · cases hsw
    obtain ⟨a1, a2, a3⟩ := convertFieldEnums_frame c desc (msg.GetEnumType ++ outerEnums)
      { JSONSchemaType.zero with Type_ := TYPE_INTEGER }
    exact ⟨a2, a3, fun _ => a1⟩
  split at hsw
  · cases hsw; exact ⟨rfl, rfl, fun h => absurd rfl h⟩
  split at hsw
  · cases hsw
    by_cases h1 : desc.GetLabel = FieldDescriptorProto_LABEL_OPTIONAL <;>
      by_cases h2 : desc.GetLabel = FieldDescriptorProto_LABEL_REQUIRED <;>
      simp only [if_pos, if_neg, h1, h2, not_false_eq_true] <;>
      exact ⟨rfl, rfl, fun h => absurd rfl h⟩
  · cases hsw

/-- A node without enum list, properties and item node is in order. -/
theorem allEnumKindsOK_leaf (b : Bool) (n : JSONSchemaType)
    (h1 : enumKindOK b n) (h2 : n.Properties = []) (h3 : n.Items = none) :
    allEnumKindsOK b n := by
  rw [allEnumKindsOK_iff]
  refine ⟨h1, fun k q hq => ?_, fun q hq => ?_⟩
  · rw [h2] at hq; simp at hq
  · rw [h3] at hq; simp at hq

/-- The array block keeps the properties of the node. -/
theorem convertFieldRepeated_properties (c : Converter) (t : JSONSchemaType) :
    (convertFieldRepeated c t).Properties = t.Properties := by
  unfold convertFieldRepeated
  by_cases h : t.Enum.length > 0 <;> cases c.AllowNullValues <;> simp [h]

/-- The array built for a repeated field that is no message is in order. -/
theorem convertFieldRepeated_ok (c : Converter) (t : JSONSchemaType)
    (hprops : t.Properties = []) : allEnumKindsOK false (convertFieldRepeated c t) := by
  rw [allEnumKindsOK_iff]
  refine ⟨fun hne => absurd (convertFieldRepeated_labels c t).2 hne, fun k q hq => ?_,
    fun q hq => ?_⟩
  · rw [convertFieldRepeated_properties, hprops] at hq
    simp at hq
  · by_cases he : t.Enum = []
    · rw [convertFieldRepeated_items_kind c t he] at hq
      cases hq
      exact allEnumKindsOK_leaf true _ (fun hne => absurd rfl hne) rfl rfl
    · rw [convertFieldRepeated_items_enum c t he] at hq
      cases hq
      exact allEnumKindsOK_leaf true _ (fun _ => Or.inr ⟨rfl, rfl⟩) rfl rfl

/-- When every tree that the recursive call returns is in order, every tree
that `convertField` returns is. -/
theorem convertFieldBody_ok (c : Converter)
    (rec : ProtoPackagePtr → DescriptorProto → List EnumDescriptorProto →
      Run (JSONSchemaType × Option String))
    (hrec : ∀ pkg m oe node err, rec pkg m oe = .ok (node, err) → allEnumKindsOK false node)
    (curPkg : ProtoPackagePtr) (desc : FieldDescriptorProto) (msg : DescriptorProto)
    (outerEnums : List EnumDescriptorProto) (node : JSONSchemaType) (err : Option String)
    (h : convertFieldBody c rec curPkg desc msg outerEnums = .ok (some node, err)) :
    allEnumKindsOK false node := by
  unfold convertFieldBody at h
  dsimp only at h
  rw [zero_with_properties] at h
  cases hsw : convertFieldSwitch c desc msg outerEnums JSONSchemaType.zero with
  | none => rw [hsw] at h; simp at h
  | some t =>
    rw [hsw] at h
    obtain ⟨s1, s2, s3⟩ := convertFieldSwitch_shape c desc msg outerEnums t hsw
    dsimp only at h
    by_cases h1 : desc.GetLabel = FieldDescriptorProto_LABEL_REPEATED ∧ t.Type_ ≠ TYPE_OBJECT
    · rw [if_pos h1] at h
      simp only [Except.ok.injEq, Prod.mk.injEq, Option.some.injEq] at h
      rw [← h.1]
      exact convertFieldRepeated_ok c t s1
    · rw [if_neg h1] at h
      by_cases h2 : t.Type_ = TYPE_OBJECT
      · rw [if_pos h2] at h
        have hen : t.Enum = [] := by
          by_contra hne
          have := s3 hne
          rw [h2] at this
          revert this
          decide
        cases hlk : c.lookupType curPkg desc.GetTypeName with
        | none => rw [hlk] at h; simp at h
        | some recordType =>
          rw [hlk] at h
          dsimp only at h
          cases hr : rec curPkg recordType outerEnums with
          | error crash => rw [hr] at h; simp at h
          | ok v =>
            obtain ⟨rnode, rerr⟩ := v
            rw [hr] at h
            dsimp only at h
            have hrn := hrec curPkg recordType outerEnums rnode rerr hr
            by_cases h3 : rerr.isSome = true
            · rw [if_pos h3] at h; simp at h
            · rw [if_neg h3] at h
              by_cases h4 : GetMapEntry recordType.Options = true ∨
                  desc.GetLabel = FieldDescriptorProto_LABEL_REPEATED
              · rw [if_pos h4] at h
                simp only [Except.ok.injEq, Prod.mk.injEq, Option.some.injEq] at h
                rw [← h.1, allEnumKindsOK_iff]
                refine ⟨fun hne => absurd hen hne, fun k q hq => ?_, fun q hq => ?_⟩
                · rw [s1] at hq; simp at hq
                · cases hq
                  exact allEnumKindsOK_item _ hrn
              · rw [if_neg h4] at h
                simp only [Except.ok.injEq, Prod.mk.injEq, Option.some.injEq] at h
                rw [← h.1, allEnumKindsOK_iff]
                refine ⟨fun hne => absurd hen hne, fun k q hq => ?_, fun q hq => ?_⟩
                · exact ((allEnumKindsOK_iff false rnode).mp hrn).2.1 k q hq
                · rw [s2] at hq; simp at hq
      · rw [if_neg h2] at h
        simp only [Except.ok.injEq, Prod.mk.injEq, Option.some.injEq] at h
        rw [← h.1]
        exact allEnumKindsOK_leaf false t (fun hne => Or.inl (s3 hne)) s1 s2

/-- Storing a field node whose tree is in order keeps the object node in
order. -/
theorem convertMessageTypeStore_ok (c : Converter) (f : FieldDescriptorProto)
    (n acc : JSONSchemaType) (hn : allEnumKindsOK false n) (hacc : allEnumKindsOK false acc) :
    allEnumKindsOK false (convertMessageTypeStore c f n acc) := by
  obtain ⟨f1, f2, f3, f4⟩ := convertMessageTypeFieldNode_frame c f n
  have hnode : allEnumKindsOK false (convertMessageTypeFieldNode c f n) :=
    allEnumKindsOK_congr false _ n f1 f2 f3 f4 hn
  obtain ⟨a1, a2, a3⟩ := (allEnumKindsOK_iff false acc).mp hacc
  have hset : ∀ (m : List (String × JSONSchemaType)) (key : String),
      (∀ k q, (k, q) ∈ m → allEnumKindsOK false q) →
      ∀ k q, (k, q) ∈ mapSet m key (convertMessageTypeFieldNode c f n) →
        allEnumKindsOK false q := by
    intro m key hm k q hq
    rcases mem_mapSet key _ (k, q) m hq with h | h
    · cases h; exact hnode
    · exact hm k q h
  unfold convertMessageTypeStore
  dsimp only
  by_cases h : c.UseProtoAndJSONFieldnames = true ∧ f.GetName ≠ f.GetJsonName
  · rw [if_pos h, allEnumKindsOK_iff]
    exact ⟨a1, hset _ _ (hset _ _ a2), a3⟩
  · rw [if_neg h, allEnumKindsOK_iff]
    exact ⟨a1, hset _ _ a2, a3⟩

/-- When every tree that `convertField` returns is in order, the loop of
`convertMessageType` keeps the object node in order. -/
theorem convertMessageTypeLoop_ok (c : Converter)
    (cf : ProtoPackagePtr → FieldDescriptorProto → DescriptorProto →
      List EnumDescriptorProto → Run (Option JSONSchemaType × Option String))
    (curPkg : ProtoPackagePtr) (msg : DescriptorProto) (outerEnums : List EnumDescriptorProto)
    (hcf : ∀ f node err, cf curPkg f msg outerEnums = .ok (some node, err) →
      allEnumKindsOK false node) :
    ∀ (fs : List FieldDescriptorProto) (acc node : JSONSchemaType) (err : Option String),
      allEnumKindsOK false acc →
      convertMessageTypeLoop c cf curPkg msg outerEnums fs acc = .ok (node, err) →
      allEnumKindsOK false node := by
  intro fs
  induction fs with
  | nil =>
    intro acc node err hacc h
    simp only [convertMessageTypeLoop, Except.ok.injEq, Prod.mk.injEq] at h
    rw [← h.1]; exact hacc
  | cons f rest ih =>
    intro acc node err hacc h
    unfold convertMessageTypeLoop at h
    cases hf : cf curPkg f msg outerEnums with
    | error crash => rw [hf] at h; simp at h
    | ok v =>
      obtain ⟨pointer, ferr⟩ := v
      rw [hf] at h
      dsimp only at h
      cases pointer with
      | none => simp at h
      | some n =>
        dsimp only at h
        by_cases he : ferr.isSome = true
        · rw [if_pos he] at h
          simp only [Except.ok.injEq, Prod.mk.injEq] at h
          rw [← h.1]; exact hacc
        · rw [if_neg he] at h
          exact ih _ node err (convertMessageTypeStore_ok c f n acc (hcf f n ferr hf) hacc) h

/-- Every tree that `convertMessageType` returns is in order. -/
theorem convertMessageType_ok (c : Converter) :
    ∀ (fuel : Nat) (curPkg : ProtoPackagePtr) (msg : DescriptorProto)
      (outerEnums : List EnumDescriptorProto) (node : JSONSchemaType) (err : Option String),
      convertMessageType c fuel curPkg msg outerEnums = .ok (node, err) →
      allEnumKindsOK false node := by
  intro fuel
  induction fuel with
  | zero => intro curPkg msg outerEnums node err h; simp [convertMessageType] at h
  | succ fuel ih =>
    intro curPkg msg outerEnums node err h
    unfold convertMessageType convertMessageTypeBody at h
    refine convertMessageTypeLoop_ok c _ curPkg msg outerEnums
      (fun f n e hf => convertFieldBody_ok c _ ih curPkg f msg outerEnums n e hf)
      msg.GetField _ node err ?_ h
    apply allEnumKindsOK_leaf
    · intro hne
      exfalso
      revert hne
      cases c.DisallowAdditionalProperties <;> simp [JSONSchemaType.zero]
    · cases c.DisallowAdditionalProperties <;> rfl
    · cases c.DisallowAdditionalProperties <;> rfl

/-- Claim C9, counterexample: in the tree that `convertField` returns for the
repeated enum field `all` of `Palette`, the item node has a non-empty enum list
and no kind, so neither kind integer nor kind string. -/
theorem enum_item_without_kind_counterexample :
    ∃ root item, convertField plainConverter 0 0 allColorsField paletteMessage []
        = .ok (some root, none) ∧
      InTree false root true item ∧ item.Enum = [some 0, some 1] ∧
      item.Type_ ≠ TYPE_INTEGER ∧ item.Type_ ≠ TYPE_STRING :=
  ⟨_, _, rfl, InTree.item false _ _ true _ rfl (InTree.self true _), rfl, by decide, by decide⟩

/-- Claim C9, amended: every node in a tree returned by `convertField` or
`convertMessageType` (the returned node, its property nodes and its array item
nodes, at any depth) that has a non-empty enum list has kind integer, or is an
array item node and has no kind (the item node of a repeated enum field). -/
theorem enum_nodes_kind (c : Converter) (fuel : Nat) (curPkg : ProtoPackagePtr)
    (msg : DescriptorProto) (outerEnums : List EnumDescriptorProto) :
    (∀ (desc : FieldDescriptorProto) (root : JSONSchemaType) (err : Option String)
        (isItem : Bool) (n : JSONSchemaType),
      convertField c fuel curPkg desc msg outerEnums = .ok (some root, err) →
      InTree false root isItem n → n.Enum ≠ [] →
      n.Type_ = TYPE_INTEGER ∨ (isItem = true ∧ n.Type_ = "")) ∧
    (∀ (root : JSONSchemaType) (err : Option String) (isItem : Bool) (n : JSONSchemaType),
      convertMessageType c fuel curPkg msg outerEnums = .ok (root, err) →
      InTree false root isItem n → n.Enum ≠ [] →
      n.Type_ = TYPE_INTEGER ∨ (isItem = true ∧ n.Type_ = "")) := by
  constructor
  · intro desc root err isItem n h hn hne
    exact convertFieldBody_ok c _ (convertMessageType_ok c fuel) curPkg desc msg outerEnums
      root err h isItem n hn hne
  · intro root err isItem n h hn hne
    exact convertMessageType_ok c fuel curPkg msg outerEnums root err h isItem n hn hne

/-- Witness for C9: the property `main` and the item node of the property
`all` in the tree of the message `Palette`. -/
theorem enum_nodes_kind_witness :
    (({ JSONSchemaType.zero with Enum := [some 0, some 1], OneOf := [] } : JSONSchemaType).Type_
        = TYPE_INTEGER ∨
      (true = true ∧
        ({ JSONSchemaType.zero with Enum := [some 0, some 1], OneOf := [] } :
          JSONSchemaType).Type_ = "")) ∧
    (({ JSONSchemaType.zero with
          Type_ := TYPE_INTEGER, Enum := [some 0, some 1],
          OptionLabels := [OptionLabel.number (some 0), OptionLabel.number (some 1)],
          Title := "main", Order := 1 } : JSONSchemaType).Type_ = TYPE_INTEGER ∨
      (false = true ∧
        ({ JSONSchemaType.zero with
          Type_ := TYPE_INTEGER, Enum := [some 0, some 1],
          OptionLabels := [OptionLabel.number (some 0), OptionLabel.number (some 1)],
          Title := "main", Order := 1 } : JSONSchemaType).Type_ = "")) :=
  ⟨(enum_nodes_kind plainConverter 0 0 paletteMessage []).1 allColorsField _ none true _ rfl
      (InTree.item false _ _ true _ rfl (InTree.self true _)) (by decide),
   (enum_nodes_kind emptyCommentConverter 1 0 paletteMessage []).2 _ none false _ rfl
      (InTree.property false _ "main" _ false _ (List.mem_cons_self _ _) (InTree.self false _))
      (by decide)⟩

/-- The inner loop finds a descriptor exactly when it is the first entry with
the name looked for. -/
theorem relativelyLookupNestedTypeInner_some (s : String) (d1 : DescriptorProto) :
    ∀ l : List DescriptorProto,
      relativelyLookupNestedTypeInner s l = some d1 ↔
        ∃ pre post, l = pre ++ d1 :: post ∧ d1.Name = s ∧ ∀ x ∈ pre, x.Name ≠ s := by
  intro l
  induction l with
  | nil =>
    constructor
    · intro h; simp [relativelyLookupNestedTypeInner] at h
    · rintro ⟨pre, post, h, _⟩; simp at h
  | cons a r ih =>
    unfold relativelyLookupNestedTypeInner
    by_cases ha : a.GetName = s
    · rw [if_pos ha]
      constructor
      · intro h
        simp only [Option.some.injEq] at h
        subst h
        exact ⟨[], r, rfl, ha, fun x hx => by simp at hx⟩
      · rintro ⟨pre, post, h, h1, h2⟩
        cases pre with
        | nil =>
          simp only [List.nil_append, List.cons.injEq] at h
          rw [h.1]
        | cons b pre =>
          simp only [List.cons_append, List.cons.injEq] at h
          exact absurd (h.1 ▸ ha) (h2 b (List.mem_cons_self _ _))
    · rw [if_neg ha, ih]
      constructor
      · rintro ⟨pre, post, h, h1, h2⟩
        refine ⟨a :: pre, post, by rw [h]; rfl, h1, fun x hx => ?_⟩
        rcases List.mem_cons.mp hx with rfl | hx
        · exact ha
        · exact h2 x hx
      · rintro ⟨pre, post, h, h1, h2⟩
        cases pre with
        | nil =>
          simp only [List.nil_append, List.cons.injEq] at h
          exact absurd (h.1 ▸ h1) ha
        | cons b pre =>
          simp only [List.cons_append, List.cons.injEq] at h
          exact ⟨pre, post, h.2, h1, fun x hx => h2 x (List.mem_cons_of_mem _ hx)⟩

/-- The inner loop finds nothing exactly when no entry has the name looked
for. -/
theorem relativelyLookupNestedTypeInner_none (s : String) :
    ∀ l : List DescriptorProto,
      relativelyLookupNestedTypeInner s l = none ↔ ∀ x ∈ l, x.Name ≠ s := by
  intro l
  induction l with
  | nil => simp [relativelyLookupNestedTypeInner]
  | cons a r ih =>
    unfold relativelyLookupNestedTypeInner
    by_cases ha : a.GetName = s
    · rw [if_pos ha]
      constructor
      · intro h; simp at h
      · intro h; exact absurd ha (h a (List.mem_cons_self _ _))
    · rw [if_neg ha, ih]
      constructor
      · intro h x hx
        rcases List.mem_cons.mp hx with rfl | hx
        · exact ha
        · exact h x hx
      · intro h x hx
        exact h x (List.mem_cons_of_mem _ hx)

/-- The component loop returns a descriptor exactly when a chain of first
entries leads to it. -/
theorem relativelyLookupNestedTypeLoop_some (dn : DescriptorProto) :
    ∀ (segs : List String) (d : DescriptorProto),
      relativelyLookupNestedTypeLoop d segs = some dn ↔ NestedChain d segs dn := by
  intro segs
  induction segs with
  | nil =>
    intro d
    constructor
    · intro h
      simp only [relativelyLookupNestedTypeLoop, Option.some.injEq] at h
      subst h
      exact NestedChain.nil d
    · intro h
      cases h
      rfl
  | cons s rest ih =>
    intro d
    constructor
    · intro h
      unfold relativelyLookupNestedTypeLoop at h
      cases hi : relativelyLookupNestedTypeInner s d.GetNestedType with
      | none => rw [hi] at h; simp at h
      | some d1 =>
        rw [hi] at h
        exact NestedChain.cons d s d1 rest dn
          ((relativelyLookupNestedTypeInner_some s d1 _).mp hi) ((ih d1).mp h)
    · intro h
      cases h
      next d1 hfirst hrest =>
        unfold relativelyLookupNestedTypeLoop
        rw [(relativelyLookupNestedTypeInner_some s d1 d.GetNestedType).mpr hfirst]
        exact (ih d1).mpr hrest

/-- The descriptor at the end of a non-empty chain has the name of the last
segment. -/
theorem NestedChain_last_name (dn : DescriptorProto) :
    ∀ (segs : List String) (d : DescriptorProto), NestedChain d segs dn → segs ≠ [] →
      segs.getLast? = some dn.Name := by
  intro segs
  induction segs with
  | nil => intro d _ h; exact absurd rfl h
  | cons s rest ih =>
    intro d h _
    cases h
    next d1 hfirst hrest =>
      cases rest with
      | nil =>
        cases hrest
        obtain ⟨_, _, _, hname, _⟩ := hfirst
        simp [hname]
      | cons s2 rest2 =>
        have := ih d1 hrest (by simp)
        rw [List.getLast?_cons_cons]
        exact this

/-- The component loop fails exactly when, after a chain along the segments
before it, some segment names no nested type. -/
theorem relativelyLookupNestedTypeLoop_none :
    ∀ (segs : List String) (d : DescriptorProto),
      relativelyLookupNestedTypeLoop d segs = none ↔
        ∃ pre s post dk, segs = pre ++ s :: post ∧ NestedChain d pre dk ∧
          ∀ x ∈ dk.NestedType, x.Name ≠ s := by
  intro segs
  induction segs with
  | nil =>
    intro d
    constructor
    · intro h; simp [relativelyLookupNestedTypeLoop] at h
    · rintro ⟨pre, s, post, dk, h, _⟩; simp at h
  | cons s rest ih =>
    intro d
    unfold relativelyLookupNestedTypeLoop
    cases hi : relativelyLookupNestedTypeInner s d.GetNestedType with
    | none =>
      simp only [true_iff]
      exact ⟨[], s, rest, d, rfl, NestedChain.nil d,
        (relativelyLookupNestedTypeInner_none s _).mp hi⟩
    | some d1 =>
      simp only
      rw [ih d1]
      have hfirst := (relativelyLookupNestedTypeInner_some s d1 _).mp hi
      constructor
      · rintro ⟨pre, s2, post, dk, h, hc, hn⟩
        exact ⟨s :: pre, s2, post, dk, by rw [h]; rfl, NestedChain.cons d s d1 pre dk hfirst hc, hn⟩
      · rintro ⟨pre, s2, post, dk, h, hc, hn⟩
        cases pre with
        | nil =>
          simp only [List.nil_append, List.cons.injEq] at h
          cases hc
          have hnone := (relativelyLookupNestedTypeInner_none s2 d.GetNestedType).mpr hn
          rw [← h.1] at hnone
          rw [hnone] at hi
          simp at hi
        | cons p pre =>
          simp only [List.cons_append, List.cons.injEq] at h
          cases hc
          next d1b hfirstb hrestb =>
            have h1 : relativelyLookupNestedTypeInner p d.GetNestedType = some d1b :=
              (relativelyLookupNestedTypeInner_some p d1b _).mpr hfirstb
            rw [← h.1, hi] at h1
            simp only [Option.some.injEq] at h1
            subst h1
            exact ⟨pre, s2, post, dk, h.2, hrestb, hn⟩

/-- Claim C13: for every message descriptor `d` and dotted name, with the
segments `s1, ..., sn` that the name splits into at its dots:
`relativelyLookupNestedType` returns a descriptor `dn` exactly when there is a
chain `d = d0, ..., dn` in which each `di` is the first entry named `si` among
the nested types of the one before; the descriptor returned has the name
`sn`; and it returns no descriptor exactly when, after a chain along the
segments before it, some segment names no nested type of the descriptor
reached. -/
theorem relativelyLookupNestedType_chain (d : DescriptorProto) (name : String) :
    (∀ dn, relativelyLookupNestedType d name = some dn ↔ NestedChain d (Split name '.') dn) ∧
    (∀ dn, relativelyLookupNestedType d name = some dn →
      (Split name '.').getLast? = some dn.Name) ∧
    (relativelyLookupNestedType d name = none ↔
      ∃ pre s post dk, Split name '.' = pre ++ s :: post ∧ NestedChain d pre dk ∧
        ∀ x ∈ dk.NestedType, x.Name ≠ s) := by
  have hne : Split name '.' ≠ [] := by
    unfold Split
    intro h
    exact splitChars_ne_nil '.' name.data (List.map_eq_nil_iff.mp h)
  refine ⟨fun dn => relativelyLookupNestedTypeLoop_some dn _ d, fun dn h => ?_,
    relativelyLookupNestedTypeLoop_none _ d⟩
  exact NestedChain_last_name dn _ d ((relativelyLookupNestedTypeLoop_some dn _ d).mp h) hne

/-- Examples for C13 on the message `Outer`: `Mid.Leaf` resolves through the
first `Mid`, and `Mid.Missing` and `Leaf` resolve to nothing. -/
theorem relativelyLookupNestedType_examples :
    relativelyLookupNestedType outerMessage "Mid.Leaf" = some (mkNested "Leaf" []) ∧
    relativelyLookupNestedType outerMessage "Mid" = some (mkNested "Mid" [mkNested "Leaf" []]) ∧
    relativelyLookupNestedType outerMessage "Mid.Missing" = none ∧
    relativelyLookupNestedType outerMessage "Leaf" = none :=
  ⟨rfl, rfl, rfl, rfl⟩

/-- Only a message or group field leaves the `switch` of `convertField` with a
node of kind object. -/
theorem convertFieldSwitch_object (c : Converter) (desc : FieldDescriptorProto)
    (msg : DescriptorProto) (outerEnums : List EnumDescriptorProto) (t : JSONSchemaType)
    (hsw : convertFieldSwitch c desc msg outerEnums JSONSchemaType.zero = some t)
    (hobj : t.Type_ = TYPE_OBJECT) :
    desc.GetType = FieldDescriptorProto_TYPE_GROUP ∨
      desc.GetType = FieldDescriptorProto_TYPE_MESSAGE := by
  unfold convertFieldSwitch at hsw
  dsimp only at hsw
  split at hsw
  · cases hsw; exact absurd hobj (by decide)
  split at hsw
  · cases hsw; exact absurd hobj (by decide)
  split at hsw
  · cases hsw; exact absurd hobj (by decide)
  split at hsw
  · cases hsw; exact absurd hobj (by decide)
  split at hsw
  · cases hsw
    obtain ⟨a1, _, _⟩ := convertFieldEnums_frame c desc (msg.GetEnumType ++ outerEnums)
      { JSONSchemaType.zero with Type_ := TYPE_INTEGER }
    rw [a1] at hobj
    exact absurd hobj (by decide)
  split at hsw
  · cases hsw; exact absurd hobj (by decide)
  split at hsw
  · assumption
  · cases hsw

/-- Function `convertField` calls `convertMessageType` only on the message that
the type name of a message or group field resolves to. -/
theorem convertFieldBody_congr (c : Converter)
    (rec1 rec2 : ProtoPackagePtr → DescriptorProto → List EnumDescriptorProto →
      Run (JSONSchemaType × Option String))
    (curPkg : ProtoPackagePtr) (desc : FieldDescriptorProto) (msg : DescriptorProto)
    (outerEnums : List EnumDescriptorProto)
    (h : (desc.GetType = FieldDescriptorProto_TYPE_GROUP ∨
        desc.GetType = FieldDescriptorProto_TYPE_MESSAGE) →
      ∀ R, c.lookupType curPkg desc.GetTypeName = some R →
        rec1 curPkg R outerEnums = rec2 curPkg R outerEnums) :
    convertFieldBody c rec1 curPkg desc msg outerEnums =
      convertFieldBody c rec2 curPkg desc msg outerEnums := by
  unfold convertFieldBody
  dsimp only
  rw [zero_with_properties]
  cases hsw : convertFieldSwitch c desc msg outerEnums JSONSchemaType.zero with
  | none => rfl
  | some t =>
    dsimp only
    by_cases h1 : desc.GetLabel = FieldDescriptorProto_LABEL_REPEATED ∧ t.Type_ ≠ TYPE_OBJECT
    · rw [if_pos h1, if_pos h1]
    · rw [if_neg h1, if_neg h1]
      by_cases h2 : t.Type_ = TYPE_OBJECT
      · rw [if_pos h2, if_pos h2]
        cases hlk : c.lookupType curPkg desc.GetTypeName with
        | none => rfl
        | some R =>
          dsimp only
          rw [h (convertFieldSwitch_object c desc msg outerEnums t hsw h2) R hlk]
      · rw [if_neg h2, if_neg h2]

/-- Function `convertField` runs out of fuel only when its call of
`convertMessageType` does. -/
theorem convertFieldBody_not_exhausted (c : Converter)
    (rec : ProtoPackagePtr → DescriptorProto → List EnumDescriptorProto →
      Run (JSONSchemaType × Option String))
    (curPkg : ProtoPackagePtr) (desc : FieldDescriptorProto) (msg : DescriptorProto)
    (outerEnums : List EnumDescriptorProto)
    (h : (desc.GetType = FieldDescriptorProto_TYPE_GROUP ∨
        desc.GetType = FieldDescriptorProto_TYPE_MESSAGE) →
      ∀ R, c.lookupType curPkg desc.GetTypeName = some R →
        rec curPkg R outerEnums ≠ .error Crash.fuelExhausted) :
    convertFieldBody c rec curPkg desc msg outerEnums ≠ .error Crash.fuelExhausted := by
  unfold convertFieldBody
  dsimp only
  rw [zero_with_properties]
  cases hsw : convertFieldSwitch c desc msg outerEnums JSONSchemaType.zero with
  | none => simp
  | some t =>
    dsimp only
    by_cases h1 : desc.GetLabel = FieldDescriptorProto_LABEL_REPEATED ∧ t.Type_ ≠ TYPE_OBJECT
    · rw [if_pos h1]; simp
    · rw [if_neg h1]
      by_cases h2 : t.Type_ = TYPE_OBJECT
      · rw [if_pos h2]
        cases hlk : c.lookupType curPkg desc.GetTypeName with
        | none => simp
        | some R =>
          dsimp only
          have hR := h (convertFieldSwitch_object c desc msg outerEnums t hsw h2) R hlk
          cases hrec : rec curPkg R outerEnums with
          | error crash =>
            dsimp only
            rw [hrec] at hR
            intro e
            cases e
            exact hR rfl
          | ok v =>
            obtain ⟨node, err⟩ := v
            dsimp only
            split_ifs <;> simp
      · rw [if_neg h2]; simp

/-- The loop of `convertMessageType` calls `convertField` only on the fields
of its list. -/
theorem convertMessageTypeLoop_congr (c : Converter)
    (cf1 cf2 : ProtoPackagePtr → FieldDescriptorProto → DescriptorProto →
      List EnumDescriptorProto → Run (Option JSONSchemaType × Option String))
    (curPkg : ProtoPackagePtr) (msg : DescriptorProto) (outerEnums : List EnumDescriptorProto) :
    ∀ (fields : List FieldDescriptorProto) (acc : JSONSchemaType),
      (∀ f ∈ fields, cf1 curPkg f msg outerEnums = cf2 curPkg f msg outerEnums) →
      convertMessageTypeLoop c cf1 curPkg msg outerEnums fields acc =
        convertMessageTypeLoop c cf2 curPkg msg outerEnums fields acc := by
  intro fields
  induction fields with
  | nil => intro acc _; rfl
  | cons f rest ih =>
    intro acc h
    unfold convertMessageTypeLoop
    rw [h f (List.mem_cons_self _ _)]
    cases cf2 curPkg f msg outerEnums with
    | error crash => rfl
    | ok v =>
      obtain ⟨pointer, err⟩ := v
      dsimp only
      cases pointer with
      | none => rfl
      | some n =>
        dsimp only
        by_cases he : err.isSome = true
        · rw [if_pos he, if_pos he]
        · rw [if_neg he, if_neg he]
          exact ih _ (fun g hg => h g (List.mem_cons_of_mem _ hg))

/-- The loop of `convertMessageType` runs out of fuel only when a call of
`convertField` on one of its fields does. -/
theorem convertMessageTypeLoop_not_exhausted (c : Converter)
    (cf : ProtoPackagePtr → FieldDescriptorProto → DescriptorProto →
      List EnumDescriptorProto → Run (Option JSONSchemaType × Option String))
    (curPkg : ProtoPackagePtr) (msg : DescriptorProto) (outerEnums : List EnumDescriptorProto) :
    ∀ (fields : List FieldDescriptorProto) (acc : JSONSchemaType),
      (∀ f ∈ fields, cf curPkg f msg outerEnums ≠ .error Crash.fuelExhausted) →
      convertMessageTypeLoop c cf curPkg msg outerEnums fields acc
        ≠ .error Crash.fuelExhausted := by
  intro fields
  induction fields with
  | nil => intro acc _; simp [convertMessageTypeLoop]
  | cons f rest ih =>
    intro acc h
    unfold convertMessageTypeLoop
    have hf := h f (List.mem_cons_self _ _)
    cases hcf : cf curPkg f msg outerEnums with
    | error crash =>
      dsimp only
      rw [hcf] at hf
      intro e
      cases e
      exact hf rfl
    | ok v =>
      obtain ⟨pointer, err⟩ := v
      dsimp only
      cases pointer with
      | none => simp
      | some n =>
        dsimp only
        by_cases he : err.isSome = true
        · rw [if_pos he]; simp
        · rw [if_neg he]
          exact ih _ (fun g hg => h g (List.mem_cons_of_mem _ hg))

/-- The message that a message or group field resolves to is among the
references of the message that declares the field. -/
theorem mem_messageReferences (c : Converter) (curPkg : ProtoPackagePtr) (msg : DescriptorProto)
    (f : FieldDescriptorProto) (R : DescriptorProto) (hf : f ∈ msg.GetField)
    (hty : f.GetType = FieldDescriptorProto_TYPE_GROUP ∨
      f.GetType = FieldDescriptorProto_TYPE_MESSAGE)
    (hlk : c.lookupType curPkg f.GetTypeName = some R) :
    R ∈ messageReferences c curPkg msg := by
  unfold messageReferences
  rw [List.mem_filterMap]
  exact ⟨f, hf, by rw [if_pos hty]; exact hlk⟩

/-- With fuel for one level more than the nesting depth, `convertMessageType`
does not run out of fuel, and more fuel does not change what it returns. -/
theorem convertMessageType_fuel (c : Converter) (curPkg : ProtoPackagePtr)
    (outerEnums : List EnumDescriptorProto) :
    ∀ (d : Nat) (msg : DescriptorProto), nestingDepthLE c curPkg d msg = true →
      ∀ fuel, d + 1 ≤ fuel →
        convertMessageType c fuel curPkg msg outerEnums =
          convertMessageType c (d + 1) curPkg msg outerEnums ∧
        convertMessageType c (d + 1) curPkg msg outerEnums ≠ .error Crash.fuelExhausted := by
  have hstep : ∀ (d : Nat) (msg : DescriptorProto),
      (∀ f ∈ msg.GetField,
        (f.GetType = FieldDescriptorProto_TYPE_GROUP ∨
          f.GetType = FieldDescriptorProto_TYPE_MESSAGE) →
        ∀ R, c.lookupType curPkg f.GetTypeName = some R →
          ∀ k, d ≤ k →
            convertMessageType c k curPkg R outerEnums =
              convertMessageType c d curPkg R outerEnums ∧
            convertMessageType c d curPkg R outerEnums ≠ .error Crash.fuelExhausted) →
      ∀ fuel, d + 1 ≤ fuel →
        convertMessageType c fuel curPkg msg outerEnums =
          convertMessageType c (d + 1) curPkg msg outerEnums ∧
        convertMessageType c (d + 1) curPkg msg outerEnums ≠ .error Crash.fuelExhausted := by
    intro d msg h fuel hfuel
    obtain ⟨k, rfl⟩ : ∃ k, fuel = k + 1 := ⟨fuel - 1, by omega⟩
    have hk : d ≤ k := by omega
    constructor
    · show convertMessageTypeBody c (convertFieldBody c (convertMessageType c k)) curPkg msg
          outerEnums =
        convertMessageTypeBody c (convertFieldBody c (convertMessageType c d)) curPkg msg
          outerEnums
      unfold convertMessageTypeBody
      dsimp only
      apply convertMessageTypeLoop_congr
      intro f hf
      apply convertFieldBody_congr
      intro hty R hlk
      exact (h f hf hty R hlk k hk).1
    · show convertMessageTypeBody c (convertFieldBody c (convertMessageType c d)) curPkg msg
          outerEnums ≠ .error Crash.fuelExhausted
      unfold convertMessageTypeBody
      dsimp only
      apply convertMessageTypeLoop_not_exhausted
      intro f hf
      apply convertFieldBody_not_exhausted
      intro hty R hlk
      exact (h f hf hty R hlk d (Nat.le_refl d)).2
  intro d
  induction d with
  | zero =>
    intro msg hd
    apply hstep 0 msg
    intro f hf hty R hlk
    have hmem := mem_messageReferences c curPkg msg f R hf hty hlk
    unfold nestingDepthLE at hd
    rw [List.isEmpty_iff] at hd
    rw [hd] at hmem
    exact absurd hmem (List.not_mem_nil _)
  | succ d ih =>
    intro msg hd
    apply hstep (d + 1) msg
    intro f hf hty R hlk
    have hmem := mem_messageReferences c curPkg msg f R hf hty hlk
    unfold nestingDepthLE at hd
    rw [List.all_eq_true] at hd
    exact ih R (hd R hmem)

/-- Claim C15: when the message-reference relation from the message `M` is
acyclic with nesting depth at most `d`, `convertMessageType` on `M` terminates
and its mutual recursion with `convertField` goes no deeper than `d` levels
below `M`: with fuel for `d + 1` levels it does not run out of fuel, every
larger amount of fuel gives the same result, and the conversion of each field
of `M` stays within `d` levels. -/
theorem convertMessageType_depth_bounded (c : Converter) (curPkg : ProtoPackagePtr)
    (outerEnums : List EnumDescriptorProto) (d : Nat) (M : DescriptorProto)
    (hd : nestingDepthLE c curPkg d M = true) :
    (convertMessageType c (d + 1) curPkg M outerEnums ≠ .error Crash.fuelExhausted) ∧
    (∀ fuel, d + 1 ≤ fuel →
      convertMessageType c fuel curPkg M outerEnums =
        convertMessageType c (d + 1) curPkg M outerEnums) ∧
    (∀ f ∈ M.GetField, ∀ fuel, d ≤ fuel →
      convertField c fuel curPkg f M outerEnums = convertField c d curPkg f M outerEnums ∧
      convertField c d curPkg f M outerEnums ≠ .error Crash.fuelExhausted) := by
  refine ⟨(convertMessageType_fuel c curPkg outerEnums d M hd (d + 1) (Nat.le_refl _)).2,
    fun fuel hfuel => (convertMessageType_fuel c curPkg outerEnums d M hd fuel hfuel).1, ?_⟩
  intro f hf fuel hfuel
  have hrefs : (desc : FieldDescriptorProto) → desc = f →
      (desc.GetType = FieldDescriptorProto_TYPE_GROUP ∨
        desc.GetType = FieldDescriptorProto_TYPE_MESSAGE) →
      ∀ R, c.lookupType curPkg desc.GetTypeName = some R →
        convertMessageType c fuel curPkg R outerEnums =
          convertMessageType c d curPkg R outerEnums ∧
        convertMessageType c d curPkg R outerEnums ≠ .error Crash.fuelExhausted := by
    intro desc hdesc hty R hlk
    subst hdesc
    have hmem := mem_messageReferences c curPkg M desc R hf hty hlk
    cases d with
    | zero =>
      unfold nestingDepthLE at hd
      rw [List.isEmpty_iff] at hd
      rw [hd] at hmem
      exact absurd hmem (List.not_mem_nil _)
    | succ d0 =>
      unfold nestingDepthLE at hd
      rw [List.all_eq_true] at hd
      exact ⟨(convertMessageType_fuel c curPkg outerEnums d0 R (hd R hmem) fuel hfuel).1,
        (convertMessageType_fuel c curPkg outerEnums d0 R (hd R hmem) (d0 + 1)
          (Nat.le_refl _)).2⟩
  constructor
  · exact convertFieldBody_congr c _ _ curPkg f M outerEnums
      (fun hty R hlk => (hrefs f rfl hty R hlk).1)
  · exact convertFieldBody_not_exhausted c _ curPkg f M outerEnums
      (fun hty R hlk => (hrefs f rfl hty R hlk).2)

/-- Witness for C15: the message `Shape`, whose two fields refer to the message
`Point`, which refers to no message: nesting depth 1. -/
theorem convertMessageType_depth_bounded_witness :
    nestingDepthLE pointRegistryConverter 0 1 shapeMessage = true ∧
    nestingDepthLE pointRegistryConverter 0 0 shapeMessage = false ∧
    convertMessageType pointRegistryConverter 1 0 shapeMessage [] = .error Crash.fuelExhausted ∧
    convertMessageType pointRegistryConverter 2 0 shapeMessage [] ≠ .error Crash.fuelExhausted ∧
    convertMessageType pointRegistryConverter 7 0 shapeMessage [] =
      convertMessageType pointRegistryConverter 2 0 shapeMessage [] :=
  ⟨rfl, rfl, rfl,
   (convertMessageType_depth_bounded pointRegistryConverter 0 [] 1 shapeMessage rfl).1,
   (convertMessageType_depth_bounded pointRegistryConverter 0 [] 1 shapeMessage rfl).2.1 7
     (by decide)⟩

/-- The `switch` of `convertField` on a message or group field yields a node
of kind object without properties, item node and enum list. -/
theorem convertFieldSwitch_message (c : Converter) (desc : FieldDescriptorProto)
    (msg : DescriptorProto) (outerEnums : List EnumDescriptorProto)
    (hty : desc.GetType = FieldDescriptorProto_TYPE_GROUP ∨
      desc.GetType = FieldDescriptorProto_TYPE_MESSAGE) :
    ∃ t : JSONSchemaType, convertFieldSwitch c desc msg outerEnums JSONSchemaType.zero = some t ∧
      t.Type_ = TYPE_OBJECT ∧ t.Properties = [] ∧ t.Items = none := by
  have hsw : convertFieldSwitch c desc msg outerEnums JSONSchemaType.zero =
      some (if desc.GetLabel = FieldDescriptorProto_LABEL_REQUIRED then
          { (if desc.GetLabel = FieldDescriptorProto_LABEL_OPTIONAL then
              { ({ JSONSchemaType.zero with Type_ := TYPE_OBJECT } : JSONSchemaType) with
                AdditionalProperties := some "true" }
            else { JSONSchemaType.zero with Type_ := TYPE_OBJECT }) with
            AdditionalProperties := some "false" }
        else
          (if desc.GetLabel = FieldDescriptorProto_LABEL_OPTIONAL then
              { ({ JSONSchemaType.zero with Type_ := TYPE_OBJECT } : JSONSchemaType) with
                AdditionalProperties := some "true" }
            else { JSONSchemaType.zero with Type_ := TYPE_OBJECT })) := by
    unfold convertFieldSwitch
    rcases hty with h | h <;>
      simp [h, FieldDescriptorProto_TYPE_DOUBLE, FieldDescriptorProto_TYPE_FLOAT,
        FieldDescriptorProto_TYPE_INT32, FieldDescriptorProto_TYPE_UINT32,
        FieldDescriptorProto_TYPE_FIXED32, FieldDescriptorProto_TYPE_SFIXED32,
        FieldDescriptorProto_TYPE_SINT32, FieldDescriptorProto_TYPE_INT64,
        FieldDescriptorProto_TYPE_UINT64, FieldDescriptorProto_TYPE_FIXED64,
        FieldDescriptorProto_TYPE_SFIXED64, FieldDescriptorProto_TYPE_SINT64,
        FieldDescriptorProto_TYPE_STRING, FieldDescriptorProto_TYPE_BYTES,
        FieldDescriptorProto_TYPE_ENUM, FieldDescriptorProto_TYPE_BOOL,
        FieldDescriptorProto_TYPE_GROUP, FieldDescriptorProto_TYPE_MESSAGE]
  refine ⟨_, hsw, ?_⟩
  split_ifs <;> exact ⟨rfl, rfl, rfl⟩

/-- Function `convertField` on a message or group field whose type resolves:
what it returns is decided by the result of the recursive call. -/
theorem convertFieldBody_message (c : Converter)
    (rec : ProtoPackagePtr → DescriptorProto → List EnumDescriptorProto →
      Run (JSONSchemaType × Option String))
    (curPkg : ProtoPackagePtr) (desc : FieldDescriptorProto) (msg : DescriptorProto)
    (outerEnums : List EnumDescriptorProto) (R : DescriptorProto)
    (hty : desc.GetType = FieldDescriptorProto_TYPE_GROUP ∨
      desc.GetType = FieldDescriptorProto_TYPE_MESSAGE)
    (hlk : c.lookupType curPkg desc.GetTypeName = some R) :
    ∃ t : JSONSchemaType, t.Type_ = TYPE_OBJECT ∧ t.Properties = [] ∧ t.Items = none ∧
      convertFieldBody c rec curPkg desc msg outerEnums =
        match rec curPkg R outerEnums with
        | .error crash => .error crash
        | .ok (recursedJSONSchemaType, err) =>
          if err.isSome then .ok (none, err)
          else if GetMapEntry R.Options ∨
              desc.GetLabel = FieldDescriptorProto_LABEL_REPEATED then
            .ok (some { t with Items := some recursedJSONSchemaType, Type_ := TYPE_ARRAY }, none)
          else
            .ok (some { t with Properties := recursedJSONSchemaType.Properties }, none) := by
  obtain ⟨t, hsw, h1, h2, h3⟩ := convertFieldSwitch_message c desc msg outerEnums hty
  refine ⟨t, h1, h2, h3, ?_⟩
  unfold convertFieldBody
  dsimp only
  rw [zero_with_properties, hsw]
  dsimp only
  have hno : ¬ (desc.GetLabel = FieldDescriptorProto_LABEL_REPEATED ∧ t.Type_ ≠ TYPE_OBJECT) :=
    fun h => h.2 h1
  rw [if_neg hno, if_pos h1, hlk]

/-- Claim C16: for a message or group field whose type `lookupType` resolves
to `R`, when `convertMessageType` converts `R` to the node `N` without error:
if `R` is a map-entry type or the field is repeated, `convertField` returns a
node of kind array whose item node is `N`; otherwise it returns a node of kind
object whose property mapping is that of `N`. -/
theorem convertField_message_field (c : Converter) (fuel : Nat) (curPkg : ProtoPackagePtr)
    (desc : FieldDescriptorProto) (msg : DescriptorProto)
    (outerEnums : List EnumDescriptorProto) (R : DescriptorProto) (N : JSONSchemaType)
    (hty : desc.GetType = FieldDescriptorProto_TYPE_GROUP ∨
      desc.GetType = FieldDescriptorProto_TYPE_MESSAGE)
    (hlk : c.lookupType curPkg desc.GetTypeName = some R)
    (hR : convertMessageType c fuel curPkg R outerEnums = .ok (N, none)) :
    ((GetMapEntry R.Options = true ∨ desc.GetLabel = FieldDescriptorProto_LABEL_REPEATED) →
      ∃ node, convertField c fuel curPkg desc msg outerEnums = .ok (some node, none) ∧
        node.Type_ = TYPE_ARRAY ∧ node.Items = some N) ∧
    (¬ (GetMapEntry R.Options = true ∨ desc.GetLabel = FieldDescriptorProto_LABEL_REPEATED) →
      ∃ node, convertField c fuel curPkg desc msg outerEnums = .ok (some node, none) ∧
        node.Type_ = TYPE_OBJECT ∧ node.Properties = N.Properties ∧ node.Items = none) := by
  obtain ⟨t, h1, h2, h3, hbody⟩ :=
    convertFieldBody_message c (convertMessageType c fuel) curPkg desc msg outerEnums R hty hlk
  rw [hR] at hbody
  simp only [Option.isSome_none, Bool.false_eq_true, if_false] at hbody
  constructor
  · intro h
    rw [if_pos h] at hbody
    exact ⟨_, hbody, rfl, rfl⟩
  · intro h
    rw [if_neg h] at hbody
    exact ⟨_, hbody, h1, rfl, h3⟩

/-- Witness for C16: the optional field `origin` and the repeated field `path`
of the message `Shape`, both of the type `Point`. -/
theorem convertField_message_field_witness :
    (∃ node, convertField pointRegistryConverter 1 0 originField shapeMessage []
        = .ok (some node, none) ∧
      node.Type_ = "object" ∧
      node.Properties =
        [("x", { JSONSchemaType.zero with Type_ := "number", Order := 1 }),
         ("y", { JSONSchemaType.zero with Type_ := "number", Order := 2 })] ∧
      node.Items = none) ∧
    (∃ node, convertField pointRegistryConverter 1 0 pathField shapeMessage []
        = .ok (some node, none) ∧
      node.Type_ = "array" ∧
      node.Items = some
        { JSONSchemaType.zero with
          Version := Version, Type_ := "object", AdditionalProperties := some "true",
          Properties :=
            [("x", { JSONSchemaType.zero with Type_ := "number", Order := 1 }),
             ("y", { JSONSchemaType.zero with Type_ := "number", Order := 2 })] }) :=
  ⟨(convertField_message_field pointRegistryConverter 1 0 originField shapeMessage []
      pointMessage _ (Or.inr rfl) rfl rfl).2 (by decide),
   (convertField_message_field pointRegistryConverter 1 0 pathField shapeMessage []
      pointMessage _ (Or.inr rfl) rfl rfl).1 (Or.inr rfl)⟩

/-- Lower-casing a rune twice is lower-casing it once. -/
theorem toLowerRune_idem (c : Char) : toLowerRune (toLowerRune c) = toLowerRune c := by
  have hupper : ∀ n : Nat, 65 ≤ n → n ≤ 90 →
      toLowerRune (Char.ofNat (n + 32)) = Char.ofNat (n + 32) := by
    intro n a b
    interval_cases n <;> decide
  by_cases h1 : c.toNat = 0x212A
  · have : toLowerRune c = 'k' := by unfold toLowerRune; rw [if_pos h1]
    rw [this]; decide
  · by_cases h2 : c.toNat = 0x130
    · have : toLowerRune c = 'i' := by unfold toLowerRune; rw [if_neg h1, if_pos h2]
      rw [this]; decide
    · have hc : toLowerRune c = c.toLower := by unfold toLowerRune; rw [if_neg h1, if_neg h2]
      rw [hc]
      unfold Char.toLower
      dsimp only
      by_cases h3 : c.toNat ≥ 65 ∧ c.toNat ≤ 90
      · rw [if_pos h3]
        exact hupper c.toNat h3.1 h3.2
      · rw [if_neg h3, hc]
        unfold Char.toLower
        dsimp only
        rw [if_neg h3]

/-- Lower-casing a string twice is lower-casing it once. -/
theorem ToLower_idem (s : String) : ToLower (ToLower s) = ToLower s := by
  unfold ToLower
  simp only [List.map_map]
  congr 1
  apply List.map_congr_left
  intro c _
  exact toLowerRune_idem c

/-- Reading a key after an assignment. -/
theorem mapGet_mapSet {V : Type} (m : List (String × V)) (k k2 : String) (v : V) :
    mapGet (mapSet m k v) k2 = if k = k2 then some v else mapGet m k2 := by
  by_cases h : k = k2
  · rw [if_pos h, ← h]; exact mapGet_mapSet_same k v m
  · rw [if_neg h]; exact mapGet_mapSet_other k k2 v (fun e => h e.symm) m

/-- The loop body of `getComments` on one fragment, in the words of the
specification. -/
theorem getCommentsTagWith_eq (lower : Char → Char) (ret : List (String × String))
    (f : String) :
    getCommentsTagWith lower ret f =
      if Contains f "//" = true then ret
      else match specDirective lower (TrimSpace f) with
        | some kv => mapSet ret kv.1 kv.2
        | none => ret := by
  unfold getCommentsTagWith specDirective
  by_cases h : Contains f "//" = true
  · simp only [h, if_true]
  · simp only [h, if_false, Bool.false_eq_true]
    generalize Split (TrimSpace f) '=' = l
    rcases l with _ | ⟨a, _ | ⟨b, _ | ⟨c, r⟩⟩⟩ <;> rfl

/-- The inner loop of `getComments` stores the contributions of the fragments
one after the other. -/
theorem foldl_getCommentsTagWith (lower : Char → Char) :
    ∀ (frags : List String) (ret : List (String × String)),
      frags.foldl (getCommentsTagWith lower) ret =
        (((frags.filter (fun fragment => !(Contains fragment "//"))).map TrimSpace).filterMap
          (specDirective lower)).foldl (fun m kv => mapSet m kv.1 kv.2) ret := by
  intro frags
  induction frags with
  | nil => intro ret; rfl
  | cons f rest ih =>
    intro ret
    rw [List.foldl_cons, ih, getCommentsTagWith_eq]
    by_cases h : Contains f "//" = true
    · simp only [h, if_true, List.filter_cons, Bool.not_true, Bool.false_eq_true, if_false]
    · have h2 : Contains f "//" = false := by simpa using h
      simp only [h2, Bool.false_eq_true, if_false, List.filter_cons, Bool.not_false, if_true,
        List.map_cons, List.filterMap_cons]
      cases specDirective lower (TrimSpace f) with
      | none => rfl
      | some kv => rfl

/-- The two nested loops of `getComments` are one loop over all fragments. -/
theorem foldl_lines_getCommentsTagWith (lower : Char → Char) :
    ∀ (lines : List String) (ret : List (String × String)),
      lines.foldl (fun ret v => (Split v '@').foldl (getCommentsTagWith lower) ret) ret =
        (lines.flatMap (fun line => Split line '@')).foldl (getCommentsTagWith lower) ret := by
  intro lines
  induction lines with
  | nil => intro ret; rfl
  | cons l rest ih =>
    intro ret
    rw [List.foldl_cons, ih, List.flatMap_cons, List.foldl_append]

/-- Function `getComments` stores the contributions of the specification one
after the other. -/
theorem getCommentsWith_eq_fold (lower : Char → Char) (sl : SourceCodeInfo_Location) :
    getCommentsWith lower sl =
      (specContributions lower sl).foldl (fun m kv => mapSet m kv.1 kv.2) [] := by
  unfold getCommentsWith specContributions nonBlankTrimmed
  dsimp only
  rw [foldl_lines_getCommentsTagWith, foldl_getCommentsTagWith]

/-- The functions `getComments` and `ToLower` are `getCommentsWith` and
`ToLowerWith` at the table `toLowerRune`. -/
theorem getComments_at_toLowerRune (sl : SourceCodeInfo_Location) (s : String) :
    getComments sl = getCommentsWith toLowerRune sl ∧ ToLower s = ToLowerWith toLowerRune s :=
  ⟨rfl, rfl⟩

/-- Function `getComments` stores the contributions of the specification one
after the other. -/
theorem getComments_eq_fold (sl : SourceCodeInfo_Location) :
    getComments sl =
      (specContributions toLowerRune sl).foldl (fun m kv => mapSet m kv.1 kv.2) [] := by
  rw [(getComments_at_toLowerRune sl "").1]
  exact getCommentsWith_eq_fold toLowerRune sl

/-- After storing contributions one after the other, a key holds the value of
the last contribution with that key, or what it held before. -/
theorem mapGet_foldl_mapSet (k : String) :
    ∀ (l : List (String × String)) (m : List (String × String)),
      mapGet (l.foldl (fun m kv => mapSet m kv.1 kv.2) m) k =
        match lastContribution l k with
        | some v => some v
        | none => mapGet m k := by
  intro l
  induction l using List.reverseRecOn with
  | nil => intro m; rfl
  | append_singleton l x ih =>
    intro m
    rw [List.foldl_append, List.foldl_cons, List.foldl_nil, mapGet_mapSet]
    unfold lastContribution at ih ⊢
    rw [List.reverse_append, List.reverse_singleton, List.singleton_append, List.find?_cons]
    by_cases h : x.1 = k
    · simp [h]
    · have hb : (x.1 == k) = false := by simpa using h
      rw [if_neg h, hb]
      exact ih m

/-- Every key that `mapSet` leaves in a map was there or is the key set. -/
theorem mapKeys_foldl_mapSet (P : String → Prop) :
    ∀ (l : List (String × String)) (m : List (String × String)),
      (∀ k ∈ mapKeys m, P k) → (∀ kv ∈ l, P kv.1) →
      ∀ k ∈ mapKeys (l.foldl (fun m kv => mapSet m kv.1 kv.2) m), P k := by
  intro l
  induction l with
  | nil => intro m hm _ k hk; exact hm k hk
  | cons x rest ih =>
    intro m hm hl
    rw [List.foldl_cons]
    apply ih
    · intro k hk
      rcases (mem_mapKeys_mapSet x.1 k x.2 m).mp hk with h | h
      · rw [h]; exact hl x (List.mem_cons_self _ _)
      · exact hm k h
    · exact fun kv hkv => hl kv (List.mem_cons_of_mem _ hkv)

/-- The key of a directive of the specification is the lower case of a
text. -/
theorem specDirective_key (lower : Char → Char) (f : String) (kv : String × String)
    (h : specDirective lower f = some kv) : ∃ text : String, kv.1 = ToLowerWith lower text := by
  unfold specDirective at h
  generalize Split f '=' = l at h
  rcases l with _ | ⟨a, _ | ⟨b, _ | ⟨c, r⟩⟩⟩
  · simp at h
  · simp only [Option.some.injEq] at h
    rw [← h]; exact ⟨a, rfl⟩
  · simp only [Option.some.injEq] at h
    rw [← h]; exact ⟨a, rfl⟩
  · simp at h

/-- Every key of the mapping that `getComments` returns is the lower case of a
text. -/
theorem getCommentsWith_keys (lower : Char → Char) (sl : SourceCodeInfo_Location) :
    ∀ k ∈ mapKeys (getCommentsWith lower sl), ∃ text : String, k = ToLowerWith lower text := by
  rw [getCommentsWith_eq_fold]
  apply mapKeys_foldl_mapSet (fun k => ∃ text : String, k = ToLowerWith lower text)
  · intro k hk; simp [mapKeys] at hk
  · intro kv hkv
    unfold specContributions at hkv
    dsimp only at hkv
    obtain ⟨f, _, hf⟩ := List.mem_filterMap.mp hkv
    exact specDirective_key lower f kv hf

/-- Lower-casing a string twice is lower-casing it once, when that holds of
every rune. -/
theorem ToLowerWith_idem (lower : Char → Char) (hidem : ∀ r : Char, lower (lower r) = lower r)
    (s : String) : ToLowerWith lower (ToLowerWith lower s) = ToLowerWith lower s := by
  unfold ToLowerWith
  simp only [List.map_map]
  congr 1
  apply List.map_congr_left
  intro c _
  exact hidem c

/-- Every key of the mapping that `getComments` returns is lower-case. -/
theorem getComments_reference_keys (sl : SourceCodeInfo_Location) :
    ∀ k ∈ mapKeys (getComments sl), ToLower k = k := by
  intro k hk
  rw [(getComments_at_toLowerRune sl "").1] at hk
  obtain ⟨text, hkey⟩ := getCommentsWith_keys toLowerRune sl k hk
  rw [hkey]
  exact ToLowerWith_idem toLowerRune toLowerRune_idem text

/-- The example table `latin1ToLower` lower-cases a rune twice as it does
once. -/
theorem latin1ToLower_idem (r : Char) : latin1ToLower (latin1ToLower r) = latin1ToLower r := by
  have hup : ∀ n : Nat, ((0x41 ≤ n ∧ n ≤ 0x5A) ∨ (0xC0 ≤ n ∧ n ≤ 0xDE ∧ n ≠ 0xD7)) →
      latin1ToLower (Char.ofNat (n + 32)) = Char.ofNat (n + 32) := by
    intro n hn
    have hn2 : n ≤ 0xDE := by omega
    interval_cases n <;> first | decide | (exfalso; omega)
  by_cases h : (0x41 ≤ r.toNat ∧ r.toNat ≤ 0x5A) ∨
      (0xC0 ≤ r.toNat ∧ r.toNat ≤ 0xDE ∧ r.toNat ≠ 0xD7)
  · have hr : latin1ToLower r = Char.ofNat (r.toNat + 32) := by
      unfold latin1ToLower; rw [if_pos h]
    rw [hr]
    exact hup r.toNat h
  · have hr : latin1ToLower r = r := by
      unfold latin1ToLower; rw [if_neg h]
    rw [hr, hr]

/-- Claim C17: `getComments` is the reference definition, for every string and
whatever the table `lower` of `unicode.ToLower` holds: the mapping it returns
sends each key to the value of the last contribution with that key among the
contributions that the specification lists (and holds no other key); every
key of the mapping is the lower case of a text; and, the lower case of a rune
being its own lower case, every key of the mapping is its own lower case. -/
theorem getComments_reference (lower : Char → Char) (sl : SourceCodeInfo_Location) :
    (∀ k, mapGet (getCommentsWith lower sl) k =
      lastContribution (specContributions lower sl) k) ∧
    (∀ k ∈ mapKeys (getCommentsWith lower sl), ∃ text : String, k = ToLowerWith lower text) ∧
    ((∀ r : Char, lower (lower r) = lower r) →
      ∀ k ∈ mapKeys (getCommentsWith lower sl), ToLowerWith lower k = k) := by
  refine ⟨fun k => ?_, getCommentsWith_keys lower sl, fun hidem k hk => ?_⟩
  · rw [getCommentsWith_eq_fold, mapGet_foldl_mapSet]
    cases lastContribution (specContributions lower sl) k <;> rfl
  · obtain ⟨text, hkey⟩ := getCommentsWith_keys lower sl k hk
    rw [hkey]
    exact ToLowerWith_idem lower hidem text

/-- Witness for C17: the comment `@É=1 @é=2`, with a table that lower-cases
the Latin-1 capitals: the result holds the key `é` once, with the value of the
last fragment, and every key is its own lower case. -/
theorem getComments_reference_witness :
    getCommentsWith latin1ToLower accentLocation = [("", "true"), ("é", "2")] ∧
    mapGet (getCommentsWith latin1ToLower accentLocation) "é" =
      lastContribution (specContributions latin1ToLower accentLocation) "é" ∧
    lastContribution (specContributions latin1ToLower accentLocation) "é" = some "2" ∧
    ∀ k ∈ mapKeys (getCommentsWith latin1ToLower accentLocation), ToLowerWith latin1ToLower k = k :=
  ⟨by decide,
   (getComments_reference latin1ToLower accentLocation).1 "é",
   by decide,
   (getComments_reference latin1ToLower accentLocation).2.2 latin1ToLower_idem⟩

/-- Examples for C17: a later line overwrites an earlier value of the same
key, a fragment with two `=` and a fragment with `//` contribute nothing, and
keys are lower-cased. -/
theorem getComments_examples :
    getCommentsWith latin1ToLower
        { LeadingComments := some " @Min=1 @a=b=c\n @min=2 @x //y @Required",
          TrailingComments := some " @ID ", LeadingDetachedComments := [" @fmt=date "] }
      = [("", "true"), ("fmt", "date"), ("min", "2"), ("required", "true"), ("id", "true")] ∧
    getComments
        { LeadingComments := some " @Min=1 @a=b=c\n @min=2 @x //y @Required",
          TrailingComments := some " @ID ", LeadingDetachedComments := [" @fmt=date "] }
      = [("", "true"), ("fmt", "date"), ("min", "2"), ("required", "true"), ("id", "true")] := by
  decide

/-- A directive `min` or `max` whose value is no integer changes nothing. -/
theorem applyDirective_malformed (t : JSONSchemaType) (k v : String)
    (hk : ToLower k = "min" ∨ ToLower k = "max") (hv : Atoi v = none) :
    applyDirective t (k, v) = t := by
  unfold applyDirective
  rcases hk with hk | hk <;> simp [hk, hv]

/-- A choice between two nodes that agree with `t` on two attributes agrees
with `t` on them. -/
theorem ite_proj2 {α β : Type} (f : JSONSchemaType → α) (g : JSONSchemaType → β)
    (t : JSONSchemaType) (p : Prop) [Decidable p] (u v : JSONSchemaType)
    (hu : f u = f t ∧ g u = g t) (hv : f v = f t ∧ g v = g t) :
    f (if p then u else v) = f t ∧ g (if p then u else v) = g t := by
  by_cases h : p
  · rw [if_pos h]; exact hu
  · rw [if_neg h]; exact hv

/-- A directive other than a well-formed `min` leaves minimum and minLength as
they are. -/
theorem applyDirective_min_frame (t : JSONSchemaType) (kv : String × String)
    (h : ToLower kv.1 = "min" → Atoi kv.2 = none) :
    (applyDirective t kv).Minimum = t.Minimum ∧ (applyDirective t kv).MinLength = t.MinLength := by
  unfold applyDirective
  dsimp only
  cases hA : Atoi kv.2 with
  | none =>
    dsimp only
    repeat (first | exact ⟨rfl, rfl⟩ | apply ite_proj2 JSONSchemaType.Minimum JSONSchemaType.MinLength)
  | some l =>
    have hne : ¬ ToLower kv.1 = "min" := fun e => by rw [h e] at hA; simp at hA
    dsimp only
    rw [if_neg hne]
    repeat (first | exact ⟨rfl, rfl⟩ | apply ite_proj2 JSONSchemaType.Minimum JSONSchemaType.MinLength)

/-- A directive other than a well-formed `max` leaves maximum and maxLength as
they are. -/
theorem applyDirective_max_frame (t : JSONSchemaType) (kv : String × String)
    (h : ToLower kv.1 = "max" → Atoi kv.2 = none) :
    (applyDirective t kv).Maximum = t.Maximum ∧ (applyDirective t kv).MaxLength = t.MaxLength := by
  unfold applyDirective
  dsimp only
  cases hA : Atoi kv.2 with
  | none =>
    dsimp only
    repeat (first | exact ⟨rfl, rfl⟩ | apply ite_proj2 JSONSchemaType.Maximum JSONSchemaType.MaxLength)
  | some l =>
    have hne : ¬ ToLower kv.1 = "max" := fun e => by rw [h e] at hA; simp at hA
    dsimp only
    rw [if_neg hne]
    repeat (first | exact ⟨rfl, rfl⟩ | apply ite_proj2 JSONSchemaType.Maximum JSONSchemaType.MaxLength)

/-- An assignment keeps the keys of a map distinct. -/
theorem mapKeys_nodup_mapSet {V : Type} (k : String) (v : V) :
    ∀ m : List (String × V), (mapKeys m).Nodup → (mapKeys (mapSet m k v)).Nodup := by
  intro m
  induction m with
  | nil => intro _; simp [mapSet, mapKeys]
  | cons e r ih =>
    obtain ⟨k1, v1⟩ := e
    intro h
    have h' : k1 ∉ mapKeys r ∧ (mapKeys r).Nodup := by
      simpa [mapKeys] using h
    by_cases hk : k1 = k
    · simp only [mapSet, if_pos hk]
      simpa [mapKeys] using h
    · simp only [mapSet, if_neg hk]
      have hnot : k1 ∉ mapKeys (mapSet r k v) := by
        intro hmem
        rcases (mem_mapKeys_mapSet k k1 v r).mp hmem with e | e
        · exact hk e
        · exact h'.1 e
      have hnd := ih h'.2
      simp only [mapKeys, List.map_cons, List.nodup_cons]
      exact ⟨hnot, hnd⟩

/-- In a map with distinct keys, an entry is what its key reads. -/
theorem mapGet_of_mem {V : Type} (k : String) (v : V) :
    ∀ m : List (String × V), (mapKeys m).Nodup → (k, v) ∈ m → mapGet m k = some v := by
  intro m
  induction m with
  | nil => intro _ h; simp at h
  | cons e r ih =>
    obtain ⟨k1, v1⟩ := e
    intro hnd hmem
    have h' : k1 ∉ mapKeys r ∧ (mapKeys r).Nodup := by
      simpa [mapKeys] using hnd
    rcases List.mem_cons.mp hmem with h | h
    · simp only [Prod.mk.injEq] at h
      simp [mapGet, h.1, h.2]
    · have hne : k1 ≠ k := by
        intro e
        apply h'.1
        rw [e]
        exact List.mem_map.mpr ⟨(k, v), h, rfl⟩
      simp only [mapGet, if_neg hne]
      exact ih h'.2 h

/-- The keys of the mapping that `getComments` returns are distinct. -/
theorem getComments_nodup (sl : SourceCodeInfo_Location) : (mapKeys (getComments sl)).Nodup := by
  rw [getComments_eq_fold]
  have : ∀ (l m : List (String × String)), (mapKeys m).Nodup →
      (mapKeys (l.foldl (fun m kv => mapSet m kv.1 kv.2) m)).Nodup := by
    intro l
    induction l with
    | nil => intro m h; exact h
    | cons x rest ih => intro m h; exact ih _ (mapKeys_nodup_mapSet x.1 x.2 m h)
  exact this _ [] (by simp [mapKeys])

/-- The loop of `fillJSONSchemaType` leaves two attributes as they are when
every directive does. -/
theorem foldl_applyDirective_frame {α β : Type} (f : JSONSchemaType → α)
    (g : JSONSchemaType → β) :
    ∀ (visited : List (String × String)) (t : JSONSchemaType),
      (∀ kv ∈ visited, ∀ u : JSONSchemaType,
        f (applyDirective u kv) = f u ∧ g (applyDirective u kv) = g u) →
      f (visited.foldl applyDirective t) = f t ∧ g (visited.foldl applyDirective t) = g t := by
  intro visited
  induction visited with
  | nil => intro t _; exact ⟨rfl, rfl⟩
  | cons kv rest ih =>
    intro t h
    rw [List.foldl_cons]
    obtain ⟨a1, a2⟩ := h kv (List.mem_cons_self _ _) t
    obtain ⟨b1, b2⟩ := ih (applyDirective t kv) (fun x hx => h x (List.mem_cons_of_mem _ hx))
    exact ⟨b1.trans a1, b2.trans a2⟩

/-- In the mapping of `getComments`, the only entry whose lower-cased key is
`k` is the entry of `k` itself. -/
theorem getComments_entry (sl : SourceCodeInfo_Location) (k v : String)
    (hget : mapGet (getComments sl) k = some v) (kv : String × String)
    (hmem : kv ∈ getComments sl) (hkey : ToLower kv.1 = k) : kv.2 = v := by
  have hlow : ToLower kv.1 = kv.1 :=
    (getComments_reference_keys sl) kv.1 (List.mem_map.mpr ⟨kv, hmem, rfl⟩)
  rw [hlow] at hkey
  have := mapGet_of_mem kv.1 kv.2 (getComments sl) (getComments_nodup sl) hmem
  rw [hkey, hget] at this
  exact (Option.some.inj this).symm

/-- Claim C14: a malformed numeric directive is ignored without error.  For
every node, in whatever order the directives are visited: a directive `min`
(or `max`) whose value `strconv.Atoi` does not read can be removed from the
directives without changing the node that `fillJSONSchemaType` returns; and
when the mapping of `getComments` holds such a `min` (or `max`), minimum and
minLength (or maximum and maxLength) of the node returned are those of the
node given. -/
theorem fillJSONSchemaType_malformed_ignored (name : String) (t : JSONSchemaType) :
    (∀ (pre post : List (String × String)) (k v : String),
      (ToLower k = "min" ∨ ToLower k = "max") → Atoi v = none →
      fillJSONSchemaTypeVisiting (pre ++ (k, v) :: post) name t =
        fillJSONSchemaTypeVisiting (pre ++ post) name t) ∧
    (∀ (c : Converter) (sl : SourceCodeInfo_Location) (v : String),
      mapGet (getComments sl) "min" = some v → Atoi v = none →
      (fillJSONSchemaType c sl name t).Minimum = t.Minimum ∧
      (fillJSONSchemaType c sl name t).MinLength = t.MinLength) ∧
    (∀ (c : Converter) (sl : SourceCodeInfo_Location) (v : String),
      mapGet (getComments sl) "max" = some v → Atoi v = none →
      (fillJSONSchemaType c sl name t).Maximum = t.Maximum ∧
      (fillJSONSchemaType c sl name t).MaxLength = t.MaxLength) := by
  have htitle : ∀ {α β : Type} (f : JSONSchemaType → α) (g : JSONSchemaType → β)
      (u : JSONSchemaType),
      (∀ w : JSONSchemaType, f { w with Title := ToSplitCase name } = f w ∧
        g { w with Title := ToSplitCase name } = g w) →
      f (if u.Title.length = 0 then { u with Title := ToSplitCase name } else u) = f u ∧
      g (if u.Title.length = 0 then { u with Title := ToSplitCase name } else u) = g u := by
    intro α β f g u h
    by_cases hl : u.Title.length = 0
    · rw [if_pos hl]; exact h u
    · rw [if_neg hl]; exact ⟨rfl, rfl⟩
  refine ⟨fun pre post k v hk hv => ?_, fun c sl v hget hv => ?_, fun c sl v hget hv => ?_⟩
  · unfold fillJSONSchemaTypeVisiting
    rw [List.foldl_append, List.foldl_cons, applyDirective_malformed _ k v hk hv,
      List.foldl_append]
  · have hall : ∀ kv ∈ c.rangeOrder.visit (getComments sl), ∀ u : JSONSchemaType,
        (applyDirective u kv).Minimum = u.Minimum ∧
        (applyDirective u kv).MinLength = u.MinLength := by
      intro kv hkv u
      apply applyDirective_min_frame
      intro hkey
      have hmem : kv ∈ getComments sl := (c.rangeOrder.perm (getComments sl)).subset hkv
      rw [getComments_entry sl "min" v hget kv hmem hkey]
      exact hv
    obtain ⟨a1, a2⟩ := foldl_applyDirective_frame JSONSchemaType.Minimum
      JSONSchemaType.MinLength _ t hall
    obtain ⟨b1, b2⟩ := htitle JSONSchemaType.Minimum JSONSchemaType.MinLength
      ((c.rangeOrder.visit (getComments sl)).foldl applyDirective t) (fun _ => ⟨rfl, rfl⟩)
    exact ⟨b1.trans a1, b2.trans a2⟩
  · have hall : ∀ kv ∈ c.rangeOrder.visit (getComments sl), ∀ u : JSONSchemaType,
        (applyDirective u kv).Maximum = u.Maximum ∧
        (applyDirective u kv).MaxLength = u.MaxLength := by
      intro kv hkv u
      apply applyDirective_max_frame
      intro hkey
      have hmem : kv ∈ getComments sl := (c.rangeOrder.perm (getComments sl)).subset hkv
      rw [getComments_entry sl "max" v hget kv hmem hkey]
      exact hv
    obtain ⟨a1, a2⟩ := foldl_applyDirective_frame JSONSchemaType.Maximum
      JSONSchemaType.MaxLength _ t hall
    obtain ⟨b1, b2⟩ := htitle JSONSchemaType.Maximum JSONSchemaType.MaxLength
      ((c.rangeOrder.visit (getComments sl)).foldl applyDirective t) (fun _ => ⟨rfl, rfl⟩)
    exact ⟨b1.trans a1, b2.trans a2⟩

/-- Witness for C14: the comment ` @min=three @pattern=x @max=1.5` on an
integer node with minimum 4 and maximum 9. -/
theorem fillJSONSchemaType_malformed_ignored_witness :
    (fillJSONSchemaTypeVisiting ([] ++ ("min", "three") :: [("pattern", "x")]) "f"
        { JSONSchemaType.zero with Type_ := "integer", Minimum := 4, Maximum := 9 } =
      fillJSONSchemaTypeVisiting ([] ++ [("pattern", "x")]) "f"
        { JSONSchemaType.zero with Type_ := "integer", Minimum := 4, Maximum := 9 }) ∧
    ((fillJSONSchemaType reversedConverter malformedLocation "f"
        { JSONSchemaType.zero with Type_ := "integer", Minimum := 4, Maximum := 9 }).Minimum = 4 ∧
      (fillJSONSchemaType reversedConverter malformedLocation "f"
        { JSONSchemaType.zero with Type_ := "integer", Minimum := 4, Maximum := 9 }).MinLength
          = 0) ∧
    ((fillJSONSchemaType reversedConverter malformedLocation "f"
        { JSONSchemaType.zero with Type_ := "integer", Minimum := 4, Maximum := 9 }).Maximum = 9 ∧
      (fillJSONSchemaType reversedConverter malformedLocation "f"
        { JSONSchemaType.zero with Type_ := "integer", Minimum := 4, Maximum := 9 }).MaxLength
          = 0) :=
  ⟨(fillJSONSchemaType_malformed_ignored "f"
      { JSONSchemaType.zero with Type_ := "integer", Minimum := 4, Maximum := 9 }).1
      [] [("pattern", "x")] "min" "three" (Or.inl (by decide)) (by decide),
   (fillJSONSchemaType_malformed_ignored "f"
      { JSONSchemaType.zero with Type_ := "integer", Minimum := 4, Maximum := 9 }).2.1
      reversedConverter malformedLocation "three" (by decide) (by decide),
   (fillJSONSchemaType_malformed_ignored "f"
      { JSONSchemaType.zero with Type_ := "integer", Minimum := 4, Maximum := 9 }).2.2
      reversedConverter malformedLocation "1.5" (by decide) (by decide)⟩

/-- No piece of a split holds the separator. -/
theorem splitChars_pieces (sep : Char) :
    ∀ (l : List Char), ∀ piece ∈ splitChars sep l, sep ∉ piece := by
  intro l
  induction l with
  | nil => intro piece h; simp [splitChars] at h; subst h; simp
  | cons c cs ih =>
    intro piece h
    rw [splitChars_cons] at h
    cases hs : splitChars sep cs with
    | nil => exact absurd hs (splitChars_ne_nil sep cs)
    | cons a b =>
      rw [hs] at h ih
      by_cases hc : c = sep
      · simp only [if_pos hc, List.mem_cons] at h
        rcases h with h | h | h
        · subst h; simp
        · rw [h]; exact ih a (List.mem_cons_self _ _)
        · exact ih piece (List.mem_cons_of_mem _ h)
      · simp only [if_neg hc, List.mem_cons] at h
        rcases h with h | h
        · subst h
          intro hmem
          rcases List.mem_cons.mp hmem with h1 | h1
          · exact hc h1.symm
          · exact ih a (List.mem_cons_self _ _) h1
        · exact ih piece (List.mem_cons_of_mem _ h)

/-- The example table `latin1ToUpper` yields an underscore for no other rune. -/
theorem latin1ToUpper_ne_underscore (c : Char) (h : c ≠ '_') : latin1ToUpper c ≠ '_' := by
  unfold latin1ToUpper
  split_ifs with h1
  · have key : ∀ n : Nat, ((0x61 ≤ n ∧ n ≤ 0x7A) ∨ (0xE0 ≤ n ∧ n ≤ 0xFE ∧ n ≠ 0xF7)) →
        Char.ofNat (n - 32) ≠ '_' := by
      intro n hn
      have hn2 : n ≤ 0xFE := by omega
      interval_cases n <;> first | decide | (exfalso; omega)
    exact key c.toNat h1
  · exact h

/-- The loop of `ToCamelCase` on words that are all non-empty. -/
theorem ToCamelCaseLoop_ok (toUpper : Char → Char) :
    ∀ (ws : List String) (acc : String), (∀ w ∈ ws, w ≠ "") →
      ToCamelCaseLoop toUpper ws acc =
        some ((ws.map (capitalized toUpper)).foldl (fun r w => r ++ w) acc) := by
  intro ws
  induction ws with
  | nil => intro acc _; rfl
  | cons w rest ih =>
    intro acc h
    have hw : w ≠ "" := h w (List.mem_cons_self _ _)
    unfold ToCamelCaseLoop
    have hword : ToCamelCaseWord toUpper w = some (capitalized toUpper w) := by
      unfold ToCamelCaseWord capitalized
      cases hd : w.data with
      | nil => exact absurd (String.ext hd) hw
      | cons c cs => rfl
    rw [hword]
    simp only [List.map_cons, List.foldl_cons]
    exact ih _ (fun x hx => h x (List.mem_cons_of_mem _ hx))

/-- The loop of `ToCamelCase` stops with the panic at an empty word. -/
theorem ToCamelCaseLoop_panic (toUpper : Char → Char) :
    ∀ (ws : List String) (acc : String), (∃ w ∈ ws, w = "") →
      ToCamelCaseLoop toUpper ws acc = none := by
  intro ws
  induction ws with
  | nil => intro acc h; obtain ⟨w, hw, _⟩ := h; simp at hw
  | cons w rest ih =>
    intro acc h
    unfold ToCamelCaseLoop
    cases hword : ToCamelCaseWord toUpper w with
    | none => rfl
    | some v =>
      simp only
      apply ih
      obtain ⟨x, hx, hx0⟩ := h
      rcases List.mem_cons.mp hx with rfl | hx
      · subst hx0
        simp [ToCamelCaseWord] at hword
      · exact ⟨x, hx, hx0⟩

/-- The characters of a concatenation of strings. -/
theorem foldl_append_data :
    ∀ (l : List String) (acc : String),
      (l.foldl (fun r w => r ++ w) acc).data = acc.data ++ (l.map String.data).flatten := by
  intro l
  induction l with
  | nil => intro acc; simp
  | cons w rest ih =>
    intro acc
    rw [List.foldl_cons, ih]
    simp [String.data_append]

/-- Claim C20, for every string and whatever the table `toUpper` of
`unicode.ToUpper` holds: `ToCamelCase` returns a result exactly for the
strings all of whose underscore-separated segments are non-empty; for such a
string the result is the concatenation of the segments, each with its first
character upper-cased and the rest unchanged, and, no other rune but the
underscore having the underscore as its upper case, it holds no underscore;
for a string with an empty segment it stops with the index-out-of-range
panic. -/
theorem ToCamelCase_segments (toUpper : Char → Char) (s : String) :
    ((ToCamelCase toUpper s).isSome = true ↔ ∀ w ∈ Split s '_', w ≠ "") ∧
    ((∀ w ∈ Split s '_', w ≠ "") →
      ToCamelCase toUpper s =
        some (((Split s '_').map (capitalized toUpper)).foldl (fun r w => r ++ w) "") ∧
      ((∀ r : Char, r ≠ '_' → toUpper r ≠ '_') →
        '_' ∉ (((Split s '_').map (capitalized toUpper)).foldl (fun r w => r ++ w) "").data)) ∧
    ((∃ w ∈ Split s '_', w = "") → ToCamelCase toUpper s = none) := by
  have hok : (∀ w ∈ Split s '_', w ≠ "") →
      ToCamelCase toUpper s =
        some (((Split s '_').map (capitalized toUpper)).foldl (fun r w => r ++ w) "") :=
    fun h => ToCamelCaseLoop_ok toUpper _ "" h
  have hbad : (∃ w ∈ Split s '_', w = "") → ToCamelCase toUpper s = none :=
    fun h => ToCamelCaseLoop_panic toUpper _ "" h
  refine ⟨⟨fun h => ?_, fun h => by rw [hok h]; rfl⟩, fun h => ⟨hok h, fun hup => ?_⟩, hbad⟩
  · by_contra hne
    push_neg at hne
    rw [hbad hne] at h
    simp at h
  · rw [foldl_append_data]
    have hempty : ("" : String).data = [] := rfl
    simp only [hempty, List.nil_append, List.mem_flatten, List.mem_map, not_exists,
      not_and]
    rintro piece ⟨w, ⟨seg, hseg, rfl⟩, rfl⟩ hmem
    have hsegne : seg ≠ "" := h seg hseg
    have hclean : '_' ∉ seg.data := by
      unfold Split at hseg
      obtain ⟨p, hp, rfl⟩ := List.mem_map.mp hseg
      exact splitChars_pieces '_' s.data p hp
    unfold capitalized at hmem
    cases hd : seg.data with
    | nil => exact absurd (String.ext hd) hsegne
    | cons c cs =>
      rw [hd] at hmem hclean
      simp only [List.mem_cons] at hmem
      rcases hmem with h1 | h1
      · exact hup c (fun e => hclean (e ▸ List.mem_cons_self _ _)) h1.symm
      · exact hclean (List.mem_cons_of_mem _ h1)

/-- Witness for C20, with a table that upper-cases the ASCII and the Latin-1
small letters: `foo_bar` becomes `FooBar` and `über_öl` becomes `ÜberÖl`,
neither with an underscore; the empty string, a leading or trailing underscore
and two consecutive underscores panic. -/
theorem ToCamelCase_segments_witness :
    (ToCamelCase latin1ToUpper "foo_bar" = some "FooBar" ∧ '_' ∉ "FooBar".data) ∧
    (ToCamelCase latin1ToUpper "über_öl" = some "ÜberÖl" ∧ '_' ∉ "ÜberÖl".data) ∧
    ToCamelCase latin1ToUpper "" = none ∧ ToCamelCase latin1ToUpper "_a" = none ∧
    ToCamelCase latin1ToUpper "a_" = none ∧ ToCamelCase latin1ToUpper "a__b" = none :=
  ⟨⟨((ToCamelCase_segments latin1ToUpper "foo_bar").2.1 (by decide)).1,
    ((ToCamelCase_segments latin1ToUpper "foo_bar").2.1 (by decide)).2
      latin1ToUpper_ne_underscore⟩,
   ⟨((ToCamelCase_segments latin1ToUpper "über_öl").2.1 (by decide)).1,
    ((ToCamelCase_segments latin1ToUpper "über_öl").2.1 (by decide)).2
      latin1ToUpper_ne_underscore⟩,
   (ToCamelCase_segments latin1ToUpper "").2.2 (by decide),
   (ToCamelCase_segments latin1ToUpper "_a").2.2 (by decide),
   (ToCamelCase_segments latin1ToUpper "a_").2.2 (by decide),
   (ToCamelCase_segments latin1ToUpper "a__b").2.2 (by decide)⟩

/-- Reading the heap after one node was overwritten. -/
theorem heap_set_get {α : Type} (h : List α) (i j : Nat) (v : α) :
    (h.set i v)[j]? = if i = j ∧ i < h.length then some v else h[j]? := by
  by_cases hij : i = j
  · subst hij
    by_cases hi : i < h.length
    · simp [hi]
    · have h1 : (h.set i v)[i]? = none := by simp; omega
      have h2 : h[i]? = none := by simp; omega
      simp only [hi, and_false, if_false, h1, h2]
  · simp [hij]

/-- Reading the heap after one node was allocated. -/
theorem heap_push_get {α : Type} (h : List α) (x : α) (j : Nat) :
    (h ++ [x])[j]? = if j = h.length then some x else h[j]? := by
  by_cases hj : j = h.length
  · subst hj; simp
  · rw [if_neg hj]
    by_cases hlt : j < h.length
    · simp [hlt, List.getElem?_append_left]
    · have h1 : h.length < j := by omega
      have h2 : (h ++ [x])[j]? = none := by simp; omega
      have h3 : h[j]? = none := by simp; omega
      rw [h2, h3]

/-- A pointer that reads a node points into the heap. -/
theorem heap_get_lt {α : Type} (h : List α) (i : Nat) (v : α) (hv : h[i]? = some v) :
    i < h.length :=
  (List.getElem?_eq_some_iff.mp hv).1

/-- A node that a pointer reads is a node of the heap. -/
theorem heap_get_mem {α : Type} (h : List α) (i : Nat) (v : α) (hv : h[i]? = some v) :
    v ∈ h := by
  obtain ⟨hi, hv2⟩ := List.getElem?_eq_some_iff.mp hv
  rw [← hv2]
  exact List.getElem_mem hi

/-- Every node of the heap is read by some pointer. -/
theorem heap_mem_get {α : Type} (h : List α) (v : α) (hv : v ∈ h) :
    ∃ i : Nat, h[i]? = some v := by
  obtain ⟨i, hi, hv2⟩ := List.getElem_of_mem hv
  exact ⟨i, List.getElem?_eq_some_iff.mpr ⟨hi, hv2⟩⟩

/-- A key that a map sends to a value is stored with that value. -/
theorem mem_of_mapGet {V : Type} (k : String) (v : V) :
    ∀ m : List (String × V), mapGet m k = some v → (k, v) ∈ m := by
  intro m
  induction m with
  | nil => intro h; simp [mapGet] at h
  | cons e r ih =>
    obtain ⟨k1, v1⟩ := e
    intro h
    by_cases hk : k1 = k
    · simp only [mapGet, if_pos hk, Option.some.injEq] at h
      rw [hk, h]
      exact List.mem_cons_self _ _
    · simp only [mapGet, if_neg hk] at h
      exact List.mem_cons_of_mem _ (ih h)

/-- The three ways in which one turn of the loop of `registerType` ends: the
segment is passed over, the child is found, or the child is created. -/
theorem registerTypeNode_cases (h : Registry) (pkg : ProtoPackagePtr) (node : String)
    (h2 : Registry) (pkg2 : ProtoPackagePtr)
    (hstep : registerTypeNode h pkg node = .ok (h2, pkg2)) :
    (pkg = globalPkg ∧ node = "" ∧ h2 = h ∧ pkg2 = pkg) ∨
    (¬ (pkg = globalPkg ∧ node = "") ∧ ∃ p : ProtoPackage, h[pkg]? = some p ∧
      mapGet p.children node = some pkg2 ∧ h2 = h) ∨
    (¬ (pkg = globalPkg ∧ node = "") ∧ ∃ p : ProtoPackage, h[pkg]? = some p ∧
      mapGet p.children node = none ∧ pkg2 = h.length ∧
      h2 = (h ++ [({ name := p.name ++ "." ++ node, parent := some pkg,
                     children := [], types := [] } : ProtoPackage)]).set pkg
             { p with children := mapSet p.children node h.length }) := by
  unfold registerTypeNode at hstep
  by_cases hskip : pkg = globalPkg ∧ node = ""
  · rw [if_pos hskip] at hstep
    simp only [Except.ok.injEq, Prod.mk.injEq] at hstep
    exact Or.inl ⟨hskip.1, hskip.2, hstep.1.symm, hstep.2.symm⟩
  · rw [if_neg hskip] at hstep
    cases hp : h[pkg]? with
    | none => rw [hp] at hstep; simp at hstep
    | some p =>
      rw [hp] at hstep
      dsimp only at hstep
      cases hc : mapGet p.children node with
      | some child =>
        rw [hc] at hstep
        simp only [Except.ok.injEq, Prod.mk.injEq] at hstep
        exact Or.inr (Or.inl ⟨hskip, p, rfl, by rw [hc, hstep.2], hstep.1.symm⟩)
      | none =>
        rw [hc] at hstep
        simp only [Except.ok.injEq, Prod.mk.injEq] at hstep
        exact Or.inr (Or.inr ⟨hskip, p, rfl, hc, hstep.2.symm, hstep.1.symm⟩)

/-- A heap keeps its own tree. -/
theorem keepsTree_refl (h : Registry) : keepsTree h h :=
  ⟨Nat.le_refl _, fun _ node hn => ⟨node, hn, rfl, rfl, fun _ _ hc => hc, fun _ _ hc => Or.inl hc⟩⟩

/-- Keeping the tree goes through a heap in between. -/
theorem keepsTree_trans (h1 h2 h3 : Registry) (h12 : keepsTree h1 h2) (h23 : keepsTree h2 h3) :
    keepsTree h1 h3 := by
  refine ⟨Nat.le_trans h12.1 h23.1, fun i node hn => ?_⟩
  obtain ⟨node2, hn2, a1, a2, a3, a4⟩ := h12.2 i node hn
  obtain ⟨node3, hn3, b1, b2, b3, b4⟩ := h23.2 i node2 hn2
  refine ⟨node3, hn3, b1.trans a1, b2.trans a2, fun k c hc => b3 k c (a3 k c hc), fun k c hc => ?_⟩
  rcases b4 k c hc with hc2 | hc2
  · exact a4 k c hc2
  · exact Or.inr (Nat.le_trans h12.1 hc2)

/-- A heap keeps its own type mappings. -/
theorem keepsTypes_refl (h : Registry) : keepsTypes h h := by
  refine ⟨fun i node node2 hn hn2 => ?_, fun i node2 hi hn2 => ?_⟩
  · rw [hn] at hn2
    simp only [Option.some.injEq] at hn2
    rw [hn2]
  · have := heap_get_lt h i node2 hn2
    exact absurd this (by omega)

/-- Keeping the type mappings goes through a heap in between. -/
theorem keepsTypes_trans (h1 h2 h3 : Registry) (t12 : keepsTree h1 h2)
    (k12 : keepsTypes h1 h2) (k23 : keepsTypes h2 h3) : keepsTypes h1 h3 := by
  refine ⟨fun i node node3 hn hn3 => ?_, fun i node3 hi hn3 => ?_⟩
  · obtain ⟨node2, hn2, _⟩ := t12.2 i node hn
    exact (k23.1 i node2 node3 hn2 hn3).trans (k12.1 i node node2 hn hn2)
  · by_cases hlt : i < h2.length
    · obtain ⟨node2, hn2⟩ : ∃ node2 : ProtoPackage, h2[i]? = some node2 :=
        ⟨h2.get ⟨i, hlt⟩, List.getElem?_eq_some_iff.mpr ⟨hlt, rfl⟩⟩
      exact (k23.1 i node2 node3 hn2 hn3).trans (k12.2 i node2 hi hn2)
    · exact k23.2 i node3 (Nat.le_of_not_lt hlt) hn3

/-- Reading the heap after a turn of the loop of `registerType` that created
a child: the node at `pkg` has the new child, the new node is the last one,
and every other node is as before. -/
theorem registerTypeNode_created_get (h : Registry) (pkg : Nat) (p nw : ProtoPackage)
    (children : List (String × ProtoPackagePtr)) (hp : h[pkg]? = some p) (i : Nat) :
    ((h ++ [nw]).set pkg { p with children := children })[i]? =
      if i = pkg then some { p with children := children }
      else if i = h.length then some nw else h[i]? := by
  have hpkg : pkg < h.length := heap_get_lt h pkg p hp
  rw [heap_set_get, heap_push_get]
  have h1 : pkg < (h ++ [nw]).length := by
    simp only [List.length_append, List.length_singleton]; omega
  by_cases hi : i = pkg
  · subst hi
    rw [if_pos ⟨rfl, h1⟩, if_pos rfl]
  · rw [if_neg (fun hh => hi hh.1.symm), if_neg hi]

/-- One turn of the loop of `registerType` keeps the tree and the type
mappings. -/
theorem registerTypeNode_keeps (h : Registry) (pkg : ProtoPackagePtr) (node : String)
    (h2 : Registry) (pkg2 : ProtoPackagePtr)
    (hstep : registerTypeNode h pkg node = .ok (h2, pkg2)) :
    keepsTree h h2 ∧ keepsTypes h h2 := by
  rcases registerTypeNode_cases h pkg node h2 pkg2 hstep with
    ⟨_, _, rfl, _⟩ | ⟨_, _, _, _, rfl⟩ | ⟨_, p, hp, hc, _, hh2⟩
  · exact ⟨keepsTree_refl _, keepsTypes_refl _⟩
  · exact ⟨keepsTree_refl _, keepsTypes_refl _⟩
  · have hpkg : pkg < h.length := heap_get_lt h pkg p hp
    have hget := fun i => registerTypeNode_created_get h pkg p
      { name := p.name ++ "." ++ node, parent := some pkg, children := [], types := [] }
      (mapSet p.children node h.length) hp i
    rw [← hh2] at hget
    have hlen : h2.length = h.length + 1 := by
      rw [hh2]; simp
    refine ⟨⟨by rw [hlen]; exact Nat.le_succ _, fun i nd hn => ?_⟩,
      fun i nd nd2 hn hn2 => ?_, fun i nd2 hi hn2 => ?_⟩
    · have hi := heap_get_lt h i nd hn
      by_cases hi2 : i = pkg
      · rw [hi2, hp] at hn
        simp only [Option.some.injEq] at hn
        subst hn
        refine ⟨{ p with children := mapSet p.children node h.length },
          by rw [hget i, if_pos hi2], rfl, rfl, fun k c hkc => ?_, fun k c hkc => ?_⟩
        · show mapGet (mapSet p.children node h.length) k = some c
          rw [mapGet_mapSet]
          by_cases hk : node = k
          · rw [← hk, hc] at hkc
            simp at hkc
          · rw [if_neg hk]; exact hkc
        · have hkc2 : mapGet (mapSet p.children node h.length) k = some c := hkc
          rw [mapGet_mapSet] at hkc2
          by_cases hk : node = k
          · rw [if_pos hk] at hkc2
            simp only [Option.some.injEq] at hkc2
            exact Or.inr (Nat.le_of_eq hkc2)
          · rw [if_neg hk] at hkc2
            exact Or.inl hkc2
      · have hi3 : i ≠ h.length := Nat.ne_of_lt hi
        exact ⟨nd, by rw [hget i, if_neg hi2, if_neg hi3]; exact hn, rfl, rfl,
          fun _ _ hkc => hkc, fun _ _ hkc => Or.inl hkc⟩
    · have hi := heap_get_lt h i nd hn
      have hi3 : i ≠ h.length := Nat.ne_of_lt hi
      rw [hget i] at hn2
      by_cases hi2 : i = pkg
      · rw [if_pos hi2] at hn2
        rw [hi2, hp] at hn
        simp only [Option.some.injEq] at hn hn2
        rw [← hn2, ← hn]
      · rw [if_neg hi2, if_neg hi3, hn] at hn2
        simp only [Option.some.injEq] at hn2
        rw [hn2]
    · rw [hget i] at hn2
      have hi2 : i ≠ pkg := fun e => Nat.not_lt.mpr hi (e ▸ hpkg)
      rw [if_neg hi2] at hn2
      by_cases hi3 : i = h.length
      · rw [if_pos hi3] at hn2
        simp only [Option.some.injEq] at hn2
        rw [← hn2]
      · rw [if_neg hi3] at hn2
        exact absurd (heap_get_lt h i nd2 hn2) (Nat.not_lt.mpr hi)

/-- A walk that succeeds in a heap succeeds, with the same end, in every heap
that keeps its tree. -/
theorem walk_mono (h h2 : Registry) (hk : keepsTree h h2) :
    ∀ (segs : List String) (q r : ProtoPackagePtr),
      walk h q segs = some r → walk h2 q segs = some r := by
  intro segs
  induction segs with
  | nil => intro q r hw; exact hw
  | cons s rest ih =>
    intro q r hw
    unfold walk at hw ⊢
    cases hq : h[q]? with
    | none => rw [hq] at hw; simp at hw
    | some p =>
      rw [hq] at hw
      dsimp only at hw
      obtain ⟨p2, hq2, _, _, hch, _⟩ := hk.2 q p hq
      rw [hq2]
      dsimp only
      cases hc : mapGet p.children s with
      | none => rw [hc] at hw; simp at hw
      | some c =>
        rw [hc] at hw
        dsimp only at hw
        rw [hch s c hc]
        exact ih c r hw

/-- The path of a package name that ends at a node in a heap ends at the same
node in every heap that keeps its tree. -/
theorem walkPath_mono (h h2 : Registry) (hk : keepsTree h h2) :
    ∀ (segs : List String) (q r : ProtoPackagePtr),
      walkPath h q segs = some r → walkPath h2 q segs = some r := by
  intro segs
  induction segs with
  | nil => intro q r hw; exact hw
  | cons s rest ih =>
    intro q r hw
    unfold walkPath at hw ⊢
    by_cases hskip : q = globalPkg ∧ s = ""
    · rw [if_pos hskip] at hw ⊢
      exact ih q r hw
    · rw [if_neg hskip] at hw ⊢
      cases hq : h[q]? with
      | none => rw [hq] at hw; simp at hw
      | some p =>
        rw [hq] at hw
        dsimp only at hw
        obtain ⟨p2, hq2, _, _, hch, _⟩ := hk.2 q p hq
        rw [hq2]
        dsimp only
        cases hc : mapGet p.children s with
        | none => rw [hc] at hw; simp at hw
        | some c =>
          rw [hc] at hw
          dsimp only at hw
          rw [hch s c hc]
          exact ih c r hw

/-- Along segments that are not empty, the path of a package name is the
plain walk. -/
theorem walkPath_eq_walk (h : Registry) :
    ∀ (segs : List String) (q : ProtoPackagePtr), (∀ s ∈ segs, s ≠ "") →
      walkPath h q segs = walk h q segs := by
  intro segs
  induction segs with
  | nil => intro q _; rfl
  | cons s rest ih =>
    intro q hne
    unfold walkPath walk
    have hs : ¬ (q = globalPkg ∧ s = "") := fun hh => hne s (List.mem_cons_self _ _) hh.2
    rw [if_neg hs]
    cases h[q]? with
    | none => rfl
    | some p =>
      dsimp only
      cases mapGet p.children s with
      | none => rfl
      | some c => exact ih c (fun x hx => hne x (List.mem_cons_of_mem _ hx))

/-- After one turn of the loop of `registerType`, the segment leads from the
node it started at to the node it ends at; and the only node that the turn
can have allocated is the node it ends at. -/
theorem registerTypeNode_child (h : Registry) (pkg : ProtoPackagePtr) (node : String)
    (h1 : Registry) (pkg1 : ProtoPackagePtr)
    (hstep : registerTypeNode h pkg node = .ok (h1, pkg1)) :
    (∀ (h2 : Registry), keepsTree h1 h2 → ∀ pre : List String,
      walkPath h2 pkg (node :: pre) = walkPath h2 pkg1 pre) ∧
    (∀ i : Nat, h.length ≤ i → i < h1.length → i = pkg1) := by
  rcases registerTypeNode_cases h pkg node h1 pkg1 hstep with
    ⟨hs1, hs2, rfl, rfl⟩ | ⟨hskip, p, hp, hc, rfl⟩ | ⟨hskip, p, hp, hc, hpkg1, hh1⟩
  · refine ⟨fun h2 _ pre => ?_, fun i hi hi2 => absurd hi2 (Nat.not_lt.mpr hi)⟩
    rw [walkPath.eq_def]
    dsimp only
    rw [if_pos ⟨hs1, hs2⟩]
  · refine ⟨fun h2 hk pre => ?_, fun i hi hi2 => absurd hi2 (Nat.not_lt.mpr hi)⟩
    obtain ⟨p2, hq2, _, _, hch, _⟩ := hk.2 pkg p hp
    rw [walkPath.eq_def]
    dsimp only
    rw [if_neg hskip, hq2]
    dsimp only
    rw [hch node pkg1 hc]
  · have hget := fun i => registerTypeNode_created_get h pkg p
      { name := p.name ++ "." ++ node, parent := some pkg, children := [], types := [] }
      (mapSet p.children node h.length) hp i
    rw [← hh1] at hget
    have hlen : h1.length = h.length + 1 := by
      rw [hh1]; simp
    refine ⟨fun h2 hk pre => ?_, fun i hi hi2 => ?_⟩
    · have hp1 : h1[pkg]? = some { p with children := mapSet p.children node h.length } := by
        rw [hget pkg, if_pos rfl]
      obtain ⟨p2, hq2, _, _, hch, _⟩ := hk.2 pkg _ hp1
      have hc1 : mapGet (mapSet p.children node h.length) node = some pkg1 := by
        rw [mapGet_mapSet, if_pos rfl, hpkg1]
      rw [walkPath.eq_def]
      dsimp only
      rw [if_neg hskip, hq2]
      dsimp only
      rw [hch node pkg1 hc1]
    · rw [hlen] at hi2
      rw [hpkg1]
      exact Nat.le_antisymm (Nat.le_of_lt_succ hi2) hi

/-- The loop of `registerType`: it keeps the tree and the type mappings, the
path along its segments ends at the node it returns, and every node it
allocates lies on that path. -/
theorem registerTypeLoop_spec :
    ∀ (segs : List String) (h : Registry) (pkg : ProtoPackagePtr) (h2 : Registry)
      (t : ProtoPackagePtr), registerTypeLoop segs h pkg = .ok (h2, t) →
      keepsTree h h2 ∧ keepsTypes h h2 ∧ walkPath h2 pkg segs = some t ∧
      ∀ i : Nat, h.length ≤ i → i < h2.length →
        ∃ pre post : List String, segs = pre ++ post ∧ walkPath h2 pkg pre = some i := by
  intro segs
  induction segs with
  | nil =>
    intro h pkg h2 t hloop
    simp only [registerTypeLoop, Except.ok.injEq, Prod.mk.injEq] at hloop
    obtain ⟨rfl, rfl⟩ := hloop
    exact ⟨keepsTree_refl _, keepsTypes_refl _, rfl,
      fun i hi hi2 => absurd hi2 (Nat.not_lt.mpr hi)⟩
  | cons s rest ih =>
    intro h pkg h2 t hloop
    unfold registerTypeLoop at hloop
    cases hstep : registerTypeNode h pkg s with
    | error crash => rw [hstep] at hloop; simp at hloop
    | ok v =>
      obtain ⟨h1, pkg1⟩ := v
      rw [hstep] at hloop
      dsimp only at hloop
      obtain ⟨k1, t1⟩ := registerTypeNode_keeps h pkg s h1 pkg1 hstep
      obtain ⟨hwalk, hnew⟩ := registerTypeNode_child h pkg s h1 pkg1 hstep
      obtain ⟨k2, t2, hw2, hnew2⟩ := ih h1 pkg1 h2 t hloop
      refine ⟨keepsTree_trans _ _ _ k1 k2, keepsTypes_trans _ _ _ k1 t1 t2, ?_, ?_⟩
      · rw [hwalk h2 k2 rest]
        exact hw2
      · intro i hi hi2
        by_cases hlt : i < h1.length
        · refine ⟨[s], rest, rfl, ?_⟩
          rw [hwalk h2 k2 [], hnew i hi hlt]
          rfl
        · obtain ⟨pre, post, hsplit, hw⟩ := hnew2 i (Nat.le_of_not_lt hlt) hi2
          refine ⟨s :: pre, post, by rw [hsplit]; rfl, ?_⟩
          rw [hwalk h2 k2 pre]
          exact hw

/-- Reading the heap after the last statement of `registerType`, which writes
the type mapping of the node `t`. -/
theorem registerType_stored_get (h2 : Registry) (t : Nat) (p : ProtoPackage)
    (types : List (String × DescriptorProto)) (hp : h2[t]? = some p) (i : Nat) :
    (h2.set t { p with types := types })[i]? =
      if i = t then some { p with types := types } else h2[i]? := by
  have ht : t < h2.length := heap_get_lt h2 t p hp
  rw [heap_set_get]
  by_cases hi : i = t
  · subst hi
    rw [if_pos ⟨rfl, ht⟩, if_pos rfl]
  · rw [if_neg (fun hh => hi hh.1.symm), if_neg hi]

/-- A call of `registerType` that returns ran its loop to a node `t` and then
wrote the type mapping of that node. -/
theorem registerType_cases (h : Registry) (pkgName : Option String) (m : DescriptorProto)
    (h3 : Registry) (hreg : registerType h pkgName m = .ok h3) :
    ∃ (h2 : Registry) (t : ProtoPackagePtr) (p : ProtoPackage),
      registerTypeLoop (registerTypeSegments pkgName) h globalPkg = .ok (h2, t) ∧
      h2[t]? = some p ∧ h3 = h2.set t { p with types := mapSet p.types m.GetName m } := by
  unfold registerType at hreg
  cases hloop : registerTypeLoop (registerTypeSegments pkgName) h globalPkg with
  | error crash => rw [hloop] at hreg; simp at hreg
  | ok v =>
    obtain ⟨h2, t⟩ := v
    rw [hloop] at hreg
    dsimp only at hreg
    cases hp : h2[t]? with
    | none => rw [hp] at hreg; simp at hreg
    | some p =>
      rw [hp] at hreg
      simp only [Except.ok.injEq] at hreg
      exact ⟨h2, t, p, rfl, hp, hreg.symm⟩

/-- The last statement of `registerType` keeps the tree. -/
theorem registerType_stored_keepsTree (h2 : Registry) (t : Nat) (p : ProtoPackage)
    (types : List (String × DescriptorProto)) (hp : h2[t]? = some p) :
    keepsTree h2 (h2.set t { p with types := types }) := by
  refine ⟨by simp, fun i node hn => ?_⟩
  rw [registerType_stored_get h2 t p types hp i]
  by_cases hi : i = t
  · rw [hi, hp] at hn
    simp only [Option.some.injEq] at hn
    subst hn
    rw [if_pos hi]
    exact ⟨_, rfl, rfl, rfl, fun _ _ hc => hc, fun _ _ hc => Or.inl hc⟩
  · rw [if_neg hi]
    exact ⟨node, hn, rfl, rfl, fun _ _ hc => hc, fun _ _ hc => Or.inl hc⟩

/-- The initial registry is well formed. -/
theorem wellFormed_initialRegistry : wellFormed initialRegistry := by
  refine ⟨by decide, fun i node hn k c hc => ?_⟩
  cases i with
  | zero =>
    simp only [initialRegistry, List.getElem?_cons_zero, Option.some.injEq] at hn
    rw [← hn] at hc
    simp [mapGet] at hc
  | succ j =>
    simp [initialRegistry] at hn

/-- One turn of the loop of `registerType` on a well-formed heap, at a node of
the heap, returns a well-formed heap and a node of it. -/
theorem registerTypeNode_ok (h : Registry) (pkg : ProtoPackagePtr) (node : String)
    (hwf : wellFormed h) (hpkg : pkg < h.length) :
    ∃ (h1 : Registry) (pkg1 : ProtoPackagePtr),
      registerTypeNode h pkg node = .ok (h1, pkg1) ∧ wellFormed h1 ∧ pkg1 < h1.length := by
  obtain ⟨p, hp⟩ : ∃ p : ProtoPackage, h[pkg]? = some p :=
    ⟨h.get ⟨pkg, hpkg⟩, List.getElem?_eq_some_iff.mpr ⟨hpkg, rfl⟩⟩
  unfold registerTypeNode
  by_cases hskip : pkg = globalPkg ∧ node = ""
  · rw [if_pos hskip]
    exact ⟨h, pkg, rfl, hwf, hpkg⟩
  · rw [if_neg hskip, hp]
    dsimp only
    cases hc : mapGet p.children node with
    | some child =>
      exact ⟨h, child, rfl, hwf, hwf.2 pkg p hp node child hc⟩
    | none =>
      dsimp only
      refine ⟨_, _, rfl, ?_, by simp⟩
      have hget := fun i => registerTypeNode_created_get h pkg p
        { name := p.name ++ "." ++ node, parent := some pkg, children := [], types := [] }
        (mapSet p.children node h.length) hp i
      refine ⟨by simp, fun i nd hn k c hkc => ?_⟩
      rw [List.length_set, List.length_append, List.length_singleton]
      rw [hget i] at hn
      by_cases hi : i = pkg
      · rw [if_pos hi] at hn
        simp only [Option.some.injEq] at hn
        rw [← hn] at hkc
        have hkc2 : mapGet (mapSet p.children node h.length) k = some c := hkc
        rw [mapGet_mapSet] at hkc2
        by_cases hk : node = k
        · rw [if_pos hk] at hkc2
          simp only [Option.some.injEq] at hkc2
          rw [← hkc2]
          exact Nat.lt_succ_self _
        · rw [if_neg hk] at hkc2
          exact Nat.lt_succ_of_lt (hwf.2 pkg p hp k c hkc2)
      · rw [if_neg hi] at hn
        by_cases hi2 : i = h.length
        · rw [if_pos hi2] at hn
          simp only [Option.some.injEq] at hn
          rw [← hn] at hkc
          simp [mapGet] at hkc
        · rw [if_neg hi2] at hn
          exact Nat.lt_succ_of_lt (hwf.2 i nd hn k c hkc)

/-- The loop of `registerType` on a well-formed heap, from a node of the heap,
returns a well-formed heap and a node of it. -/
theorem registerTypeLoop_ok :
    ∀ (segs : List String) (h : Registry) (pkg : ProtoPackagePtr),
      wellFormed h → pkg < h.length →
      ∃ (h2 : Registry) (t : ProtoPackagePtr),
        registerTypeLoop segs h pkg = .ok (h2, t) ∧ wellFormed h2 ∧ t < h2.length := by
  intro segs
  induction segs with
  | nil => intro h pkg hwf hpkg; exact ⟨h, pkg, rfl, hwf, hpkg⟩
  | cons s rest ih =>
    intro h pkg hwf hpkg
    obtain ⟨h1, pkg1, hstep, hwf1, hpkg1⟩ := registerTypeNode_ok h pkg s hwf hpkg
    obtain ⟨h2, t, hloop, hwf2, ht⟩ := ih h1 pkg1 hwf1 hpkg1
    refine ⟨h2, t, ?_, hwf2, ht⟩
    unfold registerTypeLoop
    rw [hstep]
    exact hloop

/-- The last statement of `registerType` keeps a heap well formed. -/
theorem registerType_stored_wellFormed (h2 : Registry) (t : Nat) (p : ProtoPackage)
    (types : List (String × DescriptorProto)) (hp : h2[t]? = some p) (hwf : wellFormed h2) :
    wellFormed (h2.set t { p with types := types }) := by
  have hlen : (h2.set t { p with types := types }).length = h2.length := by simp
  refine ⟨by rw [hlen]; exact hwf.1, fun i nd hn k c hkc => ?_⟩
  rw [hlen]
  rw [registerType_stored_get h2 t p types hp i] at hn
  by_cases hi : i = t
  · rw [if_pos hi] at hn
    simp only [Option.some.injEq] at hn
    rw [← hn] at hkc
    exact hwf.2 t p hp k c hkc
  · rw [if_neg hi] at hn
    exact hwf.2 i nd hn k c hkc

/-- Function `registerType` returns on every well-formed heap, and the heap it
returns is well formed. -/
theorem registerType_ok (h : Registry) (pkgName : Option String) (m : DescriptorProto)
    (hwf : wellFormed h) :
    ∃ h3 : Registry, registerType h pkgName m = .ok h3 ∧ wellFormed h3 := by
  obtain ⟨h2, t, hloop, hwf2, ht⟩ :=
    registerTypeLoop_ok (registerTypeSegments pkgName) h globalPkg hwf hwf.1
  obtain ⟨p, hp⟩ : ∃ p : ProtoPackage, h2[t]? = some p :=
    ⟨h2.get ⟨t, ht⟩, List.getElem?_eq_some_iff.mpr ⟨ht, rfl⟩⟩
  refine ⟨h2.set t { p with types := mapSet p.types m.GetName m }, ?_,
    registerType_stored_wellFormed h2 t p _ hp hwf2⟩
  unfold registerType
  rw [hloop]
  dsimp only
  rw [hp]

/-- What a call of `registerType` that returns leaves behind: the tree is
kept, the path of the package name ends at a node `t` whose type mapping sends
the name of the message to the message, and the type mappings are those of
the loop but for that entry. -/
theorem registerType_spec (h : Registry) (pkgName : Option String) (m : DescriptorProto)
    (h3 : Registry) (hreg : registerType h pkgName m = .ok h3) :
    ∃ (h2 : Registry) (t : ProtoPackagePtr) (p : ProtoPackage),
      keepsTree h h2 ∧ keepsTypes h h2 ∧ keepsTree h2 h3 ∧ keepsTree h h3 ∧
      walkPath h3 globalPkg (registerTypeSegments pkgName) = some t ∧
      h2[t]? = some p ∧
      (∀ i : Nat, h3[i]? =
        if i = t then some { p with types := mapSet p.types m.GetName m } else h2[i]?) ∧
      (∀ i : Nat, h.length ≤ i → i < h3.length →
        ∃ pre post : List String, registerTypeSegments pkgName = pre ++ post ∧
          walkPath h3 globalPkg pre = some i) := by
  obtain ⟨h2, t, p, hloop, hp, hh3⟩ := registerType_cases h pkgName m h3 hreg
  obtain ⟨k12, t12, hw, hnew⟩ := registerTypeLoop_spec _ h globalPkg h2 t hloop
  have k23 : keepsTree h2 h3 := by
    rw [hh3]; exact registerType_stored_keepsTree h2 t p _ hp
  have hlen : h3.length = h2.length := by rw [hh3]; simp
  refine ⟨h2, t, p, k12, t12, k23, keepsTree_trans _ _ _ k12 k23,
    walkPath_mono h2 h3 k23 _ _ _ hw, hp, fun i => ?_, fun i hi hi2 => ?_⟩
  · rw [hh3]; exact registerType_stored_get h2 t p _ hp i
  · obtain ⟨pre, post, hsplit, hwi⟩ := hnew i hi (by rw [← hlen]; exact hi2)
    exact ⟨pre, post, hsplit, walkPath_mono h2 h3 k23 _ _ _ hwi⟩

/-- A leading separator gives an empty first segment and leaves the other
segments as they are. -/
theorem Split_leading_separator (p : String) : Split ("." ++ p) '.' = "" :: Split p '.' := by
  unfold Split
  have hdata : ("." ++ p).data = '.' :: p.data := by
    rw [String.data_append]; rfl
  rw [hdata, splitChars_cons]
  cases hs : splitChars '.' p.data with
  | nil => exact absurd hs (splitChars_ne_nil '.' p.data)
  | cons a b =>
    dsimp only
    rw [if_pos rfl]
    rfl

/-- The loop of `registerType` passes over an empty segment met at the root. -/
theorem registerTypeLoop_skip (segs : List String) (h : Registry) :
    registerTypeLoop ("" :: segs) h globalPkg = registerTypeLoop segs h globalPkg := by
  rw [registerTypeLoop.eq_def]
  dsimp only
  have hstep : registerTypeNode h globalPkg "" = .ok (h, globalPkg) := by
    unfold registerTypeNode
    rw [if_pos ⟨rfl, rfl⟩]
  rw [hstep]

/-- Claim C12: a leading separator in the package name is a no-op: for every
registry state, every package name `p` (the empty one included) and every
message, `registerType` with `"." ++ p` ends exactly as `registerType` with
`p`; and for an absent or empty package name the message is stored in the type
mapping of the root node, no node is created and nothing else changes. -/
theorem registerType_leading_separator (h : Registry) (m : DescriptorProto) :
    (∀ p : String, registerType h (some ("." ++ p)) m = registerType h (some p) m) ∧
    (∀ (root : ProtoPackage) (others : Registry), h = root :: others →
      registerType h none m =
        .ok ({ root with types := mapSet root.types m.GetName m } :: others) ∧
      registerType h (some "") m =
        .ok ({ root with types := mapSet root.types m.GetName m } :: others) ∧
      registerType h (some ".") m =
        .ok ({ root with types := mapSet root.types m.GetName m } :: others)) := by
  constructor
  · intro p
    unfold registerType registerTypeSegments
    dsimp only
    rw [Split_leading_separator, registerTypeLoop_skip]
  · intro root others hh
    subst hh
    have hempty : Split "" '.' = [""] := rfl
    have hdot : Split "." '.' = ["", ""] := by decide
    have hnone : registerType (root :: others) none m =
        .ok ({ root with types := mapSet root.types m.GetName m } :: others) := by
      unfold registerType registerTypeSegments
      simp [registerTypeLoop, globalPkg]
    refine ⟨hnone, ?_, ?_⟩
    · rw [← hnone]
      unfold registerType registerTypeSegments
      dsimp only
      rw [hempty, registerTypeLoop_skip]
    · rw [← hnone]
      unfold registerType registerTypeSegments
      dsimp only
      rw [hdot, registerTypeLoop_skip, registerTypeLoop_skip]

/-- Examples for C12 on the initial registry: the package names `.a.b` and
`a.b` give the same registry, and an absent package name stores the message
in the root node. -/
theorem registerType_leading_separator_examples :
    registerType initialRegistry (some ".a.b") (namedMessage "M") = .ok exampleRegistry ∧
    registerType initialRegistry (some "a.b") (namedMessage "M") = .ok exampleRegistry ∧
    registerType initialRegistry none (namedMessage "M") =
      .ok [{ name := "", parent := none, children := [],
             types := [("M", namedMessage "M")] }] :=
  ⟨rfl, rfl, rfl⟩

/-- Claim C11: on every well-formed registry state `registerType` returns,
whatever the package name; and for every package name whose segments
`s1, ..., sn` are all non-empty and every message `m`, walking the child
mappings of the registry it returns from the root along `s1, ..., sn` reaches
a node whose type mapping sends the name of `m` to `m`, whatever was stored
under that name before. -/
theorem registerType_stores (h : Registry) (m : DescriptorProto) (hwf : wellFormed h) :
    (∀ pkgName : Option String, ∃ h3 : Registry,
      registerType h pkgName m = .ok h3 ∧ wellFormed h3) ∧
    (∀ p : String, (∀ s ∈ Split p '.', s ≠ "") →
      ∃ (h3 : Registry) (t : ProtoPackagePtr) (node : ProtoPackage),
        registerType h (some p) m = .ok h3 ∧
        walk h3 globalPkg (Split p '.') = some t ∧ h3[t]? = some node ∧
        mapGet node.types m.GetName = some m) := by
  refine ⟨fun pkgName => registerType_ok h pkgName m hwf, fun p hsegs => ?_⟩
  obtain ⟨h3, hreg, _⟩ := registerType_ok h (some p) m hwf
  obtain ⟨h2, t, nd, _, _, _, _, hw, _, hget, _⟩ := registerType_spec h (some p) m h3 hreg
  refine ⟨h3, t, { nd with types := mapSet nd.types m.GetName m }, hreg, ?_, ?_, ?_⟩
  · rw [← walkPath_eq_walk h3 _ globalPkg hsegs]
    exact hw
  · rw [hget t, if_pos rfl]
  · exact mapGet_mapSet_same _ _ _

/-- Witness for C11: the message `M` registered in the package `a.b`, starting
from the initial registry. -/
theorem registerType_stores_witness :
    wellFormed initialRegistry ∧
    ∃ (h3 : Registry) (t : ProtoPackagePtr) (node : ProtoPackage),
      registerType initialRegistry (some "a.b") (namedMessage "M") = .ok h3 ∧
      walk h3 globalPkg (Split "a.b" '.') = some t ∧ h3[t]? = some node ∧
      mapGet node.types (namedMessage "M").GetName = some (namedMessage "M") :=
  ⟨wellFormed_initialRegistry,
   (registerType_stores initialRegistry (namedMessage "M") wellFormed_initialRegistry).2 "a.b"
     (by decide)⟩

/-- Example for C11: registering a second message of the same name in the same
package overwrites the first. -/
theorem registerType_overwrites_example :
    registerType exampleRegistry (some "a.b")
        { Name := "M", Field := [], NestedType := [namedMessage "N"], EnumType := [],
          Options := none } =
      .ok [{ name := "", parent := none, children := [("a", 1)], types := [] },
           { name := ".a", parent := some 0, children := [("b", 2)], types := [] },
           { name := ".a.b", parent := some 1, children := [],
             types := [("M", { Name := "M", Field := [], NestedType := [namedMessage "N"],
                               EnumType := [], Options := none })] }] ∧
    walk exampleRegistry globalPkg ["a", "b"] = some 2 :=
  ⟨rfl, rfl⟩

/-- The initial registry is a strict hierarchy. -/
theorem strictHierarchy_initialRegistry : strictHierarchy initialRegistry := by
  refine ⟨⟨_, rfl, rfl, rfl⟩, fun q nd hn k c hc => ?_⟩
  cases q with
  | zero =>
    simp only [initialRegistry, List.getElem?_cons_zero, Option.some.injEq] at hn
    rw [← hn] at hc
    simp [mapGet] at hc
  | succ j =>
    simp [initialRegistry] at hn

/-- One turn of the loop of `registerType` keeps the tree a strict hierarchy. -/
theorem registerTypeNode_strictHierarchy (h : Registry) (pkg : ProtoPackagePtr) (node : String)
    (h1 : Registry) (pkg1 : ProtoPackagePtr)
    (hstep : registerTypeNode h pkg node = .ok (h1, pkg1)) (hS : strictHierarchy h) :
    strictHierarchy h1 := by
  obtain ⟨k1, _⟩ := registerTypeNode_keeps h pkg node h1 pkg1 hstep
  rcases registerTypeNode_cases h pkg node h1 pkg1 hstep with
    ⟨_, _, rfl, _⟩ | ⟨_, _, _, _, rfl⟩ | ⟨_, p, hp, hc, _, hh1⟩
  · exact hS
  · exact hS
  · have hpkg : pkg < h.length := heap_get_lt h pkg p hp
    have hget := fun i => registerTypeNode_created_get h pkg p
      { name := p.name ++ "." ++ node, parent := some pkg, children := [], types := [] }
      (mapSet p.children node h.length) hp i
    rw [← hh1] at hget
    have hkeep : ∀ (c : ProtoPackagePtr) (child : ProtoPackage) (q : ProtoPackagePtr)
        (name : String), h[c]? = some child → child.parent = some q → child.name = name →
        ∃ child1 : ProtoPackage, h1[c]? = some child1 ∧ child1.parent = some q ∧
          child1.name = name := by
      intro c child q name hchild hpar hname
      obtain ⟨child1, hc1, a1, a2, _, _⟩ := k1.2 c child hchild
      exact ⟨child1, hc1, a2.trans hpar, a1.trans hname⟩
    obtain ⟨⟨root, hroot, hrn, hrp⟩, hch⟩ := hS
    refine ⟨?_, fun q nd hn k c hkc => ?_⟩
    · obtain ⟨root1, hr1, a1, a2, _, _⟩ := k1.2 globalPkg root hroot
      exact ⟨root1, hr1, a1.trans hrn, a2.trans hrp⟩
    · rw [hget q] at hn
      by_cases hq : q = pkg
      · rw [if_pos hq] at hn
        simp only [Option.some.injEq] at hn
        rw [← hn] at hkc ⊢
        have hkc2 : mapGet (mapSet p.children node h.length) k = some c := hkc
        rw [mapGet_mapSet] at hkc2
        by_cases hk : node = k
        · rw [if_pos hk] at hkc2
          simp only [Option.some.injEq] at hkc2
          have hne : ¬ h.length = pkg := fun e => Nat.lt_irrefl _ (e ▸ hpkg)
          refine ⟨{ name := p.name ++ "." ++ node, parent := some pkg, children := [],
                    types := [] }, ?_, ?_, ?_⟩
          · rw [← hkc2, hget h.length, if_neg hne, if_pos rfl]
          · rw [hq]
          · rw [hk]
        · rw [if_neg hk] at hkc2
          obtain ⟨child, hchild, hpar, hname⟩ := hch pkg p hp k c hkc2
          rw [hq]
          exact hkeep c child pkg _ hchild hpar hname
      · rw [if_neg hq] at hn
        by_cases hq2 : q = h.length
        · rw [if_pos hq2] at hn
          simp only [Option.some.injEq] at hn
          rw [← hn] at hkc
          simp [mapGet] at hkc
        · rw [if_neg hq2] at hn
          obtain ⟨child, hchild, hpar, hname⟩ := hch q nd hn k c hkc
          exact hkeep c child q _ hchild hpar hname

/-- The loop of `registerType` keeps the tree a strict hierarchy. -/
theorem registerTypeLoop_strictHierarchy :
    ∀ (segs : List String) (h : Registry) (pkg : ProtoPackagePtr) (h2 : Registry)
      (t : ProtoPackagePtr), registerTypeLoop segs h pkg = .ok (h2, t) →
      strictHierarchy h → strictHierarchy h2 := by
  intro segs
  induction segs with
  | nil =>
    intro h pkg h2 t hloop hS
    simp only [registerTypeLoop, Except.ok.injEq, Prod.mk.injEq] at hloop
    rw [← hloop.1]
    exact hS
  | cons s rest ih =>
    intro h pkg h2 t hloop hS
    unfold registerTypeLoop at hloop
    cases hstep : registerTypeNode h pkg s with
    | error crash => rw [hstep] at hloop; simp at hloop
    | ok v =>
      obtain ⟨h1, pkg1⟩ := v
      rw [hstep] at hloop
      dsimp only at hloop
      exact ih h1 pkg1 h2 t hloop (registerTypeNode_strictHierarchy h pkg s h1 pkg1 hstep hS)

/-- A call of `registerType` keeps the tree a strict hierarchy. -/
theorem registerType_strictHierarchy (h : Registry) (pkgName : Option String)
    (m : DescriptorProto) (h3 : Registry) (hreg : registerType h pkgName m = .ok h3)
    (hS : strictHierarchy h) : strictHierarchy h3 := by
  obtain ⟨h2, t, p, hloop, hp, hh3⟩ := registerType_cases h pkgName m h3 hreg
  have hS2 := registerTypeLoop_strictHierarchy _ h globalPkg h2 t hloop hS
  have k23 : keepsTree h2 h3 := by
    rw [hh3]; exact registerType_stored_keepsTree h2 t p _ hp
  have hget : ∀ i : Nat, h3[i]? =
      if i = t then some { p with types := mapSet p.types m.GetName m } else h2[i]? := by
    intro i; rw [hh3]; exact registerType_stored_get h2 t p _ hp i
  obtain ⟨⟨root, hroot, hrn, hrp⟩, hch⟩ := hS2
  have hkeep : ∀ (c : ProtoPackagePtr) (child : ProtoPackage) (q : ProtoPackagePtr)
      (name : String), h2[c]? = some child → child.parent = some q → child.name = name →
      ∃ child1 : ProtoPackage, h3[c]? = some child1 ∧ child1.parent = some q ∧
        child1.name = name := by
    intro c child q name hchild hpar hname
    obtain ⟨child1, hc1, a1, a2, _, _⟩ := k23.2 c child hchild
    exact ⟨child1, hc1, a2.trans hpar, a1.trans hname⟩
  refine ⟨?_, fun q nd hn k c hkc => ?_⟩
  · obtain ⟨root1, hr1, a1, a2, _, _⟩ := k23.2 globalPkg root hroot
    exact ⟨root1, hr1, a1.trans hrn, a2.trans hrp⟩
  · rw [hget q] at hn
    by_cases hq : q = t
    · rw [if_pos hq] at hn
      simp only [Option.some.injEq] at hn
      rw [← hn] at hkc ⊢
      obtain ⟨child, hchild, hpar, hname⟩ := hch t p hp k c hkc
      rw [hq]
      exact hkeep c child t _ hchild hpar hname
    · rw [if_neg hq] at hn
      obtain ⟨child, hchild, hpar, hname⟩ := hch q nd hn k c hkc
      exact hkeep c child q _ hchild hpar hname

/-- Every reachable registry state is a strict hierarchy. -/
theorem Reachable_strictHierarchy (h : Registry) (hr : Reachable h) : strictHierarchy h := by
  induction hr with
  | initial => exact strictHierarchy_initialRegistry
  | register heap pkgName msg heap2 _ hreg ih =>
    exact registerType_strictHierarchy heap pkgName msg heap2 hreg ih

/-- A strict hierarchy is well formed. -/
theorem strictHierarchy_wellFormed (h : Registry) (hS : strictHierarchy h) : wellFormed h := by
  obtain ⟨⟨root, hroot, _, _⟩, hch⟩ := hS
  refine ⟨heap_get_lt h globalPkg root hroot, fun i node hn k c hc => ?_⟩
  obtain ⟨child, hchild, _, _⟩ := hch i node hn k c hc
  exact heap_get_lt h c child hchild

/-- On a reachable registry state, `registerType` returns. -/
theorem Reachable_registerType_ok (h : Registry) (hr : Reachable h) (pkgName : Option String)
    (m : DescriptorProto) : ∃ h3 : Registry, registerType h pkgName m = .ok h3 ∧ Reachable h3 := by
  obtain ⟨h3, hreg, _⟩ :=
    registerType_ok h pkgName m (strictHierarchy_wellFormed h (Reachable_strictHierarchy h hr))
  exact ⟨h3, hreg, Reachable.register h pkgName m h3 hr hreg⟩

/-- Claim C18: in every registry state reachable from the initial root by any
sequence of `registerType` calls, the tree is a strict hierarchy: the root has
the empty name and no parent, and every node stored under the segment `k` in
the child mapping of a node `p` has the parent `p` and the name of `p` followed
by `.` and `k`; so no node is stored in the child mappings of two nodes. -/
theorem registerType_strict_hierarchy (h : Registry) (hr : Reachable h) :
    (∃ root : ProtoPackage,
      h[globalPkg]? = some root ∧ root.name = "" ∧ root.parent = none) ∧
    (∀ (p : ProtoPackagePtr) (node : ProtoPackage), h[p]? = some node →
      ∀ (k : String) (c : ProtoPackagePtr), mapGet node.children k = some c →
        ∃ child : ProtoPackage, h[c]? = some child ∧ child.parent = some p ∧
          child.name = node.name ++ "." ++ k) ∧
    (∀ (p1 p2 : ProtoPackagePtr) (node1 node2 : ProtoPackage) (k1 k2 : String)
      (c : ProtoPackagePtr), h[p1]? = some node1 → h[p2]? = some node2 →
      mapGet node1.children k1 = some c → mapGet node2.children k2 = some c → p1 = p2) := by
  have hS := Reachable_strictHierarchy h hr
  refine ⟨hS.1, hS.2, fun p1 p2 node1 node2 k1 k2 c hn1 hn2 hc1 hc2 => ?_⟩
  obtain ⟨child1, hchild1, hpar1, _⟩ := hS.2 p1 node1 hn1 k1 c hc1
  obtain ⟨child2, hchild2, hpar2, _⟩ := hS.2 p2 node2 hn2 k2 c hc2
  rw [hchild1] at hchild2
  simp only [Option.some.injEq] at hchild2
  rw [hchild2, hpar2] at hpar1
  simp only [Option.some.injEq] at hpar1
  exact hpar1.symm

/-- The example registry is reachable: it is the state after one call. -/
theorem exampleRegistry_reachable : Reachable exampleRegistry :=
  Reachable.register initialRegistry (some "a.b") (namedMessage "M") exampleRegistry
    Reachable.initial rfl

/-- Witness for C18: the registry after the message `M` was registered in the
package `a.b`. -/
theorem registerType_strict_hierarchy_witness :
    Reachable exampleRegistry ∧
    (∃ root : ProtoPackage,
      exampleRegistry[globalPkg]? = some root ∧ root.name = "" ∧ root.parent = none) ∧
    (∀ (p : ProtoPackagePtr) (node : ProtoPackage), exampleRegistry[p]? = some node →
      ∀ (k : String) (c : ProtoPackagePtr), mapGet node.children k = some c →
        ∃ child : ProtoPackage, exampleRegistry[c]? = some child ∧ child.parent = some p ∧
          child.name = node.name ++ "." ++ k) :=
  ⟨exampleRegistry_reachable,
   (registerType_strict_hierarchy exampleRegistry exampleRegistry_reachable).1,
   (registerType_strict_hierarchy exampleRegistry exampleRegistry_reachable).2.1⟩

/-- Claim C19: a call `registerType(p, m)` that turns the registry `h` into
`h3` changes nothing but the one entry it writes.  With `t` the terminal node
of the path of `p`: every node of `h` is in `h3` at the same address with the
same name and parent, keeps every child under the same segment and gains
children only among the nodes created by the call, so that every walk from the
root ends where it ended before; its type mapping is unchanged when it is not
`t`, and unchanged at every key other than the name of `m` when it is `t`.
Every node of `h3` that is not in `h` lies on the path of `p` and has an empty
type mapping, but for `t`, whose type mapping holds the entry for `m` alone. -/
theorem registerType_frame (h : Registry) (pkgName : Option String) (m : DescriptorProto)
    (h3 : Registry) (hreg : registerType h pkgName m = .ok h3) :
    ∃ t : ProtoPackagePtr,
      walkPath h3 globalPkg (registerTypeSegments pkgName) = some t ∧
      h.length ≤ h3.length ∧
      (∀ (i : ProtoPackagePtr) (node : ProtoPackage), h[i]? = some node →
        ∃ node3 : ProtoPackage, h3[i]? = some node3 ∧ node3.name = node.name ∧
          node3.parent = node.parent ∧
          (∀ (k : String) (c : ProtoPackagePtr),
            mapGet node.children k = some c → mapGet node3.children k = some c) ∧
          (∀ (k : String) (c : ProtoPackagePtr), mapGet node3.children k = some c →
            mapGet node.children k = some c ∨ h.length ≤ c) ∧
          (i ≠ t → node3.types = node.types) ∧
          (i = t → ∀ k : String, k ≠ m.GetName →
            mapGet node3.types k = mapGet node.types k)) ∧
      (∀ (segs : List String) (r : ProtoPackagePtr),
        walk h globalPkg segs = some r → walk h3 globalPkg segs = some r) ∧
      (∀ (i : ProtoPackagePtr) (node3 : ProtoPackage), h.length ≤ i → h3[i]? = some node3 →
        (∃ pre post : List String, registerTypeSegments pkgName = pre ++ post ∧
          walkPath h3 globalPkg pre = some i) ∧
        (i ≠ t → node3.types = []) ∧
        (i = t → node3.types = [(m.GetName, m)])) := by
  obtain ⟨h2, t, p, k12, t12, k23, k13, hw, hp, hget, hnew⟩ :=
    registerType_spec h pkgName m h3 hreg
  refine ⟨t, hw, k13.1, fun i node hn => ?_, fun segs r hwalk => walk_mono h h3 k13 segs _ r hwalk,
    fun i node3 hi hn3 => ?_⟩
  · obtain ⟨node3, hn3, a1, a2, a3, a4⟩ := k13.2 i node hn
    refine ⟨node3, hn3, a1, a2, a3, a4, fun hne => ?_, fun heq k hk => ?_⟩
    · have hn2 : h2[i]? = some node3 := by
        rw [hget i, if_neg hne] at hn3; exact hn3
      exact t12.1 i node node3 hn hn2
    · rw [hget i, if_pos heq] at hn3
      simp only [Option.some.injEq] at hn3
      rw [heq] at hn
      have hpt : p.types = node.types := t12.1 t node p hn hp
      rw [← hn3, ← hpt]
      exact mapGet_mapSet_other m.GetName k m hk p.types
  · refine ⟨hnew i hi (heap_get_lt h3 i node3 hn3), fun hne => ?_, fun heq => ?_⟩
    · have hn2 : h2[i]? = some node3 := by
        rw [hget i, if_neg hne] at hn3; exact hn3
      exact t12.2 i node3 hi hn2
    · rw [hget i, if_pos heq] at hn3
      simp only [Option.some.injEq] at hn3
      have hpt : p.types = [] := t12.2 t p (heq ▸ hi) hp
      rw [← hn3]
      show mapSet p.types m.GetName m = [(m.GetName, m)]
      rw [hpt]
      rfl

/-- Witness for C19: the message `K` registered in the package `a.c` of the
example registry: the node `.a.c` is created under `.a`, and the walks of the
example registry end where they ended. -/
theorem registerType_frame_witness :
    registerType exampleRegistry (some "a.c") (namedMessage "K") = .ok secondRegistry ∧
    ∃ t : ProtoPackagePtr,
      walkPath secondRegistry globalPkg (registerTypeSegments (some "a.c")) = some t ∧
      exampleRegistry.length ≤ secondRegistry.length ∧
      (∀ (segs : List String) (r : ProtoPackagePtr),
        walk exampleRegistry globalPkg segs = some r →
          walk secondRegistry globalPkg segs = some r) :=
  ⟨rfl,
   (registerType_frame exampleRegistry (some "a.c") (namedMessage "K") secondRegistry rfl).imp
     (fun _ ht => ⟨ht.1, ht.2.1, ht.2.2.2.1⟩)⟩


end converter
